import Mathlib

/-!
Verification of the Re-Pair greedy pairwise compressor.

The reference implementation (compressor_solution.py) represents the working
sequence as an index-addressed arena: `char` holds the symbol at each original
position, `prev`/`nxt` are doubly-linked-list pointers (with `-1` as the
"none" sentinel, modelled here by `Option Nat`).  Each round scans the live
chain counting adjacent pairs (recording each pair's occurrence count and the
leftmost start position), selects the pair with the highest count (ties broken
by smaller leftmost position, eligible only with count ≥ 2), and merges every
non-overlapping occurrence left to right, resuming after the right half of a
merge.  Symbols are modelled as natural numbers (Unicode code points), so
`ord('A') = 65` and lowercase letters are `97..122`.

`while` loops over the chain are modelled with explicit fuel; all chains have
strictly increasing indices below `n`, so fuel `n` always suffices.
-/

namespace RePair

abbrev SPair := Nat × Nat

/-- One entry of the per-round pair dictionary: the pair value, its occurrence
count so far, and the position of its leftmost (first-seen) occurrence.
Entries are kept in insertion order, mirroring a Python dict. -/
structure PairRec where
  pair : SPair
  count : Nat
  firstPos : Nat
deriving DecidableEq, Repr

/-- The arena state: `char`, `prev`, `next_arr` of the Python sources,
with `-1` rendered as `none`. -/
structure St where
  char : List Nat
  prev : List (Option Nat)
  nxt : List (Option Nat)
deriving DecidableEq, Repr

/-- Building the doubly linked list from the input
(`prev[i] = i-1` for `i > 0`, `next[i] = i+1` for `i < n-1`). -/
def initSt (text : List Nat) : St :=
  { char := text
    prev := (List.range text.length).map (fun i => if 0 < i then some (i - 1) else none)
    nxt := (List.range text.length).map
      (fun i => if i < text.length - 1 then some (i + 1) else none) }

/-- Materialisation: walk the chain from `i`, collecting symbols
(the final `result` loop of `compress_text`). -/
def mat : Nat → St → Option Nat → List Nat
  | 0, _, _ => []
  | _ + 1, _, none => []
  | fuel + 1, st, some i => st.char.getD i 0 :: mat fuel st (st.nxt.getD i none)

/-- Update of the pair dictionary at one scan position: a new pair is appended
(count 1, first position `i`), an existing pair has its count bumped and its
first position kept. -/
def bump : List PairRec → SPair → Nat → List PairRec
  | [], pr, i => [⟨pr, 1, i⟩]
  | r :: rs, pr, i =>
      if r.pair = pr then ⟨r.pair, r.count + 1, r.firstPos⟩ :: rs else r :: bump rs pr i

/-- The counting loop of a round: walk the live chain from `i`; at each node
with a successor `j`, record the pair `(char[i], char[j])` at position `i`. -/
def scanPairs : Nat → St → Option Nat → List PairRec → List PairRec
  | 0, _, _, acc => acc
  | _ + 1, _, none, acc => acc
  | fuel + 1, st, some i, acc =>
      match st.nxt.getD i none with
      | none => scanPairs fuel st none acc
      | some j => scanPairs fuel st (some j) (bump acc (st.char.getD i 0, st.char.getD j 0) i)

/-- `pos < best_pos` where `best_pos` may be the initial `inf`. -/
def ltOpt (a : Nat) : Option Nat → Bool
  | none => true
  | some b => decide (a < b)

/-- The selection fold of `compress_text`: starting from
`best_pair = None, best_count = 1, best_pos = inf`, a record wins if its count
is strictly higher, or equal with a strictly smaller first position. -/
def foldBest : List PairRec → Option SPair → Nat → Option Nat →
    Option SPair × Nat × Option Nat
  | [], b, bc, bp => (b, bc, bp)
  | r :: rs, b, bc, bp =>
      if bc < r.count ∨ (r.count = bc ∧ ltOpt r.firstPos bp = true) then
        foldBest rs (some r.pair) r.count (some r.firstPos)
      else foldBest rs b bc bp

/-- Selection of a round's winning pair; `none` when no pair reaches count 2
(`if best_pair is None or best_count < 2: break`). -/
def findBest (recs : List PairRec) : Option SPair :=
  match foldBest recs none 1 none with
  | (none, _, _) => none
  | (some p, bc, _) => if bc < 2 then none else some p

/-- One merge at position `i` (with pre-merge successor-of-successor `nj`):
set `char[i]` to the new symbol, link `i` to `nj`, fix `nj`'s back link. -/
def mergeStep (st : St) (i : Nat) (nj : Option Nat) (nc : Nat) : St :=
  { char := st.char.set i nc
    nxt := st.nxt.set i nj
    prev := match nj with
            | none => st.prev
            | some q => st.prev.set q (some i) }

/-- The replacement loop of a round: walk the chain; on a match of the winning
pair at `(i, j)` merge and resume at the pre-merge successor of `j`; otherwise
advance one node.  Also returns the list of merge events `(i, j)`. -/
def mergePass : Nat → SPair → Nat → St → Option Nat → St × List (Nat × Nat)
  | 0, _, _, st, _ => (st, [])
  | _ + 1, _, _, st, none => (st, [])
  | fuel + 1, bp, nc, st, some i =>
      match st.nxt.getD i none with
      | none => mergePass fuel bp nc st none
      | some j =>
          if st.char.getD i 0 = bp.1 ∧ st.char.getD j 0 = bp.2 then
            let res := mergePass fuel bp nc (mergeStep st i (st.nxt.getD j none) nc)
              (st.nxt.getD j none)
            (res.1, (i, j) :: res.2)
          else mergePass fuel bp nc st (some j)

/-- The `for _ in range(k)` driver: scan, select (breaking on an empty
dictionary or no eligible pair), allocate the next token, merge, recurse.
Also returns the per-round merge-event lists (ghost data used only in
statements about merge counts and executed rounds). -/
def roundLoop : Nat → Nat → St → St × List (List (Nat × Nat))
  | 0, _, st => (st, [])
  | k + 1, ord, st =>
      let recs := scanPairs st.char.length st (some 0) []
      if recs = [] then (st, [])
      else
        match findBest recs with
        | none => (st, [])
        | some bp =>
            let res := mergePass st.char.length bp ord st (some 0)
            let rest := roundLoop k (ord + 1) res.1
            (rest.1, res.2 :: rest.2)

/-- `compress_text` of compressor_solution.py: empty input or `k ≤ 0` is a
no-op; otherwise run up to `k` rounds from `ord('A') = 65` and materialise. -/
def compress_text (text : List Nat) (k : Int) : List Nat :=
  if text = [] ∨ k ≤ 0 then text
  else mat text.length (roundLoop k.toNat 65 (initSt text)).1 (some 0)

/-- Number of successful merges executed across all rounds. -/
def totalMerges (text : List Nat) (k : Int) : Nat :=
  if text = [] ∨ k ≤ 0 then 0
  else ((roundLoop k.toNat 65 (initSt text)).2.map List.length).sum

/-- Number of rounds in which a pair was selected and a merge pass ran. -/
def roundsExecuted (text : List Nat) (k : Int) : Nat :=
  if text = [] ∨ k ≤ 0 then 0
  else (roundLoop k.toNat 65 (initSt text)).2.length

/-! ## heap_solution.py

Identical linked-list scan and merge pass; selection instead pushes
`(-count, first_pos, pair)` for every pair with count ≥ 2 onto a min-heap and
pops the least element.  A heap pop is modelled by its semantics: extraction
of the least element under the (lexicographic Python tuple) order. -/

/-- Python tuple comparison on heap elements `(-count, first_pos, pair)`. -/
def heapElLt (a b : Int × Nat × SPair) : Bool :=
  if a.1 ≠ b.1 then decide (a.1 < b.1)
  else if a.2.1 ≠ b.2.1 then decide (a.2.1 < b.2.1)
  else if a.2.2.1 ≠ b.2.2.1 then decide (a.2.2.1 < b.2.2.1)
  else decide (a.2.2.2 < b.2.2.2)

/-- Least element of the heap contents (what `heapq.heappop` returns). -/
def heapMin : List (Int × Nat × SPair) → Option (Int × Nat × SPair)
  | [] => none
  | x :: xs =>
      match heapMin xs with
      | none => some x
      | some m => if heapElLt m x then some m else some x

/-- Selection of heap_solution.py: filter to count ≥ 2, pop the heap. -/
def selectHeap (recs : List PairRec) : Option SPair :=
  let els := recs.filterMap
    (fun r => if 2 ≤ r.count then some ((-(r.count : Int), r.firstPos, r.pair)) else none)
  match heapMin els with
  | none => none
  | some e => some e.2.2

/-- The round driver of heap_solution.py (`if not pair_data: break`, then
`if not heap: break`, then pop and merge). -/
def roundLoopH : Nat → Nat → St → St
  | 0, _, st => st
  | k + 1, ord, st =>
      let recs := scanPairs st.char.length st (some 0) []
      if recs = [] then st
      else
        match selectHeap recs with
        | none => st
        | some bp => roundLoopH k (ord + 1) (mergePass st.char.length bp ord st (some 0)).1

/-- `compress_text` of heap_solution.py. -/
def compress_text_heap (text : List Nat) (k : Int) : List Nat :=
  if text = [] ∨ k ≤ 0 then text
  else mat text.length (roundLoopH k.toNat 65 (initSt text)) (some 0)

/-! ## optimized_heap_solution.py

Same scan and merge pass; the heap holds `PairInfo` objects ordered by
`PairInfo.__lt__` (higher count first, then lower first position). -/

/-- `PairInfo.__lt__`: higher count wins, then lower position. -/
def piLt (a b : PairRec) : Bool :=
  if a.count ≠ b.count then decide (b.count < a.count) else decide (a.firstPos < b.firstPos)

/-- Least `PairInfo` under `piLt` (what `heapq.heappop` returns). -/
def heapMinPI : List PairRec → Option PairRec
  | [] => none
  | x :: xs =>
      match heapMinPI xs with
      | none => some x
      | some m => if piLt m x then some m else some x

/-- Selection of optimized_heap_solution.py. -/
def selectOpt (recs : List PairRec) : Option SPair :=
  match heapMinPI (recs.filter (fun r => 2 ≤ r.count)) with
  | none => none
  | some r => some r.pair

/-- The round driver of optimized_heap_solution.py (`if not heap: break`). -/
def roundLoopO : Nat → Nat → St → St
  | 0, _, st => st
  | k + 1, ord, st =>
      let recs := scanPairs st.char.length st (some 0) []
      match selectOpt recs with
      | none => st
      | some bp => roundLoopO k (ord + 1) (mergePass st.char.length bp ord st (some 0)).1

/-- `compress_text` of optimized_heap_solution.py. -/
def compress_text_opt (text : List Nat) (k : Int) : List Nat :=
  if text = [] ∨ k ≤ 0 then text
  else mat text.length (roundLoopO k.toNat 65 (initSt text)) (some 0)

/-! ## heap_solution_MLE.py

The incremental variant: alongside the arrays `c`, `p`, `nx` it maintains
`cnt` (a `defaultdict(int)` of pair occurrence counts), `pos_heaps` (per pair,
a heap of pushed start positions, possibly stale) and `at_pos` (the live pair
starting at each position).  Dicts are modelled as insertion-ordered
association lists; a heap is modelled as the multiset of its elements, with
`heappush` adding an element and `heappop`/`heap[0]` working on the least. -/

structure MSt where
  c : List Nat
  p : List (Option Nat)
  nx : List (Option Nat)
  cnt : List (SPair × Int)
  heaps : List (SPair × List Nat)
  atPos : List (Nat × SPair)
deriving DecidableEq, Repr

/-- `defaultdict(int)` read. -/
def cntGet (cnt : List (SPair × Int)) (pr : SPair) : Int :=
  match cnt.find? (fun e => e.1 = pr) with
  | none => 0
  | some e => e.2

/-- `cnt[pr] += d` (inserting the key at the end if absent). -/
def cntAdd : List (SPair × Int) → SPair → Int → List (SPair × Int)
  | [], pr, d => [(pr, d)]
  | e :: es, pr, d => if e.1 = pr then (e.1, e.2 + d) :: es else e :: cntAdd es pr d

/-- `pos_heaps[pr]` (a `defaultdict(list)` read). -/
def heapsGet (h : List (SPair × List Nat)) (pr : SPair) : List Nat :=
  match h.find? (fun e => e.1 = pr) with
  | none => []
  | some e => e.2

/-- Store back `pos_heaps[pr]`. -/
def heapsSet : List (SPair × List Nat) → SPair → List Nat → List (SPair × List Nat)
  | [], pr, l => [(pr, l)]
  | e :: es, pr, l => if e.1 = pr then (pr, l) :: es else e :: heapsSet es pr l

/-- `at_pos` read (`i in at_pos` / `at_pos[i]`). -/
def apGet (ap : List (Nat × SPair)) (i : Nat) : Option SPair :=
  match ap.find? (fun e => e.1 = i) with
  | none => none
  | some e => some e.2

/-- `at_pos[i] = pr`. -/
def apSet : List (Nat × SPair) → Nat → SPair → List (Nat × SPair)
  | [], i, pr => [(i, pr)]
  | e :: es, i, pr => if e.1 = i then (i, pr) :: es else e :: apSet es i pr

/-- `del at_pos[i]`. -/
def apDel (ap : List (Nat × SPair)) (i : Nat) : List (Nat × SPair) :=
  ap.eraseP (fun e => decide (e.1 = i))

/-- `add_pair(i)`: if `i` has a successor `j`, count the pair `(c[i], c[j])`,
push `i` on its position heap and record it in `at_pos`. -/
def addPair (s : MSt) (i : Nat) : MSt :=
  match s.nx.getD i none with
  | none => s
  | some j =>
      let pr : SPair := (s.c.getD i 0, s.c.getD j 0)
      { s with cnt := cntAdd s.cnt pr 1
               heaps := heapsSet s.heaps pr (i :: heapsGet s.heaps pr)
               atPos := apSet s.atPos i pr }

/-- `del_pair(i)`: if `i` is in `at_pos`, decrement its pair's count and
remove the entry (its heap entry goes stale). -/
def delPair (s : MSt) (i : Nat) : MSt :=
  match apGet s.atPos i with
  | none => s
  | some pr => { s with cnt := cntAdd s.cnt pr (-1), atPos := apDel s.atPos i }

/-- Least element of a position heap (`pos_heaps[pr][0]`). -/
def listMin : List Nat → Option Nat
  | [] => none
  | x :: xs =>
      match listMin xs with
      | none => some x
      | some m => some (Min.min x m)

/-- The lazy-deletion loop inside `get_first`: repeatedly look at the heap
top; a stale top (no longer the live pair at that position) is popped. -/
def getFirstAux (ap : List (Nat × SPair)) (pr : SPair) : Nat → List Nat → Option Nat × List Nat
  | 0, h => (none, h)
  | fuel + 1, h =>
      match listMin h with
      | none => (none, h)
      | some m =>
          if apGet ap m = some pr then (some m, h)
          else getFirstAux ap pr fuel (h.erase m)

/-- `get_first(pr)`: first live position of `pr`, cleaning stale heap tops. -/
def getFirst (s : MSt) (pr : SPair) : Option Nat × MSt :=
  let h := heapsGet s.heaps pr
  let r := getFirstAux s.atPos pr h.length h
  (r.1, { s with heaps := heapsSet s.heaps pr r.2 })

/-- The `for pr in list(cnt.keys())` selection loop of heap_solution_MLE.py,
starting from `bp, bc, bf = None, 0, n`. -/
def selLoop : List (SPair × Int) → MSt → Option SPair → Int → Nat →
    Option SPair × Int × Nat × MSt
  | [], s, bp, bc, bf => (bp, bc, bf, s)
  | (pr, _) :: rest, s, bp, bc, bf =>
      if 2 ≤ cntGet s.cnt pr then
        let r := getFirst s pr
        match r.1 with
        | some f =>
            if bc < cntGet s.cnt pr ∨ (cntGet s.cnt pr = bc ∧ f < bf) then
              selLoop rest r.2 (some pr) (cntGet s.cnt pr) f
            else selLoop rest r.2 bp bc bf
        | none => selLoop rest r.2 bp bc bf
      else selLoop rest s bp bc bf

/-- Selection of heap_solution_MLE.py (also returns the state, since
`get_first` mutates the heaps). -/
def selBest (s : MSt) : Option SPair × MSt :=
  let r := selLoop s.cnt s none 0 s.c.length
  (r.1, r.2.2.2)

/-- The merge loop of heap_solution_MLE.py: on a live occurrence of the
winning pair at `i` (guarded by `i != lm`), read `j`, `pi`, `nj`, delete the
three affected pair records, relink, re-add the two new records, and resume
at `nj`; `lm` remembers the consumed right node. -/
def mergeLoopM : Nat → SPair → Nat → MSt → Option Nat → Option Nat → MSt
  | 0, _, _, s, _, _ => s
  | _ + 1, _, _, s, none, _ => s
  | fuel + 1, bp, nc, s, some i, lm =>
      if apGet s.atPos i = some bp ∧ some i ≠ lm then
        match s.nx.getD i none with
        | none => s
        | some j =>
            let pi := s.p.getD i none
            let nj := s.nx.getD j none
            let s1 := match pi with
                      | none => s
                      | some q => delPair s q
            let s2 := delPair s1 i
            let s3 := delPair s2 j
            let s4 : MSt := { s3 with
                              c := s3.c.set i nc
                              nx := s3.nx.set i nj
                              p := match nj with
                                   | none => s3.p
                                   | some q => s3.p.set q (some i) }
            let s5 := match pi with
                      | none => s4
                      | some q => addPair s4 q
            let s6 := addPair s5 i
            mergeLoopM fuel bp nc s6 nj (some j)
      else mergeLoopM fuel bp nc s (s.nx.getD i none) lm

/-- The initial `add_pair` sweep along the chain. -/
def initIdx : Nat → MSt → Option Nat → MSt
  | 0, s, _ => s
  | _ + 1, s, none => s
  | fuel + 1, s, some i => initIdx fuel (addPair s i) (s.nx.getD i none)

/-- The `for _ in range(k)` driver of heap_solution_MLE.py. -/
def roundLoopM : Nat → Nat → MSt → MSt
  | 0, _, s => s
  | k + 1, t, s =>
      let r := selBest s
      match r.1 with
      | none => r.2
      | some bp => roundLoopM k (t + 1) (mergeLoopM s.c.length bp t r.2 (some 0) none)

/-- Projection of the MLE state onto the shared arena representation. -/
def mSt2St (s : MSt) : St :=
  { char := s.c, prev := s.p, nxt := s.nx }

/-- The MLE state built from the input before the index sweep. -/
def initMSt (text : List Nat) : MSt :=
  { c := text
    p := (List.range text.length).map (fun i => if 0 < i then some (i - 1) else none)
    nx := (List.range text.length).map
      (fun i => if i < text.length - 1 then some (i + 1) else none)
    cnt := []
    heaps := []
    atPos := [] }

/-- `compress_text` of heap_solution_MLE.py. -/
def compress_text_mle (text : List Nat) (k : Int) : List Nat :=
  if text = [] ∨ k ≤ 0 then text
  else
    mat text.length
      (mSt2St (roundLoopM k.toNat 65 (initIdx text.length (initMSt text) (some 0)))) (some 0)

/-- The chain invariant: every live link goes strictly forward and stays in
bounds ("acyclic forward path with strictly increasing indices"). -/
def Asc (st : St) : Prop :=
  ∀ i j : Nat, st.nxt.getD i none = some j → i < j ∧ j < st.char.length

/-- Well-formedness: the three arrays have equal length. -/
def WF (st : St) : Prop :=
  st.prev.length = st.char.length ∧ st.nxt.length = st.char.length

/-! ## Basic list-access lemmas -/

theorem getD_set_eq {α} (l : List α) (i : Nat) (v d : α) (h : i < l.length) :
    (l.set i v).getD i d = v := by
  simp [List.getD_eq_getElem?_getD, List.getElem?_set, h]

theorem getD_set_ne {α} (l : List α) {i j : Nat} (v d : α) (h : i ≠ j) :
    (l.set i v).getD j d = l.getD j d := by
  simp [List.getD_eq_getElem?_getD, List.getElem?_set, h]

theorem getD_mem {α} (l : List α) (i : Nat) (d : α) (h : i < l.length) :
    l.getD i d ∈ l := by
  rw [List.getD_eq_getElem l d h]; exact List.getElem_mem h

theorem getD_of_le {α} (l : List α) (i : Nat) (d : α) (h : l.length ≤ i) :
    l.getD i d = d := by
  simp [List.getD_eq_getElem?_getD, List.getElem?_eq_none h]

theorem getD_range_map {α} (n i : Nat) (f : Nat → α) (d : α) :
    ((List.range n).map f).getD i d = if i < n then f i else d := by
  by_cases h : i < n
  · simp [List.getD_eq_getElem?_getD, List.getElem?_map, List.getElem?_range, h]
  · simp [List.getD_eq_getElem?_getD, List.getElem?_map,
      List.getElem?_eq_none (by simpa using Nat.le_of_not_lt h : (List.range n).length ≤ i), h]

theorem mem_set {α} (l : List α) (i : Nat) (v x : α) (h : x ∈ l.set i v) :
    x ∈ l ∨ x = v :=
  List.mem_or_eq_of_mem_set h

/-! ## The chain invariant -/

theorem asc_initSt (text : List Nat) : Asc (initSt text) := by
  intro i j h
  simp only [initSt, getD_range_map] at h
  have hlen : (initSt text).char.length = text.length := rfl
  rw [hlen]
  split at h
  · split at h
    · rename_i h1 h2
      cases h
      exact ⟨Nat.lt_succ_self i, by omega⟩
    · simp at h
  · simp at h

theorem wf_initSt (text : List Nat) : WF (initSt text) := by
  constructor <;> simp [initSt]

theorem charLen_mergeStep (st : St) (i : Nat) (nj : Option Nat) (nc : Nat) :
    (mergeStep st i nj nc).char.length = st.char.length := by
  simp [mergeStep]

theorem wf_mergeStep (st : St) (i : Nat) (nj : Option Nat) (nc : Nat) (h : WF st) :
    WF (mergeStep st i nj nc) := by
  obtain ⟨h1, h2⟩ := h
  refine ⟨?_, ?_⟩ <;> simp [mergeStep]
  · cases nj <;> simp [h1]
  · exact h2

theorem asc_mergeStep (st : St) (i j : Nat) (nc : Nat) (hA : Asc st)
    (hij : st.nxt.getD i none = some j) :
    Asc (mergeStep st i (st.nxt.getD j none) nc) := by
  intro a b hab
  rw [charLen_mergeStep]
  have hilen : i < st.nxt.length := by
    by_contra h
    rw [getD_of_le st.nxt i none (Nat.le_of_not_lt h)] at hij
    exact Option.noConfusion hij
  by_cases hai : a = i
  · subst hai
    rw [show (mergeStep st a (st.nxt.getD j none) nc).nxt = st.nxt.set a (st.nxt.getD j none)
        from rfl, getD_set_eq st.nxt a _ none hilen] at hab
    have hj := hA a j hij
    have hb := hA j b hab
    exact ⟨Nat.lt_trans hj.1 hb.1, hb.2⟩
  · rw [show (mergeStep st i (st.nxt.getD j none) nc).nxt = st.nxt.set i (st.nxt.getD j none)
        from rfl, getD_set_ne st.nxt _ none (fun h => hai h.symm)] at hab
    exact hA a b hab

theorem mergePass_none (fuel : Nat) (bp : SPair) (nc : Nat) (st : St) :
    mergePass fuel bp nc st none = (st, []) := by
  cases fuel <;> rfl

theorem mergePass_succ_none (fuel : Nat) (bp : SPair) (nc : Nat) (st : St) (a : Nat)
    (h : st.nxt.getD a none = none) :
    mergePass (fuel + 1) bp nc st (some a) = (st, []) := by
  simp only [mergePass, h]
  exact mergePass_none fuel bp nc st

theorem mergePass_succ_hit (fuel : Nat) (bp : SPair) (nc : Nat) (st : St) (a j : Nat)
    (h : st.nxt.getD a none = some j)
    (hc : st.char.getD a 0 = bp.1 ∧ st.char.getD j 0 = bp.2) :
    mergePass (fuel + 1) bp nc st (some a) =
      ((mergePass fuel bp nc (mergeStep st a (st.nxt.getD j none) nc) (st.nxt.getD j none)).1,
        (a, j) ::
          (mergePass fuel bp nc (mergeStep st a (st.nxt.getD j none) nc)
            (st.nxt.getD j none)).2) := by
  simp only [mergePass, h]
  rw [if_pos hc]

theorem mergePass_succ_miss (fuel : Nat) (bp : SPair) (nc : Nat) (st : St) (a j : Nat)
    (h : st.nxt.getD a none = some j)
    (hc : ¬(st.char.getD a 0 = bp.1 ∧ st.char.getD j 0 = bp.2)) :
    mergePass (fuel + 1) bp nc st (some a) = mergePass fuel bp nc st (some j) := by
  simp only [mergePass, h]
  rw [if_neg hc]

theorem mergePass_fst_charLen (fuel : Nat) (bp : SPair) (nc : Nat) (st : St) (i : Option Nat) :
    (mergePass fuel bp nc st i).1.char.length = st.char.length := by
  induction fuel generalizing st i with
  | zero => rfl
  | succ n ih =>
      cases i with
      | none => rfl
      | some a =>
          cases h : st.nxt.getD a none with
          | none => rw [mergePass_succ_none n bp nc st a h]
          | some j =>
              by_cases hc : st.char.getD a 0 = bp.1 ∧ st.char.getD j 0 = bp.2
              · rw [mergePass_succ_hit n bp nc st a j h hc]
                dsimp only
                rw [ih, charLen_mergeStep]
              · rw [mergePass_succ_miss n bp nc st a j h hc]
                exact ih st (some j)

theorem asc_mergePass (fuel : Nat) (bp : SPair) (nc : Nat) (st : St) (i : Option Nat)
    (hA : Asc st) : Asc (mergePass fuel bp nc st i).1 := by
  induction fuel generalizing st i with
  | zero => exact hA
  | succ n ih =>
      cases i with
      | none => exact hA
      | some a =>
          cases h : st.nxt.getD a none with
          | none => rw [mergePass_succ_none n bp nc st a h]; exact hA
          | some j =>
              by_cases hc : st.char.getD a 0 = bp.1 ∧ st.char.getD j 0 = bp.2
              · rw [mergePass_succ_hit n bp nc st a j h hc]
                exact ih _ _ (asc_mergeStep st a j nc hA h)
              · rw [mergePass_succ_miss n bp nc st a j h hc]
                exact ih st (some j) hA

theorem wf_mergePass (fuel : Nat) (bp : SPair) (nc : Nat) (st : St) (i : Option Nat)
    (hW : WF st) : WF (mergePass fuel bp nc st i).1 := by
  induction fuel generalizing st i with
  | zero => exact hW
  | succ n ih =>
      cases i with
      | none => exact hW
      | some a =>
          cases h : st.nxt.getD a none with
          | none => rw [mergePass_succ_none n bp nc st a h]; exact hW
          | some j =>
              by_cases hc : st.char.getD a 0 = bp.1 ∧ st.char.getD j 0 = bp.2
              · rw [mergePass_succ_hit n bp nc st a j h hc]
                exact ih _ _ (wf_mergeStep st a _ nc hW)
              · rw [mergePass_succ_miss n bp nc st a j h hc]
                exact ih st (some j) hW

/-! ## Characterisation of the selection fold (C1) -/

/-- The update condition of the selection fold: the record strictly beats the
current best (higher count, or equal count and smaller position). -/
def Beats (r : PairRec) (bc : Nat) (bp : Option Nat) : Prop :=
  bc < r.count ∨ (r.count = bc ∧ ltOpt r.firstPos bp = true)

instance (r : PairRec) (bc : Nat) (bp : Option Nat) : Decidable (Beats r bc bp) := by
  unfold Beats; infer_instance

/-- The accumulator of the selection fold only improves: the count never
drops, and at equal count the position never grows. -/
def Improve (bc : Nat) (bp : Option Nat) (bc' : Nat) (bp' : Option Nat) : Prop :=
  bc < bc' ∨ (bc = bc' ∧ (bp' = bp ∨ ∃ x, bp' = some x ∧ ltOpt x bp = true))

theorem improve_refl (bc : Nat) (bp : Option Nat) : Improve bc bp bc bp :=
  Or.inr ⟨rfl, Or.inl rfl⟩

theorem improve_trans {a c : Nat} {p r : Option Nat} (b : Nat) (q : Option Nat)
    (h1 : Improve a p b q) (h2 : Improve b q c r) : Improve a p c r := by
  rcases h1 with h1 | ⟨rfl, h1⟩
  · rcases h2 with h2 | ⟨rfl, _⟩
    · exact Or.inl (Nat.lt_trans h1 h2)
    · exact Or.inl h1
  · rcases h2 with h2 | ⟨rfl, h2⟩
    · exact Or.inl h2
    · refine Or.inr ⟨rfl, ?_⟩
      rcases h1 with rfl | ⟨x, rfl, hx⟩
      · exact h2
      · rcases h2 with rfl | ⟨y, rfl, hy⟩
        · exact Or.inr ⟨x, rfl, hx⟩
        · refine Or.inr ⟨y, rfl, ?_⟩
          cases p with
          | none => rfl
          | some z =>
              simp only [ltOpt, decide_eq_true_eq] at hx hy ⊢
              exact Nat.lt_trans hy hx

theorem notBeats_improve {r : PairRec} {bc : Nat} {bp : Option Nat} {bc' : Nat}
    {bp' : Option Nat} (hnb : ¬ Beats r bc bp) (hi : Improve bc bp bc' bp') :
    ¬ Beats r bc' bp' := by
  intro hb
  apply hnb
  rcases hi with hi | ⟨rfl, hi⟩
  · rcases hb with hb | ⟨rfl, _⟩
    · exact Or.inl (Nat.lt_trans hi hb)
    · exact Or.inl hi
  · rcases hb with hb | ⟨hbc, hlt⟩
    · exact Or.inl hb
    · refine Or.inr ⟨hbc, ?_⟩
      rcases hi with rfl | ⟨x, rfl, hx⟩
      · exact hlt
      · cases bp with
        | none => rfl
        | some z =>
            simp only [ltOpt, decide_eq_true_eq] at hlt hx ⊢
            exact Nat.lt_trans hlt hx

theorem foldBest_spec (recs : List PairRec) (b : Option SPair) (bc : Nat) (bp : Option Nat) :
    (foldBest recs b bc bp = (b, bc, bp) ∨
      ∃ r ∈ recs, foldBest recs b bc bp = (some r.pair, r.count, some r.firstPos)) ∧
    Improve bc bp (foldBest recs b bc bp).2.1 (foldBest recs b bc bp).2.2 ∧
    (∀ r ∈ recs, ¬ Beats r (foldBest recs b bc bp).2.1 (foldBest recs b bc bp).2.2) := by
  induction recs generalizing b bc bp with
  | nil => exact ⟨Or.inl rfl, improve_refl bc bp, by simp⟩
  | cons r rs ih =>
      by_cases hb : Beats r bc bp
      · have heq : foldBest (r :: rs) b bc bp =
            foldBest rs (some r.pair) r.count (some r.firstPos) := by
          simp only [foldBest]
          rw [if_pos]
          exact hb
        obtain ⟨ho, hi, hd⟩ := ih (some r.pair) r.count (some r.firstPos)
        rw [heq]
        have histep : Improve bc bp r.count (some r.firstPos) := by
          rcases hb with hb | ⟨hbc, hlt⟩
          · exact Or.inl hb
          · exact hbc ▸ Or.inr ⟨rfl, Or.inr ⟨r.firstPos, rfl, hlt⟩⟩
        have hnbr : ¬ Beats r r.count (some r.firstPos) := by
          intro hb'
          rcases hb' with hb' | ⟨_, hlt'⟩
          · exact Nat.lt_irrefl _ hb'
          · simp [ltOpt] at hlt'
        refine ⟨?_, improve_trans r.count (some r.firstPos) histep hi, ?_⟩
        · rcases ho with ho | ⟨r', hr', ho⟩
          · exact Or.inr ⟨r, List.mem_cons_self r rs, ho⟩
          · exact Or.inr ⟨r', List.mem_cons_of_mem r hr', ho⟩
        · intro r' hr'
          rcases List.mem_cons.mp hr' with rfl | hr'
          · exact notBeats_improve hnbr hi
          · exact hd r' hr'
      · have heq : foldBest (r :: rs) b bc bp = foldBest rs b bc bp := by
          simp only [foldBest]
          rw [if_neg]
          exact hb
        obtain ⟨ho, hi, hd⟩ := ih b bc bp
        rw [heq]
        refine ⟨?_, hi, ?_⟩
        · rcases ho with ho | ⟨r', hr', ho⟩
          · exact Or.inl ho
          · exact Or.inr ⟨r', List.mem_cons_of_mem r hr', ho⟩
        · intro r' hr'
          rcases List.mem_cons.mp hr' with rfl | hr'
          · exact notBeats_improve hb hi
          · exact hd r' hr'

theorem findBest_of_fold_none (recs : List PairRec) (bc : Nat) (bp : Option Nat)
    (h : foldBest recs none 1 none = (none, bc, bp)) : findBest recs = none := by
  unfold findBest
  rw [h]

theorem findBest_of_fold_some (recs : List PairRec) (p : SPair) (bc : Nat) (bp : Option Nat)
    (h : foldBest recs none 1 none = (some p, bc, bp)) :
    findBest recs = if bc < 2 then none else some p := by
  unfold findBest
  rw [h]

/-- Full functional specification of `findBest`: it returns `none` exactly
when no pair reaches count 2, and otherwise returns a pair of maximum count,
with the least first position among the tied counts. -/
theorem findBest_spec (recs : List PairRec) :
    (findBest recs = none ↔ ∀ r ∈ recs, r.count < 2) ∧
    (∀ p, findBest recs = some p →
      ∃ r ∈ recs, r.pair = p ∧ 2 ≤ r.count ∧
        ∀ r' ∈ recs, r'.count ≤ r.count ∧ (r'.count = r.count → r.firstPos ≤ r'.firstPos)) := by
  obtain ⟨ho, hi, hd⟩ := foldBest_spec recs none 1 none
  rcases ho with ho | ⟨r', hr', ho⟩
  · -- the fold never updated: result is the initial accumulator (none, 1, none)
    have hall : ∀ r ∈ recs, r.count < 2 := by
      intro r hr
      have hnb := hd r hr
      rw [ho] at hnb
      by_contra hge
      exact hnb (Or.inl (by simpa using Nat.lt_of_not_le (fun hle => hge (by omega))))
    refine ⟨⟨fun _ => hall, fun _ => findBest_of_fold_none recs 1 none ho⟩, ?_⟩
    intro p hp
    rw [findBest_of_fold_none recs 1 none ho] at hp
    cases hp
  · -- the fold result comes from a record r'
    have hdom : ∀ r ∈ recs, ¬ Beats r r'.count (some r'.firstPos) := by
      intro r hr
      have hnb := hd r hr
      rw [ho] at hnb
      exact hnb
    have hcount : ∀ r ∈ recs, r.count ≤ r'.count := by
      intro r hr
      by_contra hlt
      exact hdom r hr (Or.inl (Nat.lt_of_not_le hlt))
    have hfb := findBest_of_fold_some recs r'.pair r'.count (some r'.firstPos) ho
    by_cases hlt : r'.count < 2
    · rw [if_pos hlt] at hfb
      refine ⟨⟨fun _ r hr => Nat.lt_of_le_of_lt (hcount r hr) hlt, fun _ => hfb⟩, ?_⟩
      intro p hp
      rw [hfb] at hp
      cases hp
    · rw [if_neg hlt] at hfb
      constructor
      · constructor
        · intro hnone
          rw [hfb] at hnone
          cases hnone
        · intro hall
          exact absurd (hall r' hr') (by omega)
      · intro p hp
        rw [hfb] at hp
        cases hp
        refine ⟨r', hr', rfl, Nat.le_of_not_lt hlt, ?_⟩
        intro r'' hr''
        refine ⟨hcount r'' hr'', ?_⟩
        intro hceq
        by_contra hpos
        exact hdom r'' hr'' (Or.inr ⟨hceq, by
          simp only [ltOpt, decide_eq_true_eq]
          exact Nat.lt_of_not_le hpos⟩)

/-! ## Merge-event ordering (C2) -/

theorem mergePass_events_lb (fuel : Nat) (bp : SPair) (nc : Nat) :
    ∀ (st : St) (a : Nat), Asc st →
      ∀ e ∈ (mergePass fuel bp nc st (some a)).2, a ≤ e.1 ∧ e.1 < e.2 := by
  induction fuel with
  | zero => intro st a _ e he; simp [mergePass] at he
  | succ n ih =>
      intro st a hA e he
      cases h : st.nxt.getD a none with
      | none =>
          rw [mergePass_succ_none n bp nc st a h] at he
          simp at he
      | some j =>
          by_cases hc : st.char.getD a 0 = bp.1 ∧ st.char.getD j 0 = bp.2
          · rw [mergePass_succ_hit n bp nc st a j h hc] at he
            dsimp only at he
            rcases List.mem_cons.mp he with rfl | he
            · exact ⟨Nat.le_refl a, (hA a j h).1⟩
            · cases hnj : st.nxt.getD j none with
              | none =>
                  rw [hnj, mergePass_none] at he
                  simp at he
              | some q =>
                  rw [hnj] at he
                  have hA' := asc_mergeStep st a j nc hA h
                  rw [hnj] at hA'
                  have := ih _ q hA' e he
                  have haj := (hA a j h).1
                  have hjq := (hA j q hnj).1
                  exact ⟨by omega, this.2⟩
          · rw [mergePass_succ_miss n bp nc st a j h hc] at he
            have := ih st j hA e he
            have haj := (hA a j h).1
            exact ⟨by omega, this.2⟩

theorem mergePass_events_chain (fuel : Nat) (bp : SPair) (nc : Nat) :
    ∀ (st : St) (i : Option Nat), Asc st →
      List.Pairwise (fun e₁ e₂ : Nat × Nat => e₁.2 < e₂.1) (mergePass fuel bp nc st i).2 := by
  induction fuel with
  | zero => intro st i _; simp [mergePass]
  | succ n ih =>
      intro st i hA
      cases i with
      | none => rw [mergePass_none]; simp
      | some a =>
          cases h : st.nxt.getD a none with
          | none => rw [mergePass_succ_none n bp nc st a h]; simp
          | some j =>
              by_cases hc : st.char.getD a 0 = bp.1 ∧ st.char.getD j 0 = bp.2
              · rw [mergePass_succ_hit n bp nc st a j h hc]
                dsimp only
                have hA' := asc_mergeStep st a j nc hA h
                refine List.Pairwise.cons ?_ (ih _ _ hA')
                intro e he
                cases hnj : st.nxt.getD j none with
                | none =>
                    rw [hnj, mergePass_none] at he
                    simp at he
                | some q =>
                    rw [hnj] at he
                    rw [hnj] at hA'
                    have := mergePass_events_lb n bp nc _ q hA' e he
                    have hjq := (hA j q hnj).1
                    exact by omega
              · rw [mergePass_succ_miss n bp nc st a j h hc]
                exact ih st (some j) hA

theorem no_reuse {l : List (Nat × Nat)}
    (hch : List.Pairwise (fun e₁ e₂ : Nat × Nat => e₁.2 < e₂.1) l)
    (hlt : ∀ e ∈ l, e.1 < e.2) :
    ∀ e₁ ∈ l, ∀ e₂ ∈ l, e₁.2 ≠ e₂.1 := by
  induction l with
  | nil => intro e₁ h; simp at h
  | cons x xs ih =>
      have hx := hlt x (List.mem_cons_self x xs)
      have hhd : ∀ e ∈ xs, x.2 < e.1 := fun e he => List.rel_of_pairwise_cons hch he
      have htl := List.Pairwise.of_cons hch
      intro e₁ he₁ e₂ he₂
      rcases List.mem_cons.mp he₁ with h1 | h1
      · rcases List.mem_cons.mp he₂ with h2 | h2
        · subst h1; subst h2; omega
        · have := hhd e₂ h2
          subst h1
          omega
      · rcases List.mem_cons.mp he₂ with h2 | h2
        · have h3 := hhd e₁ h1
          have h4 := hlt e₁ (List.mem_cons_of_mem x h1)
          subst h2
          omega
        · exact ih htl (fun e he => hlt e (List.mem_cons_of_mem x he)) e₁ h1 e₂ h2

/-! ## Claim theorems: C1, C2, C3, C5 -/

/-- C1: in every round, selection over the round's scan records returns `none`
exactly when no pair has count ≥ 2, and otherwise returns a pair whose count
is maximal over the scan, with the smallest leftmost start position among
pairs tied on that count. -/
theorem claim_C1 (st : St) (fuel : Nat) (i : Option Nat) :
    (findBest (scanPairs fuel st i []) = none ↔
      ∀ r ∈ scanPairs fuel st i [], r.count < 2) ∧
    (∀ p, findBest (scanPairs fuel st i []) = some p →
      ∃ r ∈ scanPairs fuel st i [], r.pair = p ∧ 2 ≤ r.count ∧
        ∀ r' ∈ scanPairs fuel st i [],
          r'.count ≤ r.count ∧ (r'.count = r.count → r.firstPos ≤ r'.firstPos)) :=
  findBest_spec (scanPairs fuel st i [])

/-- C2: after merging the winning pair at adjacent positions `a` and `j`, the
replacement scan resumes at the pre-merge successor of `j`; consequently no
node ever serves both as the right half of one merge and as the left half of
another merge in the same round's pass. -/
theorem claim_C2 (fuel : Nat) (bp : SPair) (nc : Nat) (st : St) (a j : Nat)
    (hA : Asc st) (hj : st.nxt.getD a none = some j)
    (hc : st.char.getD a 0 = bp.1 ∧ st.char.getD j 0 = bp.2) :
    (mergePass (fuel + 1) bp nc st (some a) =
      ((mergePass fuel bp nc (mergeStep st a (st.nxt.getD j none) nc) (st.nxt.getD j none)).1,
        (a, j) ::
          (mergePass fuel bp nc (mergeStep st a (st.nxt.getD j none) nc)
            (st.nxt.getD j none)).2)) ∧
    (∀ e₁ ∈ (mergePass (fuel + 1) bp nc st (some a)).2,
      ∀ e₂ ∈ (mergePass (fuel + 1) bp nc st (some a)).2, e₁.2 ≠ e₂.1) := by
  refine ⟨mergePass_succ_hit fuel bp nc st a j hj hc, ?_⟩
  exact no_reuse (mergePass_events_chain (fuel + 1) bp nc st (some a) hA)
    (fun e he => (mergePass_events_lb (fuel + 1) bp nc st a hA e he).2)

/-- Witness for C2 on the concrete input "aaaa" (merging the pair (a,a)). -/
theorem claim_C2_witness :
    (mergePass 4 (97, 97) 65 (initSt [97, 97, 97, 97]) (some 0) =
      ((mergePass 3 (97, 97) 65
          (mergeStep (initSt [97, 97, 97, 97]) 0
            ((initSt [97, 97, 97, 97]).nxt.getD 1 none) 65)
          ((initSt [97, 97, 97, 97]).nxt.getD 1 none)).1,
        (0, 1) ::
          (mergePass 3 (97, 97) 65
            (mergeStep (initSt [97, 97, 97, 97]) 0
              ((initSt [97, 97, 97, 97]).nxt.getD 1 none) 65)
            ((initSt [97, 97, 97, 97]).nxt.getD 1 none)).2)) ∧
    (∀ e₁ ∈ (mergePass 4 (97, 97) 65 (initSt [97, 97, 97, 97]) (some 0)).2,
      ∀ e₂ ∈ (mergePass 4 (97, 97) 65 (initSt [97, 97, 97, 97]) (some 0)).2, e₁.2 ≠ e₂.1) :=
  claim_C2 3 (97, 97) 65 (initSt [97, 97, 97, 97]) 0 1
    (asc_initSt [97, 97, 97, 97]) (by decide) (by decide)

/-- C3: if a round's scan yields no pair with count at least 2, the driver
stops there permanently: the state is returned unchanged, no merge events are
produced, and no later round (of any remaining round budget) makes a change. -/
theorem claim_C3 (st : St) (k ord : Nat)
    (h : ∀ r ∈ scanPairs st.char.length st (some 0) [], r.count < 2) :
    roundLoop k ord st = (st, []) := by
  cases k with
  | zero => rfl
  | succ k =>
      have hnone := (findBest_spec (scanPairs st.char.length st (some 0) [])).1.mpr h
      simp only [roundLoop]
      by_cases hr : scanPairs st.char.length st (some 0) [] = []
      · rw [if_pos hr]
      · rw [if_neg hr, hnone]

/-- Witness for C3 on the concrete input "abc" (all pair counts are 1). -/
theorem claim_C3_witness : roundLoop 3 65 (initSt [97, 98, 99]) = (initSt [97, 98, 99], []) :=
  claim_C3 (initSt [97, 98, 99]) 3 65 (by decide)

/-- C5: non-positive `k` returns the input unchanged, and the empty input is
returned unchanged for every `k` — a defined no-op, not an error. -/
theorem claim_C5 (s : List Nat) (k : Int) :
    (k ≤ 0 → compress_text s k = s) ∧ compress_text [] k = [] := by
  constructor
  · intro hk
    unfold compress_text
    rw [if_pos (Or.inr hk)]
  · unfold compress_text
    rw [if_pos (Or.inl rfl)]

/-- Witness for C5 at `s = "a"`, `k = -1` and the empty input with `k = 5`. -/
theorem claim_C5_witness :
    compress_text [97] (-1) = [97] ∧ compress_text [] 5 = [] :=
  ⟨(claim_C5 [97] (-1)).1 (by decide), (claim_C5 [] 5).2⟩

/-! ## List-level view of one replacement pass

`mergePass` on the arena is extensionally a one-pass non-overlapping
replacement on the materialised symbol list; `replaceList` expresses that
list-level behaviour and `countPairL` counts (possibly overlapping) adjacent
occurrences of a pair. -/

def replaceList (bp : SPair) (nc : Nat) : List Nat → List Nat
  | a :: b :: rest =>
      if a = bp.1 ∧ b = bp.2 then nc :: replaceList bp nc rest
      else a :: replaceList bp nc (b :: rest)
  | xs => xs

def countPairL (bp : SPair) : List Nat → Nat
  | a :: b :: rest => (if a = bp.1 ∧ b = bp.2 then 1 else 0) + countPairL bp (b :: rest)
  | _ => 0

theorem replaceList_nil (bp : SPair) (nc : Nat) : replaceList bp nc [] = [] := rfl

theorem replaceList_single (bp : SPair) (nc : Nat) (x : Nat) :
    replaceList bp nc [x] = [x] := rfl

theorem replaceList_cons₂_hit (bp : SPair) (nc : Nat) (a b : Nat) (l : List Nat)
    (h : a = bp.1 ∧ b = bp.2) :
    replaceList bp nc (a :: b :: l) = nc :: replaceList bp nc l := by
  simp only [replaceList]
  rw [if_pos h]

theorem replaceList_cons₂_miss (bp : SPair) (nc : Nat) (a b : Nat) (l : List Nat)
    (h : ¬(a = bp.1 ∧ b = bp.2)) :
    replaceList bp nc (a :: b :: l) = a :: replaceList bp nc (b :: l) := by
  simp only [replaceList]
  rw [if_neg h]

/-! ## Fuel stability and locality of materialisation -/

theorem mat_none (fuel : Nat) (st : St) : mat fuel st none = [] := by
  cases fuel <;> rfl

theorem mat_stable (fuel₁ : Nat) : ∀ (fuel₂ : Nat) (st : St) (i : Nat), Asc st →
    i < st.char.length → st.char.length - i ≤ fuel₁ → st.char.length - i ≤ fuel₂ →
    mat fuel₁ st (some i) = mat fuel₂ st (some i) := by
  induction fuel₁ with
  | zero => intro fuel₂ st i _ hi h1 _; omega
  | succ f ih =>
      intro fuel₂ st i hA hi h1 h2
      cases fuel₂ with
      | zero => omega
      | succ g =>
          simp only [mat]
          cases hnx : st.nxt.getD i none with
          | none => rw [mat_none, mat_none]
          | some j =>
              obtain ⟨hij, hj⟩ := hA i j hnx
              rw [ih g st j hA hj (by omega) (by omega)]

theorem mat_succ_of_lt (fuel : Nat) (st : St) (i : Nat) (hA : Asc st)
    (hi : i < st.char.length) (hf : st.char.length - i ≤ fuel) :
    mat fuel st (some i) = st.char.getD i 0 :: mat fuel st (st.nxt.getD i none) := by
  cases fuel with
  | zero => omega
  | succ f =>
      simp only [mat]
      cases hnx : st.nxt.getD i none with
      | none => rw [mat_none, mat_none]
      | some j =>
          obtain ⟨hij, hj⟩ := hA i j hnx
          rw [mat_stable f (f + 1) st j hA hj (by omega) (by omega)]

theorem mat_agree (fuel : Nat) : ∀ (st₁ st₂ : St) (q₀ : Nat), Asc st₁ →
    (∀ p, q₀ ≤ p → st₁.char.getD p 0 = st₂.char.getD p 0) →
    (∀ p, q₀ ≤ p → st₁.nxt.getD p none = st₂.nxt.getD p none) →
    ∀ q, q₀ ≤ q → mat fuel st₁ (some q) = mat fuel st₂ (some q) := by
  induction fuel with
  | zero => intro _ _ _ _ _ _ _ _; rfl
  | succ f ih =>
      intro st₁ st₂ q₀ hA hc hn q hq
      simp only [mat]
      rw [hc q hq, hn q hq]
      cases hnx : st₂.nxt.getD q none with
      | none => rw [mat_none, mat_none]
      | some j =>
          have hnx₁ : st₁.nxt.getD q none = some j := by rw [hn q hq]; exact hnx
          obtain ⟨hqj, _⟩ := hA q j hnx₁
          rw [ih st₁ st₂ q₀ hA hc hn j (by omega)]

theorem mergePass_locality (fuel : Nat) (bp : SPair) (nc : Nat) :
    ∀ (st : St) (a q : Nat), Asc st → q < a →
      (mergePass fuel bp nc st (some a)).1.char.getD q 0 = st.char.getD q 0 ∧
      (mergePass fuel bp nc st (some a)).1.nxt.getD q none = st.nxt.getD q none := by
  induction fuel with
  | zero => intro st a q _ _; exact ⟨rfl, rfl⟩
  | succ f ih =>
      intro st a q hA hqa
      cases hnx : st.nxt.getD a none with
      | none => rw [mergePass_succ_none f bp nc st a hnx]; exact ⟨rfl, rfl⟩
      | some j =>
          obtain ⟨haj, hj⟩ := hA a j hnx
          by_cases hc : st.char.getD a 0 = bp.1 ∧ st.char.getD j 0 = bp.2
          · rw [mergePass_succ_hit f bp nc st a j hnx hc]
            dsimp only
            have hstep : (mergeStep st a (st.nxt.getD j none) nc).char.getD q 0
                  = st.char.getD q 0 ∧
                (mergeStep st a (st.nxt.getD j none) nc).nxt.getD q none
                  = st.nxt.getD q none := by
              constructor
              · exact getD_set_ne st.char nc 0 (by omega)
              · exact getD_set_ne st.nxt _ none (by omega)
            cases hnj : st.nxt.getD j none with
            | none =>
                rw [hnj] at hstep
                rw [mergePass_none]
                exact hstep
            | some q' =>
                obtain ⟨hjq', _⟩ := hA j q' hnj
                rw [hnj] at hstep
                have hA' := asc_mergeStep st a j nc hA hnx
                rw [hnj] at hA'
                have := ih (mergeStep st a (some q') nc) q' q hA' (by omega)
                rw [this.1, this.2, hstep.1, hstep.2]
                exact ⟨rfl, rfl⟩
          · rw [mergePass_succ_miss f bp nc st a j hnx hc]
            exact ih st j q hA (by omega)

/-! ## The merge-pass simulation theorem -/

theorem mergePass_sim (F : Nat) (bp : SPair) (nc : Nat) :
    ∀ (st : St) (a : Nat), Asc st → a < st.char.length → st.char.length - a ≤ F →
      mat st.char.length (mergePass F bp nc st (some a)).1 (some a) =
          replaceList bp nc (mat st.char.length st (some a)) ∧
      (mergePass F bp nc st (some a)).2.length +
          (replaceList bp nc (mat st.char.length st (some a))).length =
        (mat st.char.length st (some a)).length := by
  induction F with
  | zero => intro st a _ ha hF; omega
  | succ f ih =>
      intro st a hA ha hF
      have hmata := mat_succ_of_lt st.char.length st a hA ha (by omega)
      cases hnx : st.nxt.getD a none with
      | none =>
          rw [mergePass_succ_none f bp nc st a hnx]
          rw [hmata, hnx, mat_none]
          exact ⟨by rw [replaceList_single], by simp [replaceList_single]⟩
      | some j =>
          obtain ⟨haj, hj⟩ := hA a j hnx
          have hmatj := mat_succ_of_lt st.char.length st j hA hj (by omega)
          by_cases hc : st.char.getD a 0 = bp.1 ∧ st.char.getD j 0 = bp.2
          · -- a merge happens at (a, j)
            rw [mergePass_succ_hit f bp nc st a j hnx hc]
            dsimp only
            have hrl : replaceList bp nc (mat st.char.length st (some a)) =
                nc :: replaceList bp nc (mat st.char.length st (st.nxt.getD j none)) := by
              rw [hmata, hnx, hmatj]
              exact replaceList_cons₂_hit bp nc _ _ _ hc
            have hA' := asc_mergeStep st a j nc hA hnx
            have halen : a < st.nxt.length := by
              by_contra hcon
              rw [getD_of_le st.nxt a none (Nat.le_of_not_lt hcon)] at hnx
              exact Option.noConfusion hnx
            cases hnj : st.nxt.getD j none with
            | none =>
                rw [hnj] at hA'
                rw [mergePass_none]
                dsimp only
                set st' := mergeStep st a none nc with hst'
                have hlen' : st'.char.length = st.char.length := charLen_mergeStep st a none nc
                have hmata' : mat st.char.length st' (some a) =
                    st'.char.getD a 0 :: mat st.char.length st' (st'.nxt.getD a none) := by
                  rw [show st.char.length = st'.char.length from hlen'.symm] at ha ⊢
                  exact mat_succ_of_lt st'.char.length st' a hA' ha (by omega)
                have hca : st'.char.getD a 0 = nc := getD_set_eq st.char a nc 0 ha
                have hna : st'.nxt.getD a none = none := getD_set_eq st.nxt a none none halen
                rw [hmata', hca, hna, mat_none, hrl, hnj, mat_none, replaceList_nil]
                constructor
                · rfl
                · rw [hmata, hnx, hmatj, hnj, mat_none]
                  rfl
            | some q =>
                obtain ⟨hjq, hq⟩ := hA j q hnj
                rw [hnj] at hA'
                set st' := mergeStep st a (some q) nc with hst'
                have hlen' : st'.char.length = st.char.length := charLen_mergeStep st a _ nc
                have hq' : q < st'.char.length := by omega
                obtain ⟨ihm, ihl⟩ := ih st' q hA' hq' (by omega)
                rw [hlen'] at ihm ihl
                -- the recursive pass does not touch position a
                have hloc := mergePass_locality f bp nc st' q a hA' (by omega)
                have hAres := asc_mergePass f bp nc st' (some q) hA'
                have hreslen : (mergePass f bp nc st' (some q)).1.char.length =
                    st.char.length := by rw [mergePass_fst_charLen]; exact hlen'
                have hmares : mat st.char.length (mergePass f bp nc st' (some q)).1 (some a) =
                    (mergePass f bp nc st' (some q)).1.char.getD a 0 ::
                      mat st.char.length (mergePass f bp nc st' (some q)).1
                        ((mergePass f bp nc st' (some q)).1.nxt.getD a none) := by
                  rw [show st.char.length = (mergePass f bp nc st' (some q)).1.char.length from
                    hreslen.symm] at ha ⊢
                  exact mat_succ_of_lt _ _ a hAres ha (by omega)
                have hca : st'.char.getD a 0 = nc := getD_set_eq st.char a nc 0 ha
                have hna : st'.nxt.getD a none = some q := getD_set_eq st.nxt a (some q) none halen
                -- st and st' agree strictly above a, hence from q
                have hagree : mat st.char.length st' (some q) =
                    mat st.char.length st (some q) := by
                  refine (mat_agree st.char.length st st' q hA ?_ ?_ q (Nat.le_refl q)).symm
                  · intro p hp
                    exact (getD_set_ne st.char nc 0 (by omega)).symm
                  · intro p hp
                    exact (getD_set_ne st.nxt (some q) none (by omega)).symm
                rw [hmares, hloc.1, hloc.2, hca, hna, ihm, hagree, hrl, hnj]
                constructor
                · rfl
                · rw [hmata, hnx, hmatj, hnj]
                  simp only [List.length_cons]
                  rw [hagree] at ihl
                  omega
          · -- no merge at a; the pass continues at j
            rw [mergePass_succ_miss f bp nc st a j hnx hc]
            obtain ⟨ihm, ihl⟩ := ih st j hA hj (by omega)
            have hAres := asc_mergePass f bp nc st (some j) hA
            have hreslen : (mergePass f bp nc st (some j)).1.char.length = st.char.length :=
              mergePass_fst_charLen f bp nc st (some j)
            have hloc := mergePass_locality f bp nc st j a hA haj
            have hmares : mat st.char.length (mergePass f bp nc st (some j)).1 (some a) =
                (mergePass f bp nc st (some j)).1.char.getD a 0 ::
                  mat st.char.length (mergePass f bp nc st (some j)).1
                    ((mergePass f bp nc st (some j)).1.nxt.getD a none) := by
              rw [show st.char.length = (mergePass f bp nc st (some j)).1.char.length from
                hreslen.symm] at ha ⊢
              exact mat_succ_of_lt _ _ a hAres ha (by omega)
            have hrl : replaceList bp nc (mat st.char.length st (some a)) =
                st.char.getD a 0 :: replaceList bp nc (mat st.char.length st (some j)) := by
              rw [hmata, hnx, hmatj]
              exact replaceList_cons₂_miss bp nc _ _ _ hc
            rw [hmares, hloc.1, hloc.2, hnx, ihm, hrl]
            constructor
            · rfl
            · rw [hmata, hnx]
              simp only [List.length_cons]
              omega

/-! ## Round-loop lemmas and C6 -/

theorem roundLoop_succ_stop (k ord : Nat) (st : St)
    (h : scanPairs st.char.length st (some 0) [] = [] ∨
      findBest (scanPairs st.char.length st (some 0) []) = none) :
    roundLoop (k + 1) ord st = (st, []) := by
  simp only [roundLoop]
  rcases h with h | h
  · rw [if_pos h]
  · by_cases hr : scanPairs st.char.length st (some 0) [] = []
    · rw [if_pos hr]
    · rw [if_neg hr, h]

theorem roundLoop_succ_some (k ord : Nat) (st : St) (bp : SPair)
    (hr : scanPairs st.char.length st (some 0) [] ≠ [])
    (hb : findBest (scanPairs st.char.length st (some 0) []) = some bp) :
    roundLoop (k + 1) ord st =
      ((roundLoop k (ord + 1) (mergePass st.char.length bp ord st (some 0)).1).1,
        (mergePass st.char.length bp ord st (some 0)).2 ::
          (roundLoop k (ord + 1) (mergePass st.char.length bp ord st (some 0)).1).2) := by
  simp only [roundLoop]
  rw [if_neg hr, hb]

theorem asc_roundLoop (k : Nat) : ∀ (ord : Nat) (st : St), Asc st →
    Asc (roundLoop k ord st).1 := by
  induction k with
  | zero => intro ord st hA; exact hA
  | succ n ih =>
      intro ord st hA
      by_cases hr : scanPairs st.char.length st (some 0) [] = []
      · rw [roundLoop_succ_stop n ord st (Or.inl hr)]; exact hA
      · cases hb : findBest (scanPairs st.char.length st (some 0) []) with
        | none => rw [roundLoop_succ_stop n ord st (Or.inr hb)]; exact hA
        | some bp =>
            rw [roundLoop_succ_some n ord st bp hr hb]
            exact ih (ord + 1) _ (asc_mergePass _ bp ord st (some 0) hA)

theorem roundLoop_fst_charLen (k : Nat) : ∀ (ord : Nat) (st : St),
    (roundLoop k ord st).1.char.length = st.char.length := by
  induction k with
  | zero => intro ord st; rfl
  | succ n ih =>
      intro ord st
      by_cases hr : scanPairs st.char.length st (some 0) [] = []
      · rw [roundLoop_succ_stop n ord st (Or.inl hr)]
      · cases hb : findBest (scanPairs st.char.length st (some 0) []) with
        | none => rw [roundLoop_succ_stop n ord st (Or.inr hb)]
        | some bp =>
            rw [roundLoop_succ_some n ord st bp hr hb]
            dsimp only
            rw [ih, mergePass_fst_charLen]

theorem roundLoop_len (k : Nat) : ∀ (ord : Nat) (st : St), Asc st → 0 < st.char.length →
    (mat st.char.length (roundLoop k ord st).1 (some 0)).length +
        ((roundLoop k ord st).2.map List.length).sum =
      (mat st.char.length st (some 0)).length := by
  induction k with
  | zero => intro ord st _ _; rfl
  | succ n ih =>
      intro ord st hA h0
      by_cases hr : scanPairs st.char.length st (some 0) [] = []
      · rw [roundLoop_succ_stop n ord st (Or.inl hr)]; rfl
      · cases hb : findBest (scanPairs st.char.length st (some 0) []) with
        | none => rw [roundLoop_succ_stop n ord st (Or.inr hb)]; rfl
        | some bp =>
            rw [roundLoop_succ_some n ord st bp hr hb]
            dsimp only
            have hsim := mergePass_sim st.char.length bp ord st 0 hA h0 (by omega)
            have hlen := mergePass_fst_charLen st.char.length bp ord st (some 0)
            have hih := ih (ord + 1) (mergePass st.char.length bp ord st (some 0)).1
              (asc_mergePass _ bp ord st (some 0) hA) (by omega)
            rw [hlen] at hih
            rw [List.map_cons, List.sum_cons]
            rw [hsim.1] at hih
            have := hsim.2
            omega

theorem mat_initSt_aux (fuel : Nat) : ∀ (s : List Nat) (i : Nat),
    i < s.length → s.length - i ≤ fuel → mat fuel (initSt s) (some i) = s.drop i := by
  induction fuel with
  | zero => intro s i h1 h2; omega
  | succ f ih =>
      intro s i h1 h2
      have hchar : (initSt s).char.getD i 0 = s.getD i 0 := rfl
      have hdrop := List.drop_eq_getElem_cons h1
      have hgetD : s.getD i 0 = s[i] := List.getD_eq_getElem s 0 h1
      have hnxt : (initSt s).nxt.getD i none =
          if i < s.length - 1 then some (i + 1) else none := by
        show ((List.range s.length).map _).getD i none = _
        rw [getD_range_map]
        rw [if_pos h1]
      simp only [mat]
      rw [hchar, hnxt]
      by_cases hi : i < s.length - 1
      · rw [if_pos hi, ih s (i + 1) (by omega) (by omega), hdrop, hgetD]
      · rw [if_neg hi, mat_none, hdrop, hgetD]
        rw [List.drop_eq_nil_of_le (by omega)]

theorem mat_initSt (s : List Nat) (hs : s ≠ []) :
    mat s.length (initSt s) (some 0) = s := by
  have h0 : 0 < s.length := List.length_pos.mpr hs
  rw [mat_initSt_aux s.length s 0 h0 (by omega)]
  exact List.drop_zero s

/-- C6: the output of `compress_text` is never longer than the input, and its
length is exactly the input length minus the number of successful merges
executed across all rounds. -/
theorem claim_C6 (s : List Nat) (k : Int) :
    (compress_text s k).length ≤ s.length ∧
    (compress_text s k).length = s.length - totalMerges s k := by
  by_cases h : s = [] ∨ k ≤ 0
  · unfold compress_text totalMerges
    rw [if_pos h, if_pos h]
    exact ⟨Nat.le_refl _, by omega⟩
  · unfold compress_text totalMerges
    rw [if_neg h, if_neg h]
    push_neg at h
    obtain ⟨hs, _⟩ := h
    have h0 : 0 < s.length := List.length_pos.mpr hs
    have hA := asc_initSt s
    have hlen : (initSt s).char.length = s.length := rfl
    have hmain := roundLoop_len k.toNat 65 (initSt s) hA (by rw [hlen]; exact h0)
    rw [hlen, mat_initSt s hs] at hmain
    constructor <;> omega

/-! ## Symbol containment and C7 -/

theorem mergePass_chars (fuel : Nat) (bp : SPair) (nc : Nat) :
    ∀ (st : St) (i : Option Nat) (x : Nat),
      x ∈ (mergePass fuel bp nc st i).1.char → x ∈ st.char ∨ x = nc := by
  induction fuel with
  | zero => intro st i x hx; exact Or.inl hx
  | succ f ih =>
      intro st i x hx
      cases i with
      | none => exact Or.inl hx
      | some a =>
          cases hnx : st.nxt.getD a none with
          | none =>
              rw [mergePass_succ_none f bp nc st a hnx] at hx
              exact Or.inl hx
          | some j =>
              by_cases hc : st.char.getD a 0 = bp.1 ∧ st.char.getD j 0 = bp.2
              · rw [mergePass_succ_hit f bp nc st a j hnx hc] at hx
                dsimp only at hx
                rcases ih _ _ x hx with hx' | hx'
                · rcases mem_set st.char a nc x hx' with h | h
                  · exact Or.inl h
                  · exact Or.inr h
                · exact Or.inr hx'
              · rw [mergePass_succ_miss f bp nc st a j hnx hc] at hx
                exact ih st (some j) x hx

theorem roundLoop_chars (k : Nat) : ∀ (ord : Nat) (st : St) (x : Nat),
    x ∈ (roundLoop k ord st).1.char → x ∈ st.char ∨ (ord ≤ x ∧ x < ord + k) := by
  induction k with
  | zero => intro ord st x hx; exact Or.inl hx
  | succ n ih =>
      intro ord st x hx
      by_cases hr : scanPairs st.char.length st (some 0) [] = []
      · rw [roundLoop_succ_stop n ord st (Or.inl hr)] at hx
        exact Or.inl hx
      · cases hb : findBest (scanPairs st.char.length st (some 0) []) with
        | none =>
            rw [roundLoop_succ_stop n ord st (Or.inr hb)] at hx
            exact Or.inl hx
        | some bp =>
            rw [roundLoop_succ_some n ord st bp hr hb] at hx
            dsimp only at hx
            rcases ih (ord + 1) _ x hx with hx' | hx'
            · rcases mergePass_chars _ bp ord st (some 0) x hx' with h | rfl
              · exact Or.inl h
              · exact Or.inr (by omega)
            · exact Or.inr (by omega)

theorem mat_mem (fuel : Nat) : ∀ (st : St) (i : Nat) (x : Nat), Asc st →
    i < st.char.length → x ∈ mat fuel st (some i) → x ∈ st.char := by
  induction fuel with
  | zero => intro st i x _ _ hx; cases hx
  | succ f ih =>
      intro st i x hA hi hx
      simp only [mat] at hx
      rcases List.mem_cons.mp hx with rfl | hx
      · exact getD_mem st.char i 0 hi
      · cases hnx : st.nxt.getD i none with
        | none => rw [hnx, mat_none] at hx; cases hx
        | some j =>
            rw [hnx] at hx
            exact ih st j x hA (hA i j hnx).2 hx

/-- C7: for input over the lowercase alphabet, the number of distinct
synthetic symbols (symbols not in the input) appearing in the output is at
most `k`: every output symbol is an input symbol or one of the at most `k`
round tokens `65, 66, …`. -/
theorem claim_C7 (s : List Nat) (k : Int) (_hlc : ∀ c ∈ s, 97 ≤ c ∧ c ≤ 122) :
    ((compress_text s k).toFinset \ s.toFinset).card ≤ k.toNat := by
  by_cases h : s = [] ∨ k ≤ 0
  · unfold compress_text
    rw [if_pos h]
    simp
  · unfold compress_text
    rw [if_neg h]
    push_neg at h
    obtain ⟨hs, _⟩ := h
    have h0 : 0 < s.length := List.length_pos.mpr hs
    have hA := asc_roundLoop k.toNat 65 (initSt s) (asc_initSt s)
    have hlen : (roundLoop k.toNat 65 (initSt s)).1.char.length = s.length :=
      roundLoop_fst_charLen k.toNat 65 (initSt s)
    have hsub : (mat s.length (roundLoop k.toNat 65 (initSt s)).1 (some 0)).toFinset \
        s.toFinset ⊆ Finset.Ico 65 (65 + k.toNat) := by
      intro x hx
      rw [Finset.mem_sdiff, List.mem_toFinset, List.mem_toFinset] at hx
      obtain ⟨hout, hnotin⟩ := hx
      have hx1 : x ∈ (roundLoop k.toNat 65 (initSt s)).1.char :=
        mat_mem s.length _ 0 x hA (by omega) hout
      rcases roundLoop_chars k.toNat 65 (initSt s) x hx1 with h' | h'
      · exact absurd h' hnotin
      · rw [Finset.mem_Ico]
        exact h'
    calc ((mat s.length (roundLoop k.toNat 65 (initSt s)).1 (some 0)).toFinset \
            s.toFinset).card
        ≤ (Finset.Ico 65 (65 + k.toNat)).card := Finset.card_le_card hsub
      _ = k.toNat := by rw [Nat.card_Ico]; omega

/-- Witness for C7 on the lowercase input "aaaa" with `k = 2`. -/
theorem claim_C7_witness :
    ((compress_text [97, 97, 97, 97] 2).toFinset \
      ([97, 97, 97, 97] : List Nat).toFinset).card ≤ (2 : Int).toNat :=
  claim_C7 [97, 97, 97, 97] 2 (by decide)

/-! ## Scan counts, per-round progress, and C9 -/

/-- Count recorded for a pair in a record list (count of the first matching
record, 0 if absent). -/
def recCount : List PairRec → SPair → Nat
  | [], _ => 0
  | r :: rs, pr => if r.pair = pr then r.count else recCount rs pr

theorem scanPairs_none (fuel : Nat) (st : St) (acc : List PairRec) :
    scanPairs fuel st none acc = acc := by
  cases fuel <;> rfl

theorem scanPairs_succ_none (fuel : Nat) (st : St) (i : Nat) (acc : List PairRec)
    (h : st.nxt.getD i none = none) :
    scanPairs (fuel + 1) st (some i) acc = acc := by
  simp only [scanPairs, h]
  exact scanPairs_none fuel st acc

theorem scanPairs_succ_some (fuel : Nat) (st : St) (i j : Nat) (acc : List PairRec)
    (h : st.nxt.getD i none = some j) :
    scanPairs (fuel + 1) st (some i) acc =
      scanPairs fuel st (some j) (bump acc (st.char.getD i 0, st.char.getD j 0) i) := by
  simp only [scanPairs, h]

theorem countPairL_cons₂ (pr : SPair) (a b : Nat) (l : List Nat) :
    countPairL pr (a :: b :: l) =
      (if a = pr.1 ∧ b = pr.2 then 1 else 0) + countPairL pr (b :: l) := rfl

theorem recCount_bump (acc : List PairRec) (pr pr' : SPair) (i : Nat) :
    recCount (bump acc pr i) pr' = recCount acc pr' + (if pr' = pr then 1 else 0) := by
  induction acc with
  | nil =>
      by_cases h : pr' = pr
      · subst h
        simp [bump, recCount]
      · simp only [bump, recCount]
        rw [if_neg (fun hp => h hp.symm), if_neg h]
  | cons r rs ih =>
      by_cases hr : r.pair = pr
      · simp only [bump]
        rw [if_pos hr]
        by_cases hp : r.pair = pr'
        · have hpp : pr' = pr := by rw [← hp, hr]
          simp only [recCount]
          rw [if_pos hp, if_pos hp, if_pos hpp]
        · have hpp : ¬ pr' = pr := fun he => hp (he ▸ hr)
          simp only [recCount]
          rw [if_neg hp, if_neg hp, if_neg hpp]
          omega
      · simp only [bump]
        rw [if_neg hr]
        by_cases hp : r.pair = pr'
        · have hpp : ¬ pr' = pr := fun he => hr (hp.trans he)
          simp only [recCount]
          rw [if_pos hp, if_pos hp, if_neg hpp]
          omega
        · simp only [recCount]
          rw [if_neg hp, if_neg hp, ih]

theorem scan_counts (fuel : Nat) : ∀ (st : St) (i : Nat) (acc : List PairRec) (pr : SPair),
    Asc st → i < st.char.length → st.char.length - i ≤ fuel →
    recCount (scanPairs fuel st (some i) acc) pr =
      recCount acc pr + countPairL pr (mat fuel st (some i)) := by
  induction fuel with
  | zero => intro st i acc pr _ hi hf; omega
  | succ f ih =>
      intro st i acc pr hA hi hf
      cases hnx : st.nxt.getD i none with
      | none =>
          rw [scanPairs_succ_none f st i acc hnx]
          simp only [mat]
          rw [hnx, mat_none]
          rfl
      | some j =>
          obtain ⟨hij, hj⟩ := hA i j hnx
          rw [scanPairs_succ_some f st i j acc hnx]
          rw [ih st j _ pr hA hj (by omega)]
          rw [recCount_bump]
          simp only [mat]
          rw [hnx]
          rw [mat_succ_of_lt f st j hA hj (by omega), countPairL_cons₂,
            ← mat_succ_of_lt f st j hA hj (by omega)]
          have hcond : (pr = (st.char.getD i 0, st.char.getD j 0)) ↔
              (st.char.getD i 0 = pr.1 ∧ st.char.getD j 0 = pr.2) := by
            obtain ⟨p1, p2⟩ := pr
            simp only [Prod.mk.injEq]
            constructor
            · rintro ⟨h1, h2⟩
              exact ⟨h1.symm, h2.symm⟩
            · rintro ⟨h1, h2⟩
              exact ⟨h1.symm, h2.symm⟩
          simp only [hcond]
          rw [Nat.add_assoc]

theorem bump_count_pos (acc : List PairRec) (pr : SPair) (i : Nat)
    (h : ∀ r ∈ acc, 1 ≤ r.count) : ∀ r ∈ bump acc pr i, 1 ≤ r.count := by
  induction acc with
  | nil =>
      intro r hr
      simp only [bump] at hr
      rcases List.mem_cons.mp hr with rfl | hr
      · exact Nat.le_refl 1
      · cases hr
  | cons r₀ rs ih =>
      intro r hr
      simp only [bump] at hr
      by_cases h0 : r₀.pair = pr
      · rw [if_pos h0] at hr
        rcases List.mem_cons.mp hr with rfl | hr
        · exact Nat.le_succ_of_le (Nat.le_of_lt_succ (Nat.lt_succ_of_le
            (h r₀ (List.mem_cons_self r₀ rs))))
        · exact h r (List.mem_cons_of_mem r₀ hr)
      · rw [if_neg h0] at hr
        rcases List.mem_cons.mp hr with rfl | hr
        · exact h r (List.mem_cons_self r rs)
        · exact ih (fun r' hr' => h r' (List.mem_cons_of_mem r₀ hr')) r hr

theorem scan_count_pos (fuel : Nat) : ∀ (st : St) (i : Option Nat) (acc : List PairRec),
    (∀ r ∈ acc, 1 ≤ r.count) → ∀ r ∈ scanPairs fuel st i acc, 1 ≤ r.count := by
  induction fuel with
  | zero => intro st i acc h; exact h
  | succ f ih =>
      intro st i acc h
      cases i with
      | none => exact h
      | some a =>
          cases hnx : st.nxt.getD a none with
          | none => rw [scanPairs_succ_none f st a acc hnx]; exact h
          | some j =>
              rw [scanPairs_succ_some f st a j acc hnx]
              exact ih st (some j) _ (bump_count_pos acc _ a h)

theorem recCount_pos_of_mem (recs : List PairRec) (r : PairRec) (pr : SPair)
    (hall : ∀ r' ∈ recs, 1 ≤ r'.count) (hr : r ∈ recs) (hp : r.pair = pr) :
    1 ≤ recCount recs pr := by
  induction recs with
  | nil => cases hr
  | cons r₀ rs ih =>
      simp only [recCount]
      by_cases h0 : r₀.pair = pr
      · rw [if_pos h0]
        exact hall r₀ (List.mem_cons_self r₀ rs)
      · rw [if_neg h0]
        rcases List.mem_cons.mp hr with rfl | hr'
        · exact absurd hp h0
        · exact ih (fun r' h' => hall r' (List.mem_cons_of_mem r₀ h')) hr'

theorem replaceList_le_aux (bp : SPair) (nc : Nat) (n : Nat) :
    ∀ l : List Nat, l.length ≤ n → (replaceList bp nc l).length ≤ l.length := by
  induction n with
  | zero =>
      intro l h
      rw [List.length_eq_zero.mp (Nat.le_zero.mp h)]
      exact Nat.le_refl 0
  | succ m ih =>
      intro l h
      cases l with
      | nil => exact Nat.le_refl 0
      | cons a l' =>
          cases l' with
          | nil => rw [replaceList_single]
          | cons b rest =>
              by_cases hc : a = bp.1 ∧ b = bp.2
              · rw [replaceList_cons₂_hit bp nc a b rest hc]
                simp only [List.length_cons]
                have := ih rest (by simp at h; omega)
                omega
              · rw [replaceList_cons₂_miss bp nc a b rest hc]
                simp only [List.length_cons]
                have := ih (b :: rest) (by simp at h ⊢; omega)
                simp only [List.length_cons] at this
                omega

theorem replaceList_lt_aux (bp : SPair) (nc : Nat) (n : Nat) :
    ∀ l : List Nat, l.length ≤ n → 1 ≤ countPairL bp l →
      (replaceList bp nc l).length < l.length := by
  induction n with
  | zero =>
      intro l h hc
      rw [List.length_eq_zero.mp (Nat.le_zero.mp h)] at hc
      cases hc
  | succ m ih =>
      intro l h hc
      cases l with
      | nil => cases hc
      | cons a l' =>
          cases l' with
          | nil => cases hc
          | cons b rest =>
              by_cases hit : a = bp.1 ∧ b = bp.2
              · rw [replaceList_cons₂_hit bp nc a b rest hit]
                simp only [List.length_cons]
                have := replaceList_le_aux bp nc rest.length rest (Nat.le_refl _)
                omega
              · rw [replaceList_cons₂_miss bp nc a b rest hit]
                simp only [List.length_cons]
                rw [countPairL_cons₂, if_neg hit] at hc
                have := ih (b :: rest) (by simp at h ⊢; omega) (by omega)
                simp only [List.length_cons] at this
                omega

/-- A round whose selection succeeds performs at least one merge. -/
theorem round_has_merge (st : St) (bp : SPair) (ord : Nat) (hA : Asc st)
    (h0 : 0 < st.char.length)
    (hb : findBest (scanPairs st.char.length st (some 0) []) = some bp) :
    (mergePass st.char.length bp ord st (some 0)).2 ≠ [] := by
  obtain ⟨r, hr, hrp, _, _⟩ := (findBest_spec _).2 bp hb
  have hall := scan_count_pos st.char.length st (some 0) [] (by intro r' h'; cases h')
  have hpos : 1 ≤ recCount (scanPairs st.char.length st (some 0) []) bp :=
    recCount_pos_of_mem _ r bp hall hr hrp
  have hcnt := scan_counts st.char.length st 0 [] bp hA h0 (by omega)
  rw [hcnt] at hpos
  have hlt := replaceList_lt_aux bp ord (mat st.char.length st (some 0)).length
    (mat st.char.length st (some 0)) (Nat.le_refl _) (by simpa [recCount] using hpos)
  have hsim := (mergePass_sim st.char.length bp ord st 0 hA h0 (by omega)).2
  intro hempty
  rw [hempty] at hsim
  simp at hsim
  omega

theorem roundLoop_events_ne (k : Nat) : ∀ (ord : Nat) (st : St), Asc st →
    0 < st.char.length → ∀ evs ∈ (roundLoop k ord st).2, evs ≠ [] := by
  induction k with
  | zero => intro ord st _ _ evs h; cases h
  | succ n ih =>
      intro ord st hA h0 evs hevs
      by_cases hr : scanPairs st.char.length st (some 0) [] = []
      · rw [roundLoop_succ_stop n ord st (Or.inl hr)] at hevs
        cases hevs
      · cases hb : findBest (scanPairs st.char.length st (some 0) []) with
        | none =>
            rw [roundLoop_succ_stop n ord st (Or.inr hb)] at hevs
            cases hevs
        | some bp =>
            rw [roundLoop_succ_some n ord st bp hr hb] at hevs
            dsimp only at hevs
            rcases List.mem_cons.mp hevs with rfl | hevs'
            · exact round_has_merge st bp ord hA h0 hb
            · exact ih (ord + 1) _ (asc_mergePass _ bp ord st (some 0) hA)
                (by rw [mergePass_fst_charLen]; exact h0) evs hevs'

theorem mat_len_pos (st : St) (hA : Asc st) (h0 : 0 < st.char.length) :
    0 < (mat st.char.length st (some 0)).length := by
  rw [mat_succ_of_lt st.char.length st 0 hA h0 (by omega)]
  simp

theorem roundLoop_rounds (k : Nat) : ∀ (ord : Nat) (st : St), Asc st →
    0 < st.char.length →
    (roundLoop k ord st).2.length ≤ min k ((mat st.char.length st (some 0)).length - 1) := by
  induction k with
  | zero => intro ord st _ _; exact Nat.le_min.mpr ⟨Nat.le_refl 0, Nat.zero_le _⟩
  | succ n ih =>
      intro ord st hA h0
      by_cases hr : scanPairs st.char.length st (some 0) [] = []
      · rw [roundLoop_succ_stop n ord st (Or.inl hr)]
        exact Nat.zero_le _
      · cases hb : findBest (scanPairs st.char.length st (some 0) []) with
        | none =>
            rw [roundLoop_succ_stop n ord st (Or.inr hb)]
            exact Nat.zero_le _
        | some bp =>
            rw [roundLoop_succ_some n ord st bp hr hb]
            dsimp only [List.length_cons]
            have hA' := asc_mergePass st.char.length bp ord st (some 0) hA
            have hlen' := mergePass_fst_charLen st.char.length bp ord st (some 0)
            have hih := ih (ord + 1) (mergePass st.char.length bp ord st (some 0)).1 hA'
              (by omega)
            rw [hlen'] at hih
            have hsim := mergePass_sim st.char.length bp ord st 0 hA h0 (by omega)
            have hne := round_has_merge st bp ord hA h0 hb
            have he : 1 ≤ (mergePass st.char.length bp ord st (some 0)).2.length :=
              List.length_pos.mpr hne
            have hpos' : 0 < (mat st.char.length
                (mergePass st.char.length bp ord st (some 0)).1 (some 0)).length := by
              have := mat_len_pos (mergePass st.char.length bp ord st (some 0)).1 hA'
                (by omega)
              rw [hlen'] at this
              exact this
            rw [hsim.1] at hih hpos'
            have := hsim.2
            omega

/-- C9: the linked chain stays an acyclic forward path with strictly
increasing indices across all rounds; every round in which a pair is selected
performs at least one merge; and the number of merging rounds executed is at
most `min k (length − 1)`. -/
theorem claim_C9 (s : List Nat) (k : Int) (hs : s ≠ []) :
    Asc (roundLoop k.toNat 65 (initSt s)).1 ∧
    (∀ evs ∈ (roundLoop k.toNat 65 (initSt s)).2, evs ≠ []) ∧
    roundsExecuted s k ≤ min k.toNat (s.length - 1) := by
  have h0 : 0 < s.length := List.length_pos.mpr hs
  have hA := asc_initSt s
  have hl : (initSt s).char.length = s.length := rfl
  refine ⟨asc_roundLoop k.toNat 65 (initSt s) hA,
    roundLoop_events_ne k.toNat 65 (initSt s) hA (by rw [hl]; exact h0), ?_⟩
  unfold roundsExecuted
  by_cases h : s = [] ∨ k ≤ 0
  · rw [if_pos h]
    exact Nat.zero_le _
  · rw [if_neg h]
    have hmain := roundLoop_rounds k.toNat 65 (initSt s) hA (by rw [hl]; exact h0)
    rw [hl, mat_initSt s hs] at hmain
    exact hmain

/-- Witness for C9 on the input "aaaa" with `k = 2`. -/
theorem claim_C9_witness :
    Asc (roundLoop (2 : Int).toNat 65 (initSt [97, 97, 97, 97])).1 ∧
    (∀ evs ∈ (roundLoop (2 : Int).toNat 65 (initSt [97, 97, 97, 97])).2, evs ≠ []) ∧
    roundsExecuted [97, 97, 97, 97] 2 ≤
      min (2 : Int).toNat (([97, 97, 97, 97] : List Nat).length - 1) :=
  claim_C9 [97, 97, 97, 97] 2 (by decide)

/-! ## Concrete executions: C8 and C10 -/

/-- The fixture input "ababcababc" as code points. -/
def inpC8 : List Nat := [97, 98, 97, 98, 99, 97, 98, 97, 98, 99]

/-- C8: `compress_text "ababcababc" 2 = "BcBc"`; round 1 selects ('a','b')
with count 4 producing "AAcAAc", round 2 selects ('A','A') with count 2
producing "BcBc". -/
theorem claim_C8 :
    findBest (scanPairs 10 (initSt inpC8) (some 0) []) = some (97, 98) ∧
    recCount (scanPairs 10 (initSt inpC8) (some 0) []) (97, 98) = 4 ∧
    mat 10 (mergePass 10 (97, 98) 65 (initSt inpC8) (some 0)).1 (some 0) =
      [65, 65, 99, 65, 65, 99] ∧
    findBest (scanPairs 10 (mergePass 10 (97, 98) 65 (initSt inpC8) (some 0)).1
      (some 0) []) = some (65, 65) ∧
    recCount (scanPairs 10 (mergePass 10 (97, 98) 65 (initSt inpC8) (some 0)).1
      (some 0) []) (65, 65) = 2 ∧
    compress_text inpC8 2 = [66, 99, 66, 99] := by
  decide

/-- The lowercase alphabet a..z as code points. -/
def alpha26 : List Nat := (List.range 26).map (fun i => 97 + i)

/-- A 60-character lowercase input on which 27 rounds all find an eligible
pair: round 1 merges the run of 'a's, round 2 merges ('A','A'), and rounds
3–27 cascade through the alphabet. -/
def input27 : List Nat := alpha26 ++ alpha26 ++ List.replicate 8 97

set_option maxRecDepth 100000 in
set_option maxHeartbeats 4000000 in
/-- C10: `compress_text` performs no validation of k ≤ 26: with k = 27 on a
lowercase input it silently executes 27 merging rounds, the 27th assigning
the synthetic symbol `chr(91) = '['` past 'Z', which appears in the output;
no error is raised. -/
theorem claim_C10 :
    compress_text input27 27 = [91, 91, 66, 66] ∧
    (91 : Nat) ∈ compress_text input27 27 ∧
    roundsExecuted input27 27 = 27 := by
  refine ⟨by decide, ?_, by decide⟩
  have h : compress_text input27 27 = [91, 91, 66, 66] := by decide
  rw [h]
  decide

/-! ## Equivalence of the heap-based selections with `findBest` (C4, part 1)

Both heap variants pop the least element of a heap built from the same scan
records.  Since distinct records of one scan have distinct leftmost
positions, the popped element is exactly the count-then-leftmost winner. -/

theorem heapElLt_irrefl (a : Int × Nat × SPair) : heapElLt a a = false := by
  simp [heapElLt]

theorem heapElLt_conn {a b : Int × Nat × SPair}
    (h1 : heapElLt a b = false) (h2 : heapElLt b a = false) : a = b := by
  obtain ⟨a1, a2, a3, a4⟩ := a
  obtain ⟨b1, b2, b3, b4⟩ := b
  simp only [heapElLt, ne_eq] at h1 h2
  split_ifs at h1 h2 <;>
    simp only [decide_eq_false_iff_not, not_not, not_lt] at * <;>
    simp only [Prod.mk.injEq] <;> omega

theorem heapElLt_trans {a b c : Int × Nat × SPair}
    (h1 : heapElLt a b = true) (h2 : heapElLt b c = true) : heapElLt a c = true := by
  obtain ⟨a1, a2, a3, a4⟩ := a
  obtain ⟨b1, b2, b3, b4⟩ := b
  obtain ⟨c1, c2, c3, c4⟩ := c
  simp only [heapElLt, ne_eq] at h1 h2 ⊢
  split_ifs at h1 h2 ⊢ <;>
    simp only [decide_eq_true_eq, decide_eq_false_iff_not, not_not, not_lt] at * <;>
    omega

theorem heapMin_cons_none (x : Int × Nat × SPair) (xs : List (Int × Nat × SPair))
    (h : heapMin xs = none) : heapMin (x :: xs) = some x := by
  simp only [heapMin, h]

theorem heapMin_cons_some (x m : Int × Nat × SPair) (xs : List (Int × Nat × SPair))
    (h : heapMin xs = some m) :
    heapMin (x :: xs) = if heapElLt m x then some m else some x := by
  simp only [heapMin, h]

theorem heapMin_eq_none {l : List (Int × Nat × SPair)} (h : heapMin l = none) : l = [] := by
  cases l with
  | nil => rfl
  | cons x xs =>
      exfalso
      cases hxs : heapMin xs with
      | none => rw [heapMin_cons_none x xs hxs] at h; cases h
      | some m =>
          rw [heapMin_cons_some x m xs hxs] at h
          by_cases hlt : heapElLt m x = true
          · rw [if_pos hlt] at h; cases h
          · rw [if_neg hlt] at h; cases h

theorem heapMin_spec {l : List (Int × Nat × SPair)} {m : Int × Nat × SPair}
    (h : heapMin l = some m) : m ∈ l ∧ ∀ x ∈ l, heapElLt x m = false := by
  induction l generalizing m with
  | nil => cases h
  | cons x xs ih =>
      cases hxs : heapMin xs with
      | none =>
          rw [heapMin_cons_none x xs hxs] at h
          cases h
          have hnil := heapMin_eq_none hxs
          subst hnil
          refine ⟨List.mem_cons_self x [], ?_⟩
          intro y hy
          rcases List.mem_cons.mp hy with rfl | hy
          · exact heapElLt_irrefl y
          · cases hy
      | some m' =>
          rw [heapMin_cons_some x m' xs hxs] at h
          obtain ⟨hm', hmin'⟩ := ih hxs
          by_cases hlt : heapElLt m' x = true
          · rw [if_pos hlt] at h
            cases h
            refine ⟨List.mem_cons_of_mem x hm', ?_⟩
            intro y hy
            rcases List.mem_cons.mp hy with rfl | hy
            · by_contra hxy
              rw [Bool.not_eq_false] at hxy
              have := heapElLt_trans hlt hxy
              rw [heapElLt_irrefl] at this
              cases this
            · exact hmin' y hy
          · rw [if_neg hlt] at h
            cases h
            rw [Bool.not_eq_true] at hlt
            refine ⟨List.mem_cons_self x xs, ?_⟩
            intro y hy
            rcases List.mem_cons.mp hy with rfl | hy
            · exact heapElLt_irrefl y
            · by_contra hym
              rw [Bool.not_eq_false] at hym
              by_cases hmy : heapElLt m' y = true
              · have := heapElLt_trans hmy hym
                rw [hlt] at this
                cases this
              · rw [Bool.not_eq_true] at hmy
                have := heapElLt_conn (hmin' y hy) hmy
                subst this
                rw [hym] at hlt
                cases hlt

theorem piLt_irrefl (a : PairRec) : piLt a a = false := by
  simp [piLt]

theorem piLt_trans {a b c : PairRec} (h1 : piLt a b = true) (h2 : piLt b c = true) :
    piLt a c = true := by
  simp only [piLt, ne_eq] at h1 h2 ⊢
  split_ifs at h1 h2 ⊢ <;>
    simp only [decide_eq_true_eq, decide_eq_false_iff_not, not_not, not_lt] at * <;>
    omega

theorem piLt_conn {a b : PairRec} (h1 : piLt a b = false) (h2 : piLt b a = false) :
    a.count = b.count ∧ a.firstPos = b.firstPos := by
  simp only [piLt, ne_eq] at h1 h2
  split_ifs at h1 h2 <;>
    simp only [decide_eq_false_iff_not, not_not, not_lt] at * <;>
    omega

theorem heapMinPI_cons_none (x : PairRec) (xs : List PairRec)
    (h : heapMinPI xs = none) : heapMinPI (x :: xs) = some x := by
  simp only [heapMinPI, h]

theorem heapMinPI_cons_some (x m : PairRec) (xs : List PairRec)
    (h : heapMinPI xs = some m) :
    heapMinPI (x :: xs) = if piLt m x then some m else some x := by
  simp only [heapMinPI, h]

theorem heapMinPI_eq_none {l : List PairRec} (h : heapMinPI l = none) : l = [] := by
  cases l with
  | nil => rfl
  | cons x xs =>
      exfalso
      cases hxs : heapMinPI xs with
      | none => rw [heapMinPI_cons_none x xs hxs] at h; cases h
      | some m =>
          rw [heapMinPI_cons_some x m xs hxs] at h
          by_cases hlt : piLt m x = true
          · rw [if_pos hlt] at h; cases h
          · rw [if_neg hlt] at h; cases h

theorem heapMinPI_spec {l : List PairRec} {m : PairRec}
    (hdist : ∀ x ∈ l, ∀ y ∈ l, x.firstPos = y.firstPos → x = y)
    (h : heapMinPI l = some m) : m ∈ l ∧ ∀ x ∈ l, piLt x m = false := by
  induction l generalizing m with
  | nil => cases h
  | cons x xs ih =>
      have hdist' : ∀ x' ∈ xs, ∀ y ∈ xs, x'.firstPos = y.firstPos → x' = y :=
        fun x' hx' y hy => hdist x' (List.mem_cons_of_mem x hx') y (List.mem_cons_of_mem x hy)
      cases hxs : heapMinPI xs with
      | none =>
          rw [heapMinPI_cons_none x xs hxs] at h
          cases h
          have hnil := heapMinPI_eq_none hxs
          subst hnil
          refine ⟨List.mem_cons_self x [], ?_⟩
          intro y hy
          rcases List.mem_cons.mp hy with rfl | hy
          · exact piLt_irrefl y
          · cases hy
      | some m' =>
          rw [heapMinPI_cons_some x m' xs hxs] at h
          obtain ⟨hm', hmin'⟩ := ih hdist' hxs
          by_cases hlt : piLt m' x = true
          · rw [if_pos hlt] at h
            cases h
            refine ⟨List.mem_cons_of_mem x hm', ?_⟩
            intro y hy
            rcases List.mem_cons.mp hy with rfl | hy
            · by_contra hxy
              rw [Bool.not_eq_false] at hxy
              have := piLt_trans hlt hxy
              rw [piLt_irrefl] at this
              cases this
            · exact hmin' y hy
          · rw [if_neg hlt] at h
            cases h
            rw [Bool.not_eq_true] at hlt
            refine ⟨List.mem_cons_self x xs, ?_⟩
            intro y hy
            rcases List.mem_cons.mp hy with rfl | hy
            · exact piLt_irrefl y
            · by_contra hym
              rw [Bool.not_eq_false] at hym
              by_cases hmy : piLt m' y = true
              · have := piLt_trans hmy hym
                rw [hlt] at this
                cases this
              · rw [Bool.not_eq_true] at hmy
                have heqk := piLt_conn (hmin' y hy) hmy
                have : y = m' :=
                  hdist y (List.mem_cons_of_mem x hy) m' (List.mem_cons_of_mem x hm')
                    heqk.2
                subst this
                rw [hym] at hlt
                cases hlt

/-- First positions occurring in `bump acc pr i` come from `acc` or are `i`. -/
theorem bump_firstPos_mem (pr : SPair) (i : Nat) : ∀ (acc : List PairRec),
    ∀ r' ∈ bump acc pr i, (∃ r'' ∈ acc, r'.firstPos = r''.firstPos) ∨ r'.firstPos = i := by
  intro acc
  induction acc with
  | nil =>
      intro r' hr'
      rcases List.mem_cons.mp hr' with rfl | hr'
      · exact Or.inr rfl
      · cases hr'
  | cons r₀ rs ih =>
      intro r' hr'
      simp only [bump] at hr'
      by_cases h0 : r₀.pair = pr
      · rw [if_pos h0] at hr'
        rcases List.mem_cons.mp hr' with rfl | hr'
        · exact Or.inl ⟨r₀, List.mem_cons_self r₀ rs, rfl⟩
        · exact Or.inl ⟨r', List.mem_cons_of_mem r₀ hr', rfl⟩
      · rw [if_neg h0] at hr'
        rcases List.mem_cons.mp hr' with rfl | hr'
        · exact Or.inl ⟨r', List.mem_cons_self r' rs, rfl⟩
        · rcases ih r' hr' with ⟨r'', hr'', he⟩ | he
          · exact Or.inl ⟨r'', List.mem_cons_of_mem r₀ hr'', he⟩
          · exact Or.inr he

theorem bump_pairwise (pr : SPair) (i : Nat) : ∀ (acc : List PairRec),
    List.Pairwise (fun r₁ r₂ : PairRec => r₁.firstPos ≠ r₂.firstPos) acc →
    (∀ r ∈ acc, r.firstPos < i) →
    List.Pairwise (fun r₁ r₂ : PairRec => r₁.firstPos ≠ r₂.firstPos) (bump acc pr i) ∧
    (∀ r ∈ bump acc pr i, r.firstPos ≤ i) := by
  intro acc
  induction acc with
  | nil =>
      intro _ _
      refine ⟨List.pairwise_singleton _ _, ?_⟩
      intro r hr
      rcases List.mem_cons.mp hr with rfl | hr
      · exact Nat.le_refl i
      · cases hr
  | cons r₀ rs ih =>
      intro hp hlt
      have hp' := List.Pairwise.of_cons hp
      have hhd : ∀ r' ∈ rs, r₀.firstPos ≠ r'.firstPos :=
        fun r' h' => List.rel_of_pairwise_cons hp h'
      simp only [bump]
      by_cases h0 : r₀.pair = pr
      · rw [if_pos h0]
        refine ⟨List.Pairwise.cons (fun r' h' => hhd r' h') hp', ?_⟩
        intro r hr
        rcases List.mem_cons.mp hr with rfl | hr
        · exact Nat.le_of_lt (hlt r₀ (List.mem_cons_self _ _))
        · exact Nat.le_of_lt (hlt r (List.mem_cons_of_mem _ hr))
      · rw [if_neg h0]
        obtain ⟨ihp, ihb⟩ := ih hp' (fun r' h' => hlt r' (List.mem_cons_of_mem _ h'))
        have hlt0 : r₀.firstPos < i := hlt r₀ (List.mem_cons_self _ _)
        refine ⟨List.Pairwise.cons ?_ ihp, ?_⟩
        · intro r' h'
          rcases bump_firstPos_mem pr i rs r' h' with ⟨r'', hr'', he⟩ | he
          · rw [he]
            exact hhd r'' hr''
          · rw [he]
            omega
        · intro r hr
          rcases List.mem_cons.mp hr with rfl | hr
          · exact Nat.le_of_lt hlt0
          · exact ihb r hr

theorem scan_pairwise (fuel : Nat) : ∀ (st : St) (i : Nat) (acc : List PairRec), Asc st →
    List.Pairwise (fun r₁ r₂ : PairRec => r₁.firstPos ≠ r₂.firstPos) acc →
    (∀ r ∈ acc, r.firstPos < i) →
    List.Pairwise (fun r₁ r₂ : PairRec => r₁.firstPos ≠ r₂.firstPos)
      (scanPairs fuel st (some i) acc) := by
  induction fuel with
  | zero => intro st i acc _ hp _; exact hp
  | succ f ih =>
      intro st i acc hA hp hlt
      cases hnx : st.nxt.getD i none with
      | none =>
          rw [scanPairs_succ_none f st i acc hnx]
          exact hp
      | some j =>
          obtain ⟨hij, _⟩ := hA i j hnx
          rw [scanPairs_succ_some f st i j acc hnx]
          obtain ⟨hbp, hbb⟩ := bump_pairwise (st.char.getD i 0, st.char.getD j 0) i acc hp hlt
          exact ih st j _ hA hbp (fun r hr => Nat.lt_of_le_of_lt (hbb r hr) hij)

/-- Records of one round's scan have pairwise distinct first positions. -/
theorem scan_dist (st : St) (hA : Asc st) :
    ∀ x ∈ scanPairs st.char.length st (some 0) [],
      ∀ y ∈ scanPairs st.char.length st (some 0) [],
        x.firstPos = y.firstPos → x = y := by
  have hp := scan_pairwise st.char.length st 0 [] hA List.Pairwise.nil (by intro r hr; cases hr)
  intro x hx y hy hfp
  by_cases hxy : x = y
  · exact hxy
  · exact absurd hfp (hp.forall (fun a b h => h.symm) hx hy hxy)

theorem heapElLt_false_key {a b : Int × Nat × SPair} (h : heapElLt a b = false) :
    b.1 < a.1 ∨ (b.1 = a.1 ∧ b.2.1 ≤ a.2.1) := by
  obtain ⟨a1, a2, a3, a4⟩ := a
  obtain ⟨b1, b2, b3, b4⟩ := b
  simp only [heapElLt, ne_eq] at h
  split_ifs at h <;>
    simp only [decide_eq_false_iff_not, not_not, not_lt] at * <;>
    omega

theorem piLt_false_key {a b : PairRec} (h : piLt a b = false) :
    a.count < b.count ∨ (a.count = b.count ∧ b.firstPos ≤ a.firstPos) := by
  simp only [piLt, ne_eq] at h
  split_ifs at h <;>
    simp only [decide_eq_false_iff_not, not_not, not_lt] at * <;>
    omega

/-- The heap selection of heap_solution.py agrees with the reference
selection on any record list with distinct first positions. -/
theorem selectHeap_eq (recs : List PairRec)
    (hdist : ∀ x ∈ recs, ∀ y ∈ recs, x.firstPos = y.firstPos → x = y) :
    selectHeap recs = findBest recs := by
  obtain ⟨hnone, hsome⟩ := findBest_spec recs
  cases hfb : findBest recs with
  | none =>
      have hall := hnone.mp hfb
      have hels : recs.filterMap (fun r =>
          if 2 ≤ r.count then some ((-(r.count : Int), r.firstPos, r.pair)) else none) = [] := by
        rw [List.filterMap_eq_nil_iff]
        intro r hr
        rw [if_neg (by have := hall r hr; omega)]
      simp only [selectHeap]
      rw [hels]
      rfl
  | some p =>
      obtain ⟨r, hr, hrp, hrc, hmax⟩ := hsome p hfb
      have helr : (-(r.count : Int), r.firstPos, r.pair) ∈ recs.filterMap (fun r =>
          if 2 ≤ r.count then some ((-(r.count : Int), r.firstPos, r.pair)) else none) :=
        List.mem_filterMap.mpr ⟨r, hr, by rw [if_pos hrc]⟩
      cases hmn : heapMin (recs.filterMap (fun r =>
          if 2 ≤ r.count then some ((-(r.count : Int), r.firstPos, r.pair)) else none)) with
      | none =>
          rw [heapMin_eq_none hmn] at helr
          cases helr
      | some m =>
          obtain ⟨hmmem, hmmin⟩ := heapMin_spec hmn
          obtain ⟨rm, hrm, hfm⟩ := List.mem_filterMap.mp hmmem
          by_cases hrmc : 2 ≤ rm.count
          · rw [if_pos hrmc] at hfm
            have hm : m = (-(rm.count : Int), rm.firstPos, rm.pair) :=
              (Option.some.injEq _ _ ▸ hfm).symm
            subst hm
            have hkey := heapElLt_false_key (hmmin _ helr)
            have hle : rm.count ≤ r.count := (hmax rm hrm).1
            have hceq : rm.count = r.count := by
              rcases hkey with hk | hk
              · simp only at hk; omega
              · simp only at hk; omega
            have hfeq : rm.firstPos = r.firstPos := by
              rcases hkey with hk | hk
              · simp only at hk; omega
              · simp only at hk
                have := (hmax rm hrm).2 hceq
                omega
            have : rm = r := hdist rm hrm r hr hfeq
            subst this
            simp only [selectHeap]
            rw [hmn]
            exact congrArg some hrp
          · rw [if_neg hrmc] at hfm
            cases hfm

/-- The `PairInfo` heap selection of optimized_heap_solution.py agrees with
the reference selection on any record list with distinct first positions. -/
theorem selectOpt_eq (recs : List PairRec)
    (hdist : ∀ x ∈ recs, ∀ y ∈ recs, x.firstPos = y.firstPos → x = y) :
    selectOpt recs = findBest recs := by
  obtain ⟨hnone, hsome⟩ := findBest_spec recs
  cases hfb : findBest recs with
  | none =>
      have hall := hnone.mp hfb
      have hels : recs.filter (fun r => 2 ≤ r.count) = [] := by
        rw [List.filter_eq_nil_iff]
        intro r hr
        simp only [decide_eq_true_eq]
        have := hall r hr
        omega
      simp only [selectOpt]
      rw [hels]
      rfl
  | some p =>
      obtain ⟨r, hr, hrp, hrc, hmax⟩ := hsome p hfb
      have helr : r ∈ recs.filter (fun r => 2 ≤ r.count) :=
        List.mem_filter.mpr ⟨hr, by simp only [decide_eq_true_eq]; omega⟩
      have hdist' : ∀ x ∈ recs.filter (fun r => 2 ≤ r.count),
          ∀ y ∈ recs.filter (fun r => 2 ≤ r.count), x.firstPos = y.firstPos → x = y := by
        intro x hx y hy
        exact hdist x (List.mem_of_mem_filter hx) y (List.mem_of_mem_filter hy)
      cases hmn : heapMinPI (recs.filter (fun r => 2 ≤ r.count)) with
      | none =>
          rw [heapMinPI_eq_none hmn] at helr
          cases helr
      | some m =>
          obtain ⟨hmmem, hmmin⟩ := heapMinPI_spec hdist' hmn
          have hrmrec : m ∈ recs := List.mem_of_mem_filter hmmem
          have hkey := piLt_false_key (hmmin r helr)
          have hle : m.count ≤ r.count := (hmax m hrmrec).1
          have hceq : m.count = r.count := by omega
          have hfeq : m.firstPos = r.firstPos := by
            have := (hmax m hrmrec).2 hceq
            omega
          have : m = r := hdist m hrmrec r hr hfeq
          subst this
          simp only [selectOpt]
          rw [hmn]
          exact congrArg some hrp

theorem roundLoopH_succ_stop (k ord : Nat) (st : St)
    (h : scanPairs st.char.length st (some 0) [] = [] ∨
      selectHeap (scanPairs st.char.length st (some 0) []) = none) :
    roundLoopH (k + 1) ord st = st := by
  simp only [roundLoopH]
  rcases h with h | h
  · rw [if_pos h]
  · by_cases hr : scanPairs st.char.length st (some 0) [] = []
    · rw [if_pos hr]
    · rw [if_neg hr, h]

theorem roundLoopH_succ_some (k ord : Nat) (st : St) (bp : SPair)
    (hr : scanPairs st.char.length st (some 0) [] ≠ [])
    (hb : selectHeap (scanPairs st.char.length st (some 0) []) = some bp) :
    roundLoopH (k + 1) ord st =
      roundLoopH k (ord + 1) (mergePass st.char.length bp ord st (some 0)).1 := by
  simp only [roundLoopH]
  rw [if_neg hr, hb]

theorem roundLoopO_succ_stop (k ord : Nat) (st : St)
    (h : selectOpt (scanPairs st.char.length st (some 0) []) = none) :
    roundLoopO (k + 1) ord st = st := by
  simp only [roundLoopO]
  rw [h]

theorem roundLoopO_succ_some (k ord : Nat) (st : St) (bp : SPair)
    (hb : selectOpt (scanPairs st.char.length st (some 0) []) = some bp) :
    roundLoopO (k + 1) ord st =
      roundLoopO k (ord + 1) (mergePass st.char.length bp ord st (some 0)).1 := by
  simp only [roundLoopO]
  rw [hb]

theorem roundLoopH_eq (k : Nat) : ∀ (ord : Nat) (st : St), Asc st →
    roundLoopH k ord st = (roundLoop k ord st).1 := by
  induction k with
  | zero => intro ord st _; rfl
  | succ n ih =>
      intro ord st hA
      have hsel := selectHeap_eq _ (scan_dist st hA)
      by_cases hr : scanPairs st.char.length st (some 0) [] = []
      · rw [roundLoopH_succ_stop n ord st (Or.inl hr), roundLoop_succ_stop n ord st (Or.inl hr)]
      · cases hb : findBest (scanPairs st.char.length st (some 0) []) with
        | none =>
            rw [roundLoopH_succ_stop n ord st (Or.inr (hsel.trans hb)),
              roundLoop_succ_stop n ord st (Or.inr hb)]
        | some bp =>
            rw [roundLoopH_succ_some n ord st bp hr (hsel.trans hb),
              roundLoop_succ_some n ord st bp hr hb]
            exact ih (ord + 1) _ (asc_mergePass _ bp ord st (some 0) hA)

theorem roundLoopO_eq (k : Nat) : ∀ (ord : Nat) (st : St), Asc st →
    roundLoopO k ord st = (roundLoop k ord st).1 := by
  induction k with
  | zero => intro ord st _; rfl
  | succ n ih =>
      intro ord st hA
      have hsel := selectOpt_eq _ (scan_dist st hA)
      cases hb : findBest (scanPairs st.char.length st (some 0) []) with
      | none =>
          rw [roundLoopO_succ_stop n ord st (hsel.trans hb)]
          by_cases hr : scanPairs st.char.length st (some 0) [] = []
          · rw [roundLoop_succ_stop n ord st (Or.inl hr)]
          · rw [roundLoop_succ_stop n ord st (Or.inr hb)]
      | some bp =>
          have hr : scanPairs st.char.length st (some 0) [] ≠ [] := by
            intro he
            rw [he] at hb
            cases hb
          rw [roundLoopO_succ_some n ord st bp (hsel.trans hb),
            roundLoop_succ_some n ord st bp hr hb]
          exact ih (ord + 1) _ (asc_mergePass _ bp ord st (some 0) hA)

/-- heap_solution.py is extensionally equal to the reference. -/
theorem compress_text_heap_eq (s : List Nat) (k : Int) :
    compress_text_heap s k = compress_text s k := by
  unfold compress_text_heap compress_text
  by_cases h : s = [] ∨ k ≤ 0
  · rw [if_pos h, if_pos h]
  · rw [if_neg h, if_neg h, roundLoopH_eq k.toNat 65 (initSt s) (asc_initSt s)]

/-- optimized_heap_solution.py is extensionally equal to the reference. -/
theorem compress_text_opt_eq (s : List Nat) (k : Int) :
    compress_text_opt s k = compress_text s k := by
  unfold compress_text_opt compress_text
  by_cases h : s = [] ∨ k ≤ 0
  · rw [if_pos h, if_pos h]
  · rw [if_neg h, if_neg h, roundLoopO_eq k.toNat 65 (initSt s) (asc_initSt s)]

/-! ## Equivalence of the incremental index (heap_solution_MLE.py) — C4, part 2

The incremental state is related to the arena ground truth: `at_pos` is the
adjacent pair starting at each live position, `cnt` counts the live
occurrences of each pair, and each pair's position heap contains (at least)
all its live start positions. -/

/-- The adjacent pair starting at position `q` (ground truth). -/
def pairAt (st : St) (q : Nat) : Option SPair :=
  match st.nxt.getD q none with
  | none => none
  | some j => some (st.char.getD q 0, st.char.getD j 0)

/-- The list of live positions, in chain order. -/
def posList : Nat → St → Option Nat → List Nat
  | 0, _, _ => []
  | _ + 1, _, none => []
  | fuel + 1, st, some i => i :: posList fuel st (st.nxt.getD i none)

def liveList (s : MSt) : List Nat := posList s.c.length (mSt2St s) (some 0)

/-- The index invariant of the MLE state. -/
structure MInv (s : MSt) : Prop where
  ascM : Asc (mSt2St s)
  plen : s.p.length = s.c.length
  nlen : s.nx.length = s.c.length
  apNodup : (s.atPos.map Prod.fst).Nodup
  apOK : ∀ q : Nat, apGet s.atPos q =
    (if q ∈ liveList s then pairAt (mSt2St s) q else none)
  cntOK : ∀ pr : SPair, cntGet s.cnt pr =
    (((liveList s).countP (fun q => decide (pairAt (mSt2St s) q = some pr)) : Int))
  heapOK : ∀ q ∈ liveList s, ∀ pr : SPair,
    pairAt (mSt2St s) q = some pr → q ∈ heapsGet s.heaps pr
  prevOK : ∀ a ∈ liveList s, ∀ b : Nat,
    (mSt2St s).nxt.getD a none = some b → s.p.getD b none = some a
  prev0 : s.p.getD 0 none = none

/-! ### Association-list operation lemmas -/

theorem cntGet_cntAdd (cnt : List (SPair × Int)) (pr pr' : SPair) (d : Int) :
    cntGet (cntAdd cnt pr d) pr' = cntGet cnt pr' + (if pr' = pr then d else 0) := by
  induction cnt with
  | nil =>
      simp only [cntAdd, cntGet, List.find?]
      by_cases h : pr' = pr
      · subst h
        simp
      · rw [if_neg h]
        have : (decide (pr = pr')) = false := by
          simp only [decide_eq_false_iff_not]
          exact fun he => h he.symm
        simp [this]
  | cons e es ih =>
      obtain ⟨k, v⟩ := e
      simp only [cntAdd]
      by_cases hk : k = pr
      · rw [if_pos hk]
        simp only [cntGet, List.find?]
        by_cases hk' : k = pr'
        · have h1 : (decide (k = pr')) = true := by simp [hk']
          simp only [h1]
          rw [if_pos (hk'.symm.trans hk)]
        · have h1 : (decide (k = pr')) = false := by simp [hk']
          simp only [h1]
          rw [if_neg (fun he => hk' (hk.trans he.symm))]
          omega
      · rw [if_neg hk]
        simp only [cntGet, List.find?] at ih ⊢
        by_cases hk' : k = pr'
        · have h1 : (decide (k = pr')) = true := by simp [hk']
          simp only [h1]
          rw [if_neg (fun he => hk (hk'.trans he))]
          simp
        · have h1 : (decide (k = pr')) = false := by simp [hk']
          simp only [h1]
          exact ih

theorem apGet_apSet (ap : List (Nat × SPair)) (i i' : Nat) (pr : SPair) :
    apGet (apSet ap i pr) i' = if i' = i then some pr else apGet ap i' := by
  induction ap with
  | nil =>
      simp only [apSet, apGet, List.find?]
      by_cases h : i' = i
      · subst h
        simp
      · rw [if_neg h]
        have : (decide (i = i')) = false := by
          simp only [decide_eq_false_iff_not]
          exact fun he => h he.symm
        simp [this]
  | cons e es ih =>
      obtain ⟨k, v⟩ := e
      simp only [apSet]
      by_cases hk : k = i
      · rw [if_pos hk]
        simp only [apGet, List.find?]
        by_cases hk' : i' = i
        · have h1 : (decide (i = i')) = true := by simp [hk'.symm]
          simp only [h1]
          rw [if_pos hk']
        · have h1 : (decide (i = i')) = false := by
            simp only [decide_eq_false_iff_not]
            exact fun he => hk' he.symm
          have h2 : (decide (k = i')) = false := by
            simp only [decide_eq_false_iff_not]
            exact fun he => hk' (he.symm.trans hk)
          simp only [h1, h2]
          rw [if_neg hk']
      · rw [if_neg hk]
        simp only [apGet, List.find?] at ih ⊢
        by_cases hk' : k = i'
        · have h1 : (decide (k = i')) = true := by simp [hk']
          simp only [h1]
          rw [if_neg (fun he => hk (hk'.trans he))]
        · have h1 : (decide (k = i')) = false := by simp [hk']
          simp only [h1]
          exact ih

theorem apGet_apDel (ap : List (Nat × SPair)) (i i' : Nat)
    (hnd : (ap.map Prod.fst).Nodup) :
    apGet (apDel ap i) i' = if i' = i then none else apGet ap i' := by
  induction ap with
  | nil =>
      simp only [apDel, List.eraseP_nil, apGet, List.find?]
      by_cases h : i' = i
      · rw [if_pos h]
      · rw [if_neg h]
  | cons e es ih =>
      obtain ⟨k, v⟩ := e
      simp only [List.map_cons, List.nodup_cons] at hnd
      obtain ⟨hknotin, hnd'⟩ := hnd
      by_cases hk : k = i
      · have h1 : (decide ((k, v).1 = i)) = true := by simp [hk]
        have hdel : apDel ((k, v) :: es) i = es := by
          simp only [apDel, List.eraseP_cons, h1, cond_true]
        rw [hdel]
        by_cases hk' : i' = i
        · rw [if_pos hk']
          subst hk'
          subst hk
          cases hf : es.find? (fun e => decide (e.1 = k)) with
          | none => simp [apGet, hf]
          | some e' =>
              exfalso
              have hmem := List.mem_of_find?_eq_some hf
              have hp := List.find?_some hf
              simp only [decide_eq_true_eq] at hp
              exact hknotin (hp ▸ List.mem_map_of_mem Prod.fst hmem)
        · rw [if_neg hk']
          simp only [apGet, List.find?]
          have h2 : (decide (k = i')) = false := by
            simp only [decide_eq_false_iff_not]
            intro he
            exact hk' (he.symm.trans hk)
          simp only [h2]
      · have h1 : (decide ((k, v).1 = i)) = false := by simp [hk]
        have hdel : apDel ((k, v) :: es) i = (k, v) :: apDel es i := by
          simp only [apDel, List.eraseP_cons, h1, cond_false]
        rw [hdel]
        by_cases hk' : k = i'
        · have hni : ¬ i' = i := fun he => hk (hk'.trans he)
          rw [if_neg hni]
          simp only [apGet, List.find?]
          have h2 : (decide (k = i')) = true := by simp [hk']
          simp only [h2]
        · by_cases hii : i' = i
          · rw [if_pos hii]
            simp only [apGet, List.find?]
            have h2 : (decide (k = i')) = false := by simp [hk']
            simp only [h2]
            have := ih hnd'
            rw [if_pos hii] at this
            simp only [apGet] at this
            exact this
          · rw [if_neg hii]
            simp only [apGet, List.find?]
            have h2 : (decide (k = i')) = false := by simp [hk']
            simp only [h2]
            have := ih hnd'
            rw [if_neg hii] at this
            simp only [apGet] at this
            exact this

theorem heapsGet_heapsSet (h : List (SPair × List Nat)) (pr pr' : SPair) (l : List Nat) :
    heapsGet (heapsSet h pr l) pr' = if pr' = pr then l else heapsGet h pr' := by
  induction h with
  | nil =>
      simp only [heapsSet, heapsGet, List.find?]
      by_cases hp : pr' = pr
      · subst hp
        simp
      · rw [if_neg hp]
        have : (decide (pr = pr')) = false := by
          simp only [decide_eq_false_iff_not]
          exact fun he => hp he.symm
        simp [this]
  | cons e es ih =>
      obtain ⟨k, v⟩ := e
      simp only [heapsSet]
      by_cases hk : k = pr
      · rw [if_pos hk]
        simp only [heapsGet, List.find?]
        by_cases hp : pr' = pr
        · have h1 : (decide (pr = pr')) = true := by simp [hp.symm]
          simp only [h1]
          rw [if_pos hp]
        · have h1 : (decide (pr = pr')) = false := by
            simp only [decide_eq_false_iff_not]
            exact fun he => hp he.symm
          have h2 : (decide (k = pr')) = false := by
            simp only [decide_eq_false_iff_not]
            exact fun he => hp (he.symm.trans hk)
          simp only [h1, h2]
          rw [if_neg hp]
      · rw [if_neg hk]
        simp only [heapsGet, List.find?] at ih ⊢
        by_cases hk' : k = pr'
        · have h1 : (decide (k = pr')) = true := by simp [hk']
          simp only [h1]
          rw [if_neg (fun he => hk (hk'.trans he))]
        · have h1 : (decide (k = pr')) = false := by simp [hk']
          simp only [h1]
          exact ih

theorem apSet_keys (i : Nat) (pr : SPair) : ∀ (ap : List (Nat × SPair)),
    ∀ e ∈ apSet ap i pr, e.1 = i ∨ e.1 ∈ ap.map Prod.fst := by
  intro ap
  induction ap with
  | nil =>
      intro e he
      rcases List.mem_cons.mp he with rfl | he
      · exact Or.inl rfl
      · cases he
  | cons e₀ es ih =>
      obtain ⟨k, v⟩ := e₀
      intro e he
      simp only [apSet] at he
      by_cases hk : k = i
      · rw [if_pos hk] at he
        rcases List.mem_cons.mp he with rfl | he
        · exact Or.inl rfl
        · exact Or.inr (List.mem_cons_of_mem k (List.mem_map_of_mem Prod.fst he))
      · rw [if_neg hk] at he
        rcases List.mem_cons.mp he with rfl | he
        · exact Or.inr (List.mem_cons_self k _)
        · rcases ih e he with h | h
          · exact Or.inl h
          · exact Or.inr (List.mem_cons_of_mem k h)

theorem apSet_nodup (ap : List (Nat × SPair)) (i : Nat) (pr : SPair)
    (hnd : (ap.map Prod.fst).Nodup) : ((apSet ap i pr).map Prod.fst).Nodup := by
  induction ap with
  | nil => simp [apSet]
  | cons e es ih =>
      obtain ⟨k, v⟩ := e
      simp only [List.map_cons, List.nodup_cons] at hnd
      obtain ⟨hknotin, hnd'⟩ := hnd
      simp only [apSet]
      by_cases hk : k = i
      · rw [if_pos hk]
        simp only [List.map_cons, List.nodup_cons]
        exact ⟨fun h => hknotin (hk.symm ▸ h), hnd'⟩
      · rw [if_neg hk]
        simp only [List.map_cons, List.nodup_cons]
        refine ⟨?_, ih hnd'⟩
        intro hmem
        obtain ⟨e', he', hke⟩ := List.mem_map.mp hmem
        rcases apSet_keys i pr es e' he' with h' | h'
        · exact hk (hke ▸ h')
        · exact hknotin (hke ▸ h')

theorem apDel_nodup (ap : List (Nat × SPair)) (i : Nat)
    (hnd : (ap.map Prod.fst).Nodup) : ((apDel ap i).map Prod.fst).Nodup := by
  have hsub : (apDel ap i).Sublist ap := List.eraseP_sublist ap
  exact List.Nodup.sublist (List.Sublist.map Prod.fst hsub) hnd

/-! ### Live-position list lemmas -/

theorem posList_none (fuel : Nat) (st : St) : posList fuel st none = [] := by
  cases fuel <;> rfl

theorem posList_lb (fuel : Nat) : ∀ (st : St) (q x : Nat), Asc st →
    x ∈ posList fuel st (some q) → q ≤ x := by
  induction fuel with
  | zero => intro st q x _ hx; cases hx
  | succ f ih =>
      intro st q x hA hx
      simp only [posList] at hx
      rcases List.mem_cons.mp hx with rfl | hx
      · exact Nat.le_refl x
      · cases hnx : st.nxt.getD q none with
        | none => rw [hnx, posList_none] at hx; cases hx
        | some j =>
            rw [hnx] at hx
            have := ih st j x hA hx
            have := (hA q j hnx).1
            omega

theorem posList_stable (fuel₁ : Nat) : ∀ (fuel₂ : Nat) (st : St) (i : Nat), Asc st →
    i < st.char.length → st.char.length - i ≤ fuel₁ → st.char.length - i ≤ fuel₂ →
    posList fuel₁ st (some i) = posList fuel₂ st (some i) := by
  induction fuel₁ with
  | zero => intro fuel₂ st i _ hi h1 _; omega
  | succ f ih =>
      intro fuel₂ st i hA hi h1 h2
      cases fuel₂ with
      | zero => omega
      | succ g =>
          simp only [posList]
          cases hnx : st.nxt.getD i none with
          | none => rw [posList_none, posList_none]
          | some j =>
              obtain ⟨hij, hj⟩ := hA i j hnx
              rw [ih g st j hA hj (by omega) (by omega)]

theorem posList_succ_of_lt (fuel : Nat) (st : St) (i : Nat) (hA : Asc st)
    (hi : i < st.char.length) (hf : st.char.length - i ≤ fuel) :
    posList fuel st (some i) = i :: posList fuel st (st.nxt.getD i none) := by
  cases fuel with
  | zero => omega
  | succ f =>
      simp only [posList]
      cases hnx : st.nxt.getD i none with
      | none => rw [posList_none, posList_none]
      | some j =>
          obtain ⟨hij, hj⟩ := hA i j hnx
          rw [posList_stable f (f + 1) st j hA hj (by omega) (by omega)]

theorem posList_agree (fuel : Nat) : ∀ (st₁ st₂ : St) (q₀ : Nat), Asc st₁ →
    (∀ p, q₀ ≤ p → st₁.nxt.getD p none = st₂.nxt.getD p none) →
    ∀ q, q₀ ≤ q → posList fuel st₁ (some q) = posList fuel st₂ (some q) := by
  induction fuel with
  | zero => intro _ _ _ _ _ _ _; rfl
  | succ f ih =>
      intro st₁ st₂ q₀ hA hn q hq
      simp only [posList]
      rw [hn q hq]
      cases hnx : st₂.nxt.getD q none with
      | none => rw [posList_none, posList_none]
      | some j =>
          have hnx₁ : st₁.nxt.getD q none = some j := by rw [hn q hq]; exact hnx
          obtain ⟨hqj, _⟩ := hA q j hnx₁
          rw [ih st₁ st₂ q₀ hA hn j (by omega)]

/-- A merge at live position `i` (with right node `j`) removes exactly `j`
from the live-position list. -/
theorem posList_merge_from (fuel : Nat) : ∀ (st : St) (i j : Nat) (nc : Nat) (p : Nat),
    Asc st → st.nxt.getD i none = some j → p < st.char.length →
    st.char.length - p ≤ fuel → i ∈ posList st.char.length st (some p) →
    posList st.char.length (mergeStep st i (st.nxt.getD j none) nc) (some p) =
      (posList st.char.length st (some p)).erase j := by
  induction fuel with
  | zero => intro st i j nc p _ _ hp hf _; omega
  | succ f ih =>
      intro st i j nc p hA hij hp hf hmem
      obtain ⟨hiltj, hjn⟩ := hA i j hij
      have hilen : i < st.nxt.length := by
        by_contra hcon
        rw [getD_of_le st.nxt i none (Nat.le_of_not_lt hcon)] at hij
        exact Option.noConfusion hij
      have hA' := asc_mergeStep st i j nc hA hij
      have hlen' : (mergeStep st i (st.nxt.getD j none) nc).char.length = st.char.length :=
        charLen_mergeStep st i _ nc
      have hp' : p < (mergeStep st i (st.nxt.getD j none) nc).char.length := by omega
      have hup := posList_succ_of_lt st.char.length st p hA hp (by omega)
      have hup' : posList st.char.length (mergeStep st i (st.nxt.getD j none) nc) (some p) =
          p :: posList st.char.length (mergeStep st i (st.nxt.getD j none) nc)
            ((mergeStep st i (st.nxt.getD j none) nc).nxt.getD p none) := by
        rw [show st.char.length = (mergeStep st i (st.nxt.getD j none) nc).char.length from
          hlen'.symm] at hp ⊢
        exact posList_succ_of_lt _ _ p hA' hp (by omega)
      by_cases hpi : p = i
      · subst hpi
        have hna : (mergeStep st p (st.nxt.getD j none) nc).nxt.getD p none =
            st.nxt.getD j none := getD_set_eq st.nxt p _ none hilen
        rw [hup', hna, hup, hij]
        have hupj := posList_succ_of_lt st.char.length st j hA hjn (by omega)
        rw [hupj]
        have herase : (p :: j :: posList st.char.length st (st.nxt.getD j none)).erase j =
            p :: posList st.char.length st (st.nxt.getD j none) := by
          rw [List.erase_cons_tail (by simp; omega), List.erase_cons_head]
        rw [herase]
        cases hnj : st.nxt.getD j none with
        | none => rw [posList_none, posList_none]
        | some q =>
            obtain ⟨hjq, hq⟩ := hA j q hnj
            rw [hnj] at hA'
            refine congrArg (p :: ·) ?_
            refine posList_agree st.char.length (mergeStep st p (some q) nc) st q hA'
              ?_ q (Nat.le_refl q)
            intro r hr
            exact getD_set_ne st.nxt (some q) none (by omega)
      · have hnp : (mergeStep st i (st.nxt.getD j none) nc).nxt.getD p none =
            st.nxt.getD p none := getD_set_ne st.nxt _ none (fun h => hpi h.symm)
        rw [hup] at hmem
        rcases List.mem_cons.mp hmem with h | hmem'
        · exact absurd h.symm hpi
        · cases hnx : st.nxt.getD p none with
          | none => rw [hnx, posList_none] at hmem'; cases hmem'
          | some p' =>
              obtain ⟨hpp', hp'n⟩ := hA p p' hnx
              rw [hnx] at hmem'
              have hple : p ≤ i := posList_lb st.char.length st p i hA (hup ▸ hmem)
              have hpj : p ≠ j := by omega
              rw [hup', hnp, hnx, hup]
              rw [List.erase_cons_tail (by simp; omega)]
              rw [hnx]
              exact congrArg (p :: ·) (ih st i j nc p' hA hij hp'n (by omega) hmem')

theorem posList_ub (fuel : Nat) : ∀ (st : St) (p x : Nat), Asc st →
    p < st.char.length → x ∈ posList fuel st (some p) → x < st.char.length := by
  induction fuel with
  | zero => intro st p x _ _ hx; cases hx
  | succ f ih =>
      intro st p x hA hp hx
      simp only [posList] at hx
      rcases List.mem_cons.mp hx with rfl | hx
      · exact hp
      · cases hnx : st.nxt.getD p none with
        | none => rw [hnx, posList_none] at hx; cases hx
        | some j =>
            rw [hnx] at hx
            exact ih st j x hA (hA p j hnx).2 hx

theorem posList_succ_mem (fuel : Nat) : ∀ (st : St) (p q j : Nat), Asc st →
    p < st.char.length → st.char.length - p ≤ fuel →
    q ∈ posList fuel st (some p) → st.nxt.getD q none = some j →
    j ∈ posList fuel st (some p) := by
  induction fuel with
  | zero => intro st p q j _ hp hf _ _; omega
  | succ f ih =>
      intro st p q j hA hp hf hq hqj
      simp only [posList] at hq ⊢
      rcases List.mem_cons.mp hq with rfl | hq
      · obtain ⟨hqj', hjn⟩ := hA q j hqj
        rw [hqj]
        refine List.mem_cons_of_mem q ?_
        rw [posList_succ_of_lt f st j hA hjn (by omega)]
        exact List.mem_cons_self j _
      · cases hnx : st.nxt.getD p none with
        | none => rw [hnx, posList_none] at hq; cases hq
        | some p' =>
            rw [hnx] at hq
            obtain ⟨hpp', hp'n⟩ := hA p p' hnx
            exact List.mem_cons_of_mem p (ih st p' q j hA hp'n (by omega) hq hqj)

theorem posList_pairwise (fuel : Nat) : ∀ (st : St) (p : Nat), Asc st →
    List.Pairwise (· < ·) (posList fuel st (some p)) := by
  induction fuel with
  | zero => intro st p _; simp [posList]
  | succ f ih =>
      intro st p hA
      simp only [posList]
      cases hnx : st.nxt.getD p none with
      | none => rw [posList_none]; simp
      | some j =>
          obtain ⟨hpj, _⟩ := hA p j hnx
          refine List.Pairwise.cons ?_ (ih st j hA)
          intro x hx
          have := posList_lb f st j x hA hx
          omega

theorem posList_nodup (fuel : Nat) (st : St) (p : Nat) (hA : Asc st) :
    (posList fuel st (some p)).Nodup :=
  (posList_pairwise fuel st p hA).imp Nat.ne_of_lt

theorem posList_pred (fuel : Nat) : ∀ (st : St) (p q : Nat), Asc st →
    q ∈ posList fuel st (some p) → q ≠ p →
    ∃ a ∈ posList fuel st (some p), st.nxt.getD a none = some q := by
  induction fuel with
  | zero => intro st p q _ hq _; cases hq
  | succ f ih =>
      intro st p q hA hq hqp
      simp only [posList] at hq ⊢
      rcases List.mem_cons.mp hq with rfl | hq
      · exact absurd rfl hqp
      · cases hnx : st.nxt.getD p none with
        | none => rw [hnx, posList_none] at hq; cases hq
        | some p' =>
            rw [hnx] at hq
            by_cases hqp' : q = p'
            · subst hqp'
              exact ⟨p, List.mem_cons_self p _, hnx⟩
            · obtain ⟨a, ha, hna⟩ := ih st p' q hA hq hqp'
              exact ⟨a, List.mem_cons_of_mem p ha, hna⟩

/-- Adjacent-pair counts over the materialised list equal counts of
`pairAt` over the live-position list. -/
theorem countPairL_nil (pr : SPair) : countPairL pr [] = 0 := rfl

theorem countPairL_single (pr : SPair) (x : Nat) : countPairL pr [x] = 0 := rfl

theorem countPairL_posList (fuel : Nat) : ∀ (st : St) (i : Nat) (pr : SPair), Asc st →
    i < st.char.length → st.char.length - i ≤ fuel →
    countPairL pr (mat fuel st (some i)) =
      (posList fuel st (some i)).countP (fun q => decide (pairAt st q = some pr)) := by
  induction fuel with
  | zero => intro st i pr _ hi hf; omega
  | succ f ih =>
      intro st i pr hA hi hf
      simp only [mat, posList]
      cases hnx : st.nxt.getD i none with
      | none =>
          rw [mat_none, posList_none, countPairL_single, List.countP_cons, List.countP_nil]
          have hnone : pairAt st i = none := by
            unfold pairAt
            rw [hnx]
          simp [hnone]
      | some j =>
          obtain ⟨hij, hj⟩ := hA i j hnx
          obtain ⟨p1, p2⟩ := pr
          rw [mat_succ_of_lt f st j hA hj (by omega), countPairL_cons₂,
            ← mat_succ_of_lt f st j hA hj (by omega)]
          rw [ih st j (p1, p2) hA hj (by omega)]
          rw [List.countP_cons]
          have hpi : pairAt st i = some (st.char.getD i 0, st.char.getD j 0) := by
            unfold pairAt
            rw [hnx]
          rw [hpi]
          by_cases h1 : st.char.getD i 0 = p1
          · by_cases h2 : st.char.getD j 0 = p2
            · rw [if_pos ⟨h1, h2⟩, h1, h2]
              simp [Nat.add_comm]
            · rw [if_neg (fun hc => h2 hc.2)]
              have hne : (decide (some ((st.char.getD i 0, st.char.getD j 0) : SPair)
                  = some (p1, p2))) = false := by
                simp only [decide_eq_false_iff_not, Option.some.injEq, Prod.mk.injEq]
                exact fun hc => h2 hc.2
              rw [hne]
              simp
          · rw [if_neg (fun hc => h1 hc.1)]
            have hne : (decide (some ((st.char.getD i 0, st.char.getD j 0) : SPair)
                = some (p1, p2))) = false := by
              simp only [decide_eq_false_iff_not, Option.some.injEq, Prod.mk.injEq]
              exact fun hc => h1 hc.1
            rw [hne]
            simp

/-! ### Heap pop lemmas -/

theorem listMin_cons_none (x : Nat) (xs : List Nat) (h : listMin xs = none) :
    listMin (x :: xs) = some x := by
  simp only [listMin, h]

theorem listMin_cons_some (x m : Nat) (xs : List Nat) (h : listMin xs = some m) :
    listMin (x :: xs) = some (min x m) := by
  simp only [listMin, h]

theorem listMin_none {l : List Nat} (h : listMin l = none) : l = [] := by
  cases l with
  | nil => rfl
  | cons x xs =>
      exfalso
      cases hxs : listMin xs with
      | none => rw [listMin_cons_none x xs hxs] at h; cases h
      | some m => rw [listMin_cons_some x m xs hxs] at h; cases h

theorem listMin_spec : ∀ {l : List Nat} {m : Nat}, listMin l = some m →
    m ∈ l ∧ ∀ x ∈ l, m ≤ x := by
  intro l
  induction l with
  | nil => intro m h; cases h
  | cons x xs ih =>
      intro m h
      cases hxs : listMin xs with
      | none =>
          rw [listMin_cons_none x xs hxs] at h
          cases h
          rw [listMin_none hxs]
          refine ⟨List.mem_cons_self _ _, ?_⟩
          intro y hy
          rcases List.mem_cons.mp hy with rfl | hy
          · exact Nat.le_refl y
          · cases hy
      | some m' =>
          rw [listMin_cons_some x m' xs hxs] at h
          cases h
          obtain ⟨hm', hmin⟩ := ih hxs
          constructor
          · rcases Nat.le_total x m' with hle | hle
            · rw [Nat.min_eq_left hle]
              exact List.mem_cons_self x xs
            · rw [Nat.min_eq_right hle]
              exact List.mem_cons_of_mem x hm'
          · intro y hy
            rcases List.mem_cons.mp hy with rfl | hy
            · exact Nat.min_le_left _ _
            · exact Nat.le_trans (Nat.min_le_right _ _) (hmin y hy)

theorem getFirstAux_succ_none (ap : List (Nat × SPair)) (pr : SPair) (f : Nat) (h : List Nat)
    (hm : listMin h = none) : getFirstAux ap pr (f + 1) h = (none, h) := by
  simp only [getFirstAux, hm]

theorem getFirstAux_succ_hit (ap : List (Nat × SPair)) (pr : SPair) (f : Nat) (h : List Nat)
    (m0 : Nat) (hm : listMin h = some m0) (hap : apGet ap m0 = some pr) :
    getFirstAux ap pr (f + 1) h = (some m0, h) := by
  simp only [getFirstAux, hm]
  rw [if_pos hap]

theorem getFirstAux_succ_miss (ap : List (Nat × SPair)) (pr : SPair) (f : Nat) (h : List Nat)
    (m0 : Nat) (hm : listMin h = some m0) (hap : ¬ apGet ap m0 = some pr) :
    getFirstAux ap pr (f + 1) h = getFirstAux ap pr f (h.erase m0) := by
  simp only [getFirstAux, hm]
  rw [if_neg hap]

theorem getFirstAux_spec (ap : List (Nat × SPair)) (pr : SPair) :
    ∀ (fuel : Nat) (h : List Nat), h.length ≤ fuel →
      (∀ q ∈ h, apGet ap q = some pr → q ∈ (getFirstAux ap pr fuel h).2) ∧
      ((getFirstAux ap pr fuel h).1 = none → ∀ q ∈ h, apGet ap q ≠ some pr) ∧
      (∀ m, (getFirstAux ap pr fuel h).1 = some m →
        m ∈ h ∧ apGet ap m = some pr ∧ ∀ q ∈ h, apGet ap q = some pr → m ≤ q) := by
  intro fuel
  induction fuel with
  | zero =>
      intro h hlen
      have : h = [] := List.length_eq_zero.mp (Nat.le_zero.mp hlen)
      subst this
      refine ⟨(by intro q hq; cases hq), (by intro _ q hq; cases hq), ?_⟩
      intro m hm
      cases hm
  | succ f ih =>
      intro h hlen
      cases hlm : listMin h with
      | none =>
          rw [getFirstAux_succ_none ap pr f h hlm]
          have : h = [] := listMin_none hlm
          subst this
          refine ⟨(by intro q hq; cases hq), (by intro _ q hq; cases hq), ?_⟩
          intro m hm
          cases hm
      | some m0 =>
          obtain ⟨hm0, hm0min⟩ := listMin_spec hlm
          by_cases hap : apGet ap m0 = some pr
          · rw [getFirstAux_succ_hit ap pr f h m0 hlm hap]
            refine ⟨fun q hq _ => hq, (by intro hc; cases hc), ?_⟩
            intro m hm
            have hm' : m0 = m := Option.some.inj hm
            subst hm'
            exact ⟨hm0, hap, fun q hq _ => hm0min q hq⟩
          · rw [getFirstAux_succ_miss ap pr f h m0 hlm hap]
            have herlen : (h.erase m0).length ≤ f := by
              rw [List.length_erase_of_mem hm0]
              omega
            obtain ⟨ihkeep, ihnone, ihsome⟩ := ih (h.erase m0) herlen
            refine ⟨?_, ?_, ?_⟩
            · intro q hq hqp
              have hqm0 : q ≠ m0 := fun he => hap (he ▸ hqp)
              exact ihkeep q ((List.mem_erase_of_ne hqm0).mpr hq) hqp
            · intro hnone q hq hqp
              have hqm0 : q ≠ m0 := fun he => hap (he ▸ hqp)
              exact ihnone hnone q ((List.mem_erase_of_ne hqm0).mpr hq) hqp
            · intro m hm
              obtain ⟨hmem, hmp, hmmin⟩ := ihsome m hm
              refine ⟨List.mem_of_mem_erase hmem, hmp, ?_⟩
              intro q hq hqp
              have hqm0 : q ≠ m0 := fun he => hap (he ▸ hqp)
              exact hmmin q ((List.mem_erase_of_ne hqm0).mpr hq) hqp

/-! ### Scan-record characterisation lemmas -/

/-- First position recorded for a pair (from the first matching record). -/
def recFirst (recs : List PairRec) (pr : SPair) : Option Nat :=
  match recs.find? (fun r => decide (r.pair = pr)) with
  | none => none
  | some r => some r.firstPos

theorem bump_recFirst (acc : List PairRec) (pr pr' : SPair) (i : Nat) :
    recFirst (bump acc pr i) pr' =
      match recFirst acc pr' with
      | some f => some f
      | none => if pr' = pr then some i else none := by
  induction acc with
  | nil =>
      simp only [bump, recFirst, List.find?]
      by_cases h : pr' = pr
      · have h1 : (decide (pr = pr')) = true := by simp [h.symm]
        simp only [h1]
        rw [if_pos h]
      · have h1 : (decide (pr = pr')) = false := by
          simp only [decide_eq_false_iff_not]
          exact fun he => h he.symm
        simp only [h1]
        rw [if_neg h]
  | cons r rs ih =>
      simp only [bump]
      by_cases hr : r.pair = pr
      · rw [if_pos hr]
        simp only [recFirst, List.find?]
        by_cases hp : r.pair = pr'
        · have h1 : (decide (r.pair = pr')) = true := by simp [hp]
          simp only [h1]
        · have h1 : (decide (r.pair = pr')) = false := by simp [hp]
          simp only [h1]
          have hne : ¬ pr' = pr := fun he => hp (hr.trans he.symm)
          cases hf : rs.find? (fun r' => decide (r'.pair = pr')) with
          | none => rw [if_neg hne]
          | some r' => rfl
      · rw [if_neg hr]
        simp only [recFirst, List.find?] at ih ⊢
        by_cases hp : r.pair = pr'
        · have h1 : (decide (r.pair = pr')) = true := by simp [hp]
          simp only [h1]
        · have h1 : (decide (r.pair = pr')) = false := by simp [hp]
          simp only [h1]
          exact ih

theorem scan_recFirst (fuel : Nat) : ∀ (st : St) (i : Nat) (acc : List PairRec) (pr : SPair),
    Asc st → i < st.char.length → st.char.length - i ≤ fuel →
    recFirst (scanPairs fuel st (some i) acc) pr =
      match recFirst acc pr with
      | some f => some f
      | none => (posList fuel st (some i)).find? (fun q => decide (pairAt st q = some pr)) := by
  induction fuel with
  | zero => intro st i acc pr _ hi hf; omega
  | succ f ih =>
      intro st i acc pr hA hi hf
      cases hnx : st.nxt.getD i none with
      | none =>
          rw [scanPairs_succ_none f st i acc hnx]
          have hpn : pairAt st i = none := by
            unfold pairAt
            rw [hnx]
          simp only [posList]
          rw [hnx, posList_none]
          have hfind : ([i].find? (fun q => decide (pairAt st q = some pr))) = none := by
            simp [List.find?, hpn]
          rw [hfind]
          cases hacc : recFirst acc pr with
          | none => rfl
          | some v => rfl
      | some j =>
          obtain ⟨hij, hj⟩ := hA i j hnx
          rw [scanPairs_succ_some f st i j acc hnx]
          rw [ih st j _ pr hA hj (by omega)]
          rw [bump_recFirst]
          have hpi : pairAt st i = some (st.char.getD i 0, st.char.getD j 0) := by
            unfold pairAt
            rw [hnx]
          simp only [posList]
          rw [hnx, List.find?]
          cases hacc : recFirst acc pr with
          | some v => rfl
          | none =>
              by_cases hpp : pr = (st.char.getD i 0, st.char.getD j 0)
              · rw [if_pos hpp]
                have hdec : (decide (pairAt st i = some pr)) = true := by
                  rw [hpi, hpp]
                  simp
                rw [hdec]
              · rw [if_neg hpp]
                have hdec : (decide (pairAt st i = some pr)) = false := by
                  rw [hpi]
                  simp only [decide_eq_false_iff_not, Option.some.injEq]
                  exact fun he => hpp he.symm
                rw [hdec]

theorem find?_sorted_min {l : List Nat} {p : Nat → Bool} {m : Nat}
    (hs : List.Pairwise (· < ·) l) (h : l.find? p = some m) :
    m ∈ l ∧ p m = true ∧ ∀ q ∈ l, p q = true → m ≤ q := by
  induction l with
  | nil => cases h
  | cons x xs ih =>
      rw [List.find?] at h
      by_cases hx : p x = true
      · rw [hx] at h
        cases h
        refine ⟨List.mem_cons_self _ _, hx, ?_⟩
        intro q hq _
        rcases List.mem_cons.mp hq with rfl | hq
        · exact Nat.le_refl _
        · exact Nat.le_of_lt (List.rel_of_pairwise_cons hs hq)
      · rw [Bool.not_eq_true] at hx
        rw [hx] at h
        obtain ⟨hm, hpm, hmin⟩ := ih (List.Pairwise.of_cons hs) h
        refine ⟨List.mem_cons_of_mem x hm, hpm, ?_⟩
        intro q hq hpq
        rcases List.mem_cons.mp hq with rfl | hq
        · rw [hpq] at hx
          cases hx
        · exact hmin q hq hpq

theorem bump_pair_mem (pr : SPair) (i : Nat) : ∀ (acc : List PairRec),
    ∀ r' ∈ bump acc pr i, r'.pair = pr ∨ ∃ r'' ∈ acc, r'.pair = r''.pair := by
  intro acc
  induction acc with
  | nil =>
      intro r' hr'
      rcases List.mem_cons.mp hr' with rfl | hr'
      · exact Or.inl rfl
      · cases hr'
  | cons r₀ rs ih =>
      intro r' hr'
      simp only [bump] at hr'
      by_cases h0 : r₀.pair = pr
      · rw [if_pos h0] at hr'
        rcases List.mem_cons.mp hr' with rfl | hr'
        · exact Or.inr ⟨r₀, List.mem_cons_self _ _, rfl⟩
        · exact Or.inr ⟨r', List.mem_cons_of_mem r₀ hr', rfl⟩
      · rw [if_neg h0] at hr'
        rcases List.mem_cons.mp hr' with rfl | hr'
        · exact Or.inr ⟨r', List.mem_cons_self _ _, rfl⟩
        · rcases ih r' hr' with h | ⟨r'', hr'', he⟩
          · exact Or.inl h
          · exact Or.inr ⟨r'', List.mem_cons_of_mem r₀ hr'', he⟩

theorem bump_pair_pairwise (pr : SPair) (i : Nat) : ∀ (acc : List PairRec),
    List.Pairwise (fun r₁ r₂ : PairRec => r₁.pair ≠ r₂.pair) acc →
    List.Pairwise (fun r₁ r₂ : PairRec => r₁.pair ≠ r₂.pair) (bump acc pr i) := by
  intro acc
  induction acc with
  | nil => intro _; exact List.pairwise_singleton _ _
  | cons r₀ rs ih =>
      intro hp
      have hhd : ∀ r' ∈ rs, r₀.pair ≠ r'.pair := fun r' h' => List.rel_of_pairwise_cons hp h'
      have htl := List.Pairwise.of_cons hp
      simp only [bump]
      by_cases h0 : r₀.pair = pr
      · rw [if_pos h0]
        exact List.Pairwise.cons (fun r' h' => hhd r' h') htl
      · rw [if_neg h0]
        refine List.Pairwise.cons ?_ (ih htl)
        intro r' h'
        rcases bump_pair_mem pr i rs r' h' with h | ⟨r'', hr'', he⟩
        · rw [h]
          exact h0
        · rw [he]
          exact hhd r'' hr''

theorem scan_pair_pairwise (fuel : Nat) : ∀ (st : St) (i : Option Nat) (acc : List PairRec),
    List.Pairwise (fun r₁ r₂ : PairRec => r₁.pair ≠ r₂.pair) acc →
    List.Pairwise (fun r₁ r₂ : PairRec => r₁.pair ≠ r₂.pair) (scanPairs fuel st i acc) := by
  induction fuel with
  | zero => intro st i acc hp; exact hp
  | succ f ih =>
      intro st i acc hp
      cases i with
      | none => exact hp
      | some a =>
          cases hnx : st.nxt.getD a none with
          | none => rw [scanPairs_succ_none f st a acc hnx]; exact hp
          | some j =>
              rw [scanPairs_succ_some f st a j acc hnx]
              exact ih st (some j) _ (bump_pair_pairwise _ a acc hp)

theorem recCount_of_mem_unique (recs : List PairRec) (r : PairRec)
    (hp : List.Pairwise (fun r₁ r₂ : PairRec => r₁.pair ≠ r₂.pair) recs) (hr : r ∈ recs) :
    recCount recs r.pair = r.count := by
  induction recs with
  | nil => cases hr
  | cons r₀ rs ih =>
      simp only [recCount]
      rcases List.mem_cons.mp hr with rfl | hr'
      · rw [if_pos rfl]
      · rw [if_neg (List.rel_of_pairwise_cons hp hr')]
        exact ih (List.Pairwise.of_cons hp) hr'

theorem find?_rec_unique (recs : List PairRec) (r : PairRec)
    (hp : List.Pairwise (fun r₁ r₂ : PairRec => r₁.pair ≠ r₂.pair) recs) (hr : r ∈ recs) :
    recs.find? (fun r' => decide (r'.pair = r.pair)) = some r := by
  induction recs with
  | nil => cases hr
  | cons r₀ rs ih =>
      rw [List.find?]
      rcases List.mem_cons.mp hr with rfl | hr'
      · simp
      · have hne : r₀.pair ≠ r.pair := List.rel_of_pairwise_cons hp hr'
        have h1 : (decide (r₀.pair = r.pair)) = false := by simp [hne]
        rw [h1]
        exact ih (List.Pairwise.of_cons hp) hr'

theorem recCount_pos_record (recs : List PairRec) (pr : SPair)
    (h : 1 ≤ recCount recs pr) :
    ∃ r ∈ recs, r.pair = pr ∧ r.count = recCount recs pr := by
  induction recs with
  | nil => simp [recCount] at h
  | cons r₀ rs ih =>
      simp only [recCount] at h ⊢
      by_cases h0 : r₀.pair = pr
      · rw [if_pos h0] at h ⊢
        exact ⟨r₀, List.mem_cons_self _ _, h0, rfl⟩
      · rw [if_neg h0] at h ⊢
        obtain ⟨r, hr, hrp, hrc⟩ := ih h
        exact ⟨r, List.mem_cons_of_mem r₀ hr, hrp, hrc⟩

theorem recCount_lt_two (recs : List PairRec) (pr : SPair)
    (h : ∀ r ∈ recs, r.count < 2) : recCount recs pr < 2 := by
  induction recs with
  | nil => simp [recCount]
  | cons r₀ rs ih =>
      simp only [recCount]
      by_cases h0 : r₀.pair = pr
      · rw [if_pos h0]
        exact h r₀ (List.mem_cons_self _ _)
      · rw [if_neg h0]
        exact ih (fun r hr => h r (List.mem_cons_of_mem r₀ hr))

theorem cntGet_ne_zero_key (cnt : List (SPair × Int)) (pr : SPair)
    (h : cntGet cnt pr ≠ 0) : pr ∈ cnt.map Prod.fst := by
  unfold cntGet at h
  cases hf : cnt.find? (fun e => decide (e.1 = pr)) with
  | none => rw [hf] at h; exact absurd rfl h
  | some e =>
      have hmem := List.mem_of_find?_eq_some hf
      have hp := List.find?_some hf
      simp only [decide_eq_true_eq] at hp
      exact hp ▸ List.mem_map_of_mem Prod.fst hmem

/-! ### Ground-truth selection data and the scan summary -/

/-- Live occurrence count of a pair (as an `Int`, matching `cnt`). -/
def liveCnt (s : MSt) (pr : SPair) : Int :=
  (((liveList s).countP (fun q => decide (pairAt (mSt2St s) q = some pr)) : Int))

/-- `f` is the least live start position of the pair `pr`. -/
def MinPos (s : MSt) (pr : SPair) (f : Nat) : Prop :=
  f ∈ liveList s ∧ pairAt (mSt2St s) f = some pr ∧
    ∀ q ∈ liveList s, pairAt (mSt2St s) q = some pr → f ≤ q

/-- The selection loop only reads the arrays and index; it mutates heaps. -/
def SameArr (s₀ s : MSt) : Prop :=
  s.c = s₀.c ∧ s.p = s₀.p ∧ s.nx = s₀.nx ∧ s.cnt = s₀.cnt ∧ s.atPos = s₀.atPos

/-- The update condition of the MLE selection loop. -/
def MBeats (c : Int) (f : Nat) (bc : Int) (bf : Nat) : Prop :=
  bc < c ∨ (c = bc ∧ f < bf)

/-- Lexicographic improvement of the MLE selection accumulator. -/
def MImp (bc : Int) (bf : Nat) (bc' : Int) (bf' : Nat) : Prop :=
  bc < bc' ∨ (bc = bc' ∧ bf' ≤ bf)

theorem mimp_refl (bc : Int) (bf : Nat) : MImp bc bf bc bf := Or.inr ⟨rfl, Nat.le_refl _⟩

theorem mimp_trans {a c : Int} {p r : Nat} {b : Int} {q : Nat}
    (h1 : MImp a p b q) (h2 : MImp b q c r) : MImp a p c r := by
  unfold MImp at *
  omega

theorem mnotbeats_imp {c b b' : Int} {f q q' : Nat}
    (h : ¬ MBeats c f b q) (hi : MImp b q b' q') : ¬ MBeats c f b' q' := by
  unfold MBeats MImp at *
  omega

theorem minPos_unique {s : MSt} {pr : SPair} {f f' : Nat}
    (h : MinPos s pr f) (h' : MinPos s pr f') : f = f' :=
  Nat.le_antisymm (h.2.2 f' h'.1 h'.2.1) (h'.2.2 f h.1 h.2.1)

theorem sameArr_refl (s : MSt) : SameArr s s := ⟨rfl, rfl, rfl, rfl, rfl⟩

theorem sameArr_mSt2St {s₀ s : MSt} (h : SameArr s₀ s) : mSt2St s = mSt2St s₀ := by
  obtain ⟨hc, hp, hn, _, _⟩ := h
  simp [mSt2St, hc, hp, hn]

theorem sameArr_liveList {s₀ s : MSt} (h : SameArr s₀ s) : liveList s = liveList s₀ := by
  unfold liveList
  rw [sameArr_mSt2St h, h.1]

theorem sameArr_liveCnt {s₀ s : MSt} (h : SameArr s₀ s) : liveCnt s = liveCnt s₀ := by
  funext pr
  unfold liveCnt
  rw [sameArr_mSt2St h, sameArr_liveList h]

/-- Counts of the round-start scan equal live counts ofthe ground truth. -/
theorem scan0_counts (st : St) (hA : Asc st) (h0 : 0 < st.char.length) (pr : SPair) :
    recCount (scanPairs st.char.length st (some 0) []) pr =
      (posList st.char.length st (some 0)).countP
        (fun q => decide (pairAt st q = some pr)) := by
  have h1 := scan_counts st.char.length st 0 [] pr hA h0 (by omega)
  have h2 := countPairL_posList st.char.length st 0 pr hA h0 (by omega)
  have h3 : recCount ([] : List PairRec) pr = 0 := rfl
  rw [h3] at h1
  rw [h1, Nat.zero_add, h2]

theorem scan0_recFirst (st : St) (hA : Asc st) (h0 : 0 < st.char.length) (pr : SPair) :
    recFirst (scanPairs st.char.length st (some 0) []) pr =
      (posList st.char.length st (some 0)).find?
        (fun q => decide (pairAt st q = some pr)) := by
  have h1 := scan_recFirst st.char.length st 0 [] pr hA h0 (by omega)
  have h2 : recFirst [] pr = none := rfl
  rw [h2] at h1
  exact h1

/-- Every record of the round-start scan carries the live count of its pair
and its least live start position. -/
theorem scan0_record_spec (st : St) (hA : Asc st) (h0 : 0 < st.char.length) :
    ∀ r ∈ scanPairs st.char.length st (some 0) [],
      (r.count : Int) =
        (((posList st.char.length st (some 0)).countP
          (fun q => decide (pairAt st q = some r.pair)) : Int)) ∧
      r.firstPos ∈ posList st.char.length st (some 0) ∧
      pairAt st r.firstPos = some r.pair ∧
      (∀ q ∈ posList st.char.length st (some 0),
        pairAt st q = some r.pair → r.firstPos ≤ q) := by
  intro r hr
  have hpw := scan_pair_pairwise st.char.length st (some 0) [] (List.Pairwise.nil)
  have hcnt : recCount (scanPairs st.char.length st (some 0) []) r.pair = r.count :=
    recCount_of_mem_unique _ r hpw hr
  have hcnt' := scan0_counts st hA h0 r.pair
  have hfind : (scanPairs st.char.length st (some 0) []).find?
      (fun r' => decide (r'.pair = r.pair)) = some r :=
    find?_rec_unique _ r hpw hr
  have hrf : recFirst (scanPairs st.char.length st (some 0) []) r.pair = some r.firstPos := by
    unfold recFirst
    rw [hfind]
  rw [scan0_recFirst st hA h0 r.pair] at hrf
  obtain ⟨hmem, hpred, hmin⟩ :=
    find?_sorted_min (posList_pairwise st.char.length st 0 hA) hrf
  simp only [decide_eq_true_eq] at hpred
  refine ⟨by omega, hmem, hpred, ?_⟩
  intro q hq hqp
  exact hmin q hq (by simp [hqp])

/-- Conversely, a pair with at least one live occurrence has a scan record,
carrying its live count. -/
theorem scan0_record_exists (st : St) (hA : Asc st) (h0 : 0 < st.char.length) (pr : SPair)
    (h : 1 ≤ (posList st.char.length st (some 0)).countP
      (fun q => decide (pairAt st q = some pr))) :
    ∃ r ∈ scanPairs st.char.length st (some 0) [], r.pair = pr ∧
      r.count = (posList st.char.length st (some 0)).countP
        (fun q => decide (pairAt st q = some pr)) := by
  have h1 := scan0_counts st hA h0 pr
  obtain ⟨r, hr, hrp, hrc⟩ :=
    recCount_pos_record (scanPairs st.char.length st (some 0) []) pr (by omega)
  exact ⟨r, hr, hrp, by omega⟩

/-! ### `get_first` against the invariant -/

theorem getFirst_sameArr (s : MSt) (pr : SPair) : SameArr s (getFirst s pr).2 :=
  ⟨rfl, rfl, rfl, rfl, rfl⟩

theorem getFirst_spec (s : MSt) (pr : SPair) (hI : MInv s) :
    MInv (getFirst s pr).2 ∧
    ((getFirst s pr).1 = none →
      ∀ q ∈ liveList s, pairAt (mSt2St s) q ≠ some pr) ∧
    (∀ m, (getFirst s pr).1 = some m → MinPos s pr m) := by
  have hlive : ∀ q ∈ liveList s, pairAt (mSt2St s) q = some pr →
      apGet s.atPos q = some pr := by
    intro q hq hpq
    rw [hI.apOK q, if_pos hq]
    exact hpq
  have hheap : ∀ q ∈ liveList s, pairAt (mSt2St s) q = some pr →
      q ∈ heapsGet s.heaps pr := fun q hq hpq => hI.heapOK q hq pr hpq
  obtain ⟨hkeep, hnone, hsome⟩ :=
    getFirstAux_spec s.atPos pr (heapsGet s.heaps pr).length (heapsGet s.heaps pr)
      (Nat.le_refl _)
  have hsame : SameArr s (getFirst s pr).2 := getFirst_sameArr s pr
  have hll : liveList (getFirst s pr).2 = liveList s := sameArr_liveList hsame
  have hst : mSt2St (getFirst s pr).2 = mSt2St s := sameArr_mSt2St hsame
  refine ⟨?_, ?_, ?_⟩
  · refine ⟨?_, ?_, ?_, ?_, ?_, ?_, ?_, ?_, ?_⟩
    · rw [hst]; exact hI.ascM
    · exact hI.plen
    · exact hI.nlen
    · exact hI.apNodup
    · intro q
      rw [hll, hst]
      exact hI.apOK q
    · intro pr'
      rw [hll, hst]
      exact hI.cntOK pr'
    · intro q hq pr' hpq
      rw [hll] at hq
      rw [hst] at hpq
      show q ∈ heapsGet (heapsSet s.heaps pr _) pr'
      rw [heapsGet_heapsSet]
      by_cases hpp : pr' = pr
      · rw [if_pos hpp]
        subst hpp
        exact hkeep q (hheap q hq hpq) (hlive q hq hpq)
      · rw [if_neg hpp]
        exact hI.heapOK q hq pr' hpq
    · intro a ha b hb
      rw [hll] at ha
      rw [hst] at hb
      exact hI.prevOK a ha b hb
    · exact hI.prev0
  · intro hn q hq hpq
    have hn' : (getFirstAux s.atPos pr (heapsGet s.heaps pr).length
        (heapsGet s.heaps pr)).1 = none := hn
    exact hnone hn' q (hheap q hq hpq) (hlive q hq hpq)
  · intro m hm
    have hm' : (getFirstAux s.atPos pr (heapsGet s.heaps pr).length
        (heapsGet s.heaps pr)).1 = some m := hm
    obtain ⟨_, hap, hmin⟩ := hsome m hm'
    have hapm := hI.apOK m
    rw [hap] at hapm
    by_cases hmem : m ∈ liveList s
    · rw [if_pos hmem] at hapm
      refine ⟨hmem, hapm.symm, ?_⟩
      intro q hq hpq
      exact hmin q (hheap q hq hpq) (hlive q hq hpq)
    · rw [if_neg hmem] at hapm
      cases hapm

/-! ### The MLE selection loop -/

theorem selLoop_nil (s : MSt) (bp : Option SPair) (bc : Int) (bf : Nat) :
    selLoop [] s bp bc bf = (bp, bc, bf, s) := rfl

theorem selLoop_cons_skip (pr : SPair) (v : Int) (rest : List (SPair × Int)) (s : MSt)
    (bp : Option SPair) (bc : Int) (bf : Nat) (h : ¬ 2 ≤ cntGet s.cnt pr) :
    selLoop ((pr, v) :: rest) s bp bc bf = selLoop rest s bp bc bf := by
  simp only [selLoop]
  rw [if_neg h]

theorem selLoop_cons_none (pr : SPair) (v : Int) (rest : List (SPair × Int)) (s : MSt)
    (bp : Option SPair) (bc : Int) (bf : Nat) (h : 2 ≤ cntGet s.cnt pr)
    (hg : (getFirst s pr).1 = none) :
    selLoop ((pr, v) :: rest) s bp bc bf = selLoop rest (getFirst s pr).2 bp bc bf := by
  simp only [selLoop]
  rw [if_pos h, hg]

theorem selLoop_cons_take (pr : SPair) (v : Int) (rest : List (SPair × Int)) (s : MSt)
    (bp : Option SPair) (bc : Int) (bf : Nat) (f : Nat) (h : 2 ≤ cntGet s.cnt pr)
    (hg : (getFirst s pr).1 = some f)
    (hb : bc < cntGet s.cnt pr ∨ (cntGet s.cnt pr = bc ∧ f < bf)) :
    selLoop ((pr, v) :: rest) s bp bc bf =
      selLoop rest (getFirst s pr).2 (some pr) (cntGet s.cnt pr) f := by
  simp only [selLoop]
  rw [if_pos h, hg]
  simp only []
  rw [if_pos hb]

theorem selLoop_cons_keep (pr : SPair) (v : Int) (rest : List (SPair × Int)) (s : MSt)
    (bp : Option SPair) (bc : Int) (bf : Nat) (f : Nat) (h : 2 ≤ cntGet s.cnt pr)
    (hg : (getFirst s pr).1 = some f)
    (hb : ¬ (bc < cntGet s.cnt pr ∨ (cntGet s.cnt pr = bc ∧ f < bf))) :
    selLoop ((pr, v) :: rest) s bp bc bf = selLoop rest (getFirst s pr).2 bp bc bf := by
  simp only [selLoop]
  rw [if_pos h, hg]
  simp only []
  rw [if_neg hb]

theorem sameArr_trans {s₀ s s' : MSt} (h : SameArr s₀ s) (h' : SameArr s s') :
    SameArr s₀ s' := by
  obtain ⟨a, b, c, d, e⟩ := h
  obtain ⟨a', b', c', d', e'⟩ := h'
  exact ⟨a'.trans a, b'.trans b, c'.trans c, d'.trans d, e'.trans e⟩

theorem sameArr_minPos {s₀ s : MSt} (h : SameArr s₀ s) (pr : SPair) (f : Nat) :
    MinPos s pr f = MinPos s₀ pr f := by
  unfold MinPos
  rw [sameArr_mSt2St h, sameArr_liveList h]

/-- The accumulator invariant of the MLE selection loop: nothing selected
yet, or the current best pair with its true live count and least position. -/
def SelAcc (s₀ : MSt) (bp : Option SPair) (bc : Int) (bf : Nat) : Prop :=
  (bp = none ∧ bc = 0) ∨
  (∃ pr, bp = some pr ∧ bc = liveCnt s₀ pr ∧ 2 ≤ liveCnt s₀ pr ∧ MinPos s₀ pr bf)

/-- Correctness of the MLE selection loop: the invariant is preserved, only
the heaps change, the accumulator is a true (count, least-position) pair, it
only improves, and no visited key beats the final accumulator. -/
theorem selLoop_master (s₀ : MSt) (ks : List (SPair × Int)) :
    ∀ (s : MSt) (bp : Option SPair) (bc : Int) (bf : Nat),
    MInv s → SameArr s₀ s → SelAcc s₀ bp bc bf →
    MInv (selLoop ks s bp bc bf).2.2.2 ∧
    SameArr s₀ (selLoop ks s bp bc bf).2.2.2 ∧
    SelAcc s₀ (selLoop ks s bp bc bf).1 (selLoop ks s bp bc bf).2.1
      (selLoop ks s bp bc bf).2.2.1 ∧
    MImp bc bf (selLoop ks s bp bc bf).2.1 (selLoop ks s bp bc bf).2.2.1 ∧
    (∀ pr ∈ ks.map Prod.fst, 2 ≤ liveCnt s₀ pr → ∀ f, MinPos s₀ pr f →
      ¬ MBeats (liveCnt s₀ pr) f (selLoop ks s bp bc bf).2.1
        (selLoop ks s bp bc bf).2.2.1) := by
  induction ks with
  | nil =>
      intro s bp bc bf hI hsame hacc
      rw [selLoop_nil]
      exact ⟨hI, hsame, hacc, mimp_refl bc bf, by intro pr hpr; cases hpr⟩
  | cons hd rest ih =>
      obtain ⟨pr, v⟩ := hd
      intro s bp bc bf hI hsame hacc
      have hcv : cntGet s.cnt pr = liveCnt s₀ pr := by
        have h1 : cntGet s.cnt pr = liveCnt s pr := hI.cntOK pr
        rw [h1, sameArr_liveCnt hsame]
      by_cases hc2 : 2 ≤ cntGet s.cnt pr
      · obtain ⟨hI', hgnone, hgsome⟩ := getFirst_spec s pr hI
        have hsame' : SameArr s₀ (getFirst s pr).2 :=
          sameArr_trans hsame (getFirst_sameArr s pr)
        cases hg : (getFirst s pr).1 with
        | none =>
            exfalso
            have hcnt2 : (2 : Int) ≤ (((liveList s).countP
                (fun q => decide (pairAt (mSt2St s) q = some pr)) : Int)) := by
              rw [← hI.cntOK pr]
              exact hc2
            have hpos : 0 < (liveList s).countP
                (fun q => decide (pairAt (mSt2St s) q = some pr)) := by omega
            obtain ⟨q, hq, hqp⟩ := List.countP_pos_iff.mp hpos
            have hqp' : pairAt (mSt2St s) q = some pr := by simpa using hqp
            exact hgnone hg q hq hqp'
        | some f =>
            have hmp : MinPos s pr f := hgsome f hg
            have hmp₀ : MinPos s₀ pr f := (sameArr_minPos hsame pr f) ▸ hmp
            by_cases hb : bc < cntGet s.cnt pr ∨ (cntGet s.cnt pr = bc ∧ f < bf)
            · rw [selLoop_cons_take pr v rest s bp bc bf f hc2 hg hb]
              have hacc' : SelAcc s₀ (some pr) (cntGet s.cnt pr) f :=
                Or.inr ⟨pr, rfl, hcv, hcv ▸ hc2, hmp₀⟩
              obtain ⟨rI, rsame, racc, rimp, rdom⟩ :=
                ih (getFirst s pr).2 (some pr) (cntGet s.cnt pr) f hI' hsame' hacc'
              have hstep : MImp bc bf (cntGet s.cnt pr) f := by
                unfold MImp
                rcases hb with hb | ⟨hb1, hb2⟩
                · exact Or.inl hb
                · exact Or.inr ⟨hb1.symm, Nat.le_of_lt hb2⟩
              refine ⟨rI, rsame, racc, mimp_trans hstep rimp, ?_⟩
              intro pr' hpr' h2' f' hf'
              simp only [List.map_cons] at hpr'
              rcases List.mem_cons.mp hpr' with heq | hpr'
              · subst heq
                have hff : f' = f := minPos_unique hf' hmp₀
                subst hff
                have hnb : ¬ MBeats (liveCnt s₀ pr') f' (cntGet s.cnt pr') f' := by
                  rw [hcv]
                  unfold MBeats
                  omega
                exact mnotbeats_imp hnb rimp
              · exact rdom pr' hpr' h2' f' hf'
            · rw [selLoop_cons_keep pr v rest s bp bc bf f hc2 hg hb]
              obtain ⟨rI, rsame, racc, rimp, rdom⟩ :=
                ih (getFirst s pr).2 bp bc bf hI' hsame' hacc
              refine ⟨rI, rsame, racc, rimp, ?_⟩
              intro pr' hpr' h2' f' hf'
              simp only [List.map_cons] at hpr'
              rcases List.mem_cons.mp hpr' with heq | hpr'
              · subst heq
                have hff : f' = f := minPos_unique hf' hmp₀
                subst hff
                have hnb : ¬ MBeats (liveCnt s₀ pr') f' bc bf := by
                  rw [← hcv]
                  unfold MBeats
                  exact hb
                exact mnotbeats_imp hnb rimp
              · exact rdom pr' hpr' h2' f' hf'
      · rw [selLoop_cons_skip pr v rest s bp bc bf hc2]
        obtain ⟨rI, rsame, racc, rimp, rdom⟩ := ih s bp bc bf hI hsame hacc
        refine ⟨rI, rsame, racc, rimp, ?_⟩
        intro pr' hpr' h2' f' hf'
        simp only [List.map_cons] at hpr'
        rcases List.mem_cons.mp hpr' with heq | hpr'
        · subst heq
          rw [hcv] at hc2
          exact absurd h2' hc2
        · exact rdom pr' hpr' h2' f' hf'

/-- The MLE selection (`get_first`-based loop over `cnt`) returns exactly the
reference `findBest` of a fresh scan, and only mutates the heaps. -/
theorem selBest_eq (s : MSt) (hI : MInv s) (h0 : 0 < s.c.length) :
    (selBest s).1 = findBest (scanPairs (mSt2St s).char.length (mSt2St s) (some 0) []) ∧
    MInv (selBest s).2 ∧ SameArr s (selBest s).2 := by
  have h0' : 0 < (mSt2St s).char.length := h0
  have hLL : posList (mSt2St s).char.length (mSt2St s) (some 0) = liveList s := rfl
  obtain ⟨rI, rsame, racc, rimp, rdom⟩ :=
    selLoop_master s s.cnt s none 0 s.c.length hI (sameArr_refl s) (Or.inl ⟨rfl, rfl⟩)
  have hsb1 : (selBest s).1 = (selLoop s.cnt s none 0 s.c.length).1 := rfl
  have hsb2 : (selBest s).2 = (selLoop s.cnt s none 0 s.c.length).2.2.2 := rfl
  refine ⟨?_, hsb2 ▸ rI, hsb2 ▸ rsame⟩
  rw [hsb1]
  cases hfb : findBest (scanPairs (mSt2St s).char.length (mSt2St s) (some 0) []) with
  | none =>
      have hall := (findBest_spec _).1.mp hfb
      rcases racc with ⟨h1, _⟩ | ⟨pr, hbp, hbc, h2, hmin⟩
      · exact h1
      · exfalso
        have hcp : 2 ≤ (liveList s).countP
            (fun q => decide (pairAt (mSt2St s) q = some pr)) := by
          unfold liveCnt at h2
          omega
        obtain ⟨r, hr, hrp, hrc⟩ :=
          scan0_record_exists (mSt2St s) hI.ascM h0' pr (by rw [hLL]; omega)
        rw [hLL] at hrc
        have := hall r hr
        omega
  | some p =>
      obtain ⟨rbest, hrbmem, hrbpair, hrbc2, hmax⟩ := (findBest_spec _).2 p hfb
      obtain ⟨hrbcnt, hrbfmem, hrbfpair, hrbfmin⟩ :=
        scan0_record_spec (mSt2St s) hI.ascM h0' rbest hrbmem
      rw [hLL] at hrbcnt hrbfmem
      rw [hrbpair] at hrbcnt hrbfpair hrbfmin
      have hlcp : liveCnt s p = (rbest.count : Int) := by
        unfold liveCnt
        omega
      have h2p : 2 ≤ liveCnt s p := by
        rw [hlcp]
        omega
      have hminp : MinPos s p rbest.firstPos := by
        refine ⟨hrbfmem, hrbfpair, ?_⟩
        intro q hq hqp
        exact hrbfmin q (by rw [← hLL] at hq; exact hq) hqp
      have hkey : p ∈ s.cnt.map Prod.fst := by
        apply cntGet_ne_zero_key
        rw [hI.cntOK p]
        unfold liveCnt at h2p
        omega
      have hdom := rdom p hkey h2p rbest.firstPos hminp
      unfold MBeats at hdom
      rcases racc with ⟨h1, h1c⟩ | ⟨pr', hbp', hbc', h2', hmin'⟩
      · exfalso
        apply hdom
        rw [h1c]
        left
        omega
      · have hcp' : 1 ≤ (liveList s).countP
            (fun q => decide (pairAt (mSt2St s) q = some pr')) := by
          unfold liveCnt at h2'
          omega
        obtain ⟨r'', hr''mem, hr''pair, hr''cnt⟩ :=
          scan0_record_exists (mSt2St s) hI.ascM h0' pr' (by rw [hLL]; omega)
        obtain ⟨hr''cntI, hr''fmem, hr''fpair, hr''fmin⟩ :=
          scan0_record_spec (mSt2St s) hI.ascM h0' r'' hr''mem
        rw [hLL] at hr''cnt hr''cntI hr''fmem
        rw [hr''pair] at hr''cntI hr''fpair hr''fmin
        have hminp'' : MinPos s pr' r''.firstPos := by
          refine ⟨hr''fmem, hr''fpair, ?_⟩
          intro q hq hqp
          exact hr''fmin q (by rw [← hLL] at hq; exact hq) hqp
        have hfeq : r''.firstPos = (selLoop s.cnt s none 0 s.c.length).2.2.1 :=
          minPos_unique hminp'' hmin'
        obtain ⟨hle, htie⟩ := hmax r'' hr''mem
        have hc2 : liveCnt s pr' = (r''.count : Int) := by
          unfold liveCnt
          omega
        have hq1 : r''.count = rbest.count := by omega
        have hfp1 := htie hq1
        have hq2 : rbest.firstPos = (selLoop s.cnt s none 0 s.c.length).2.2.1 := by
          omega
        have hpp : pr' = p := by
          have e1 : pairAt (mSt2St s) (selLoop s.cnt s none 0 s.c.length).2.2.1
              = some pr' := hmin'.2.1
          rw [← hq2] at e1
          rw [hrbfpair] at e1
          exact (Option.some.inj e1).symm
        rw [hbp', hpp]

/-! ### The MLE merge loop: operation effect lemmas -/

theorem delPair_of_none {s : MSt} {q : Nat} (h : apGet s.atPos q = none) :
    delPair s q = s := by
  unfold delPair
  rw [h]

theorem delPair_of_some {s : MSt} {q : Nat} {pr : SPair} (h : apGet s.atPos q = some pr) :
    delPair s q = { s with cnt := cntAdd s.cnt pr (-1), atPos := apDel s.atPos q } := by
  unfold delPair
  rw [h]

theorem addPair_of_none {s : MSt} {i : Nat} (h : s.nx.getD i none = none) :
    addPair s i = s := by
  unfold addPair
  rw [h]

theorem addPair_of_some {s : MSt} {i j : Nat} (h : s.nx.getD i none = some j) :
    addPair s i =
      { s with cnt := cntAdd s.cnt (s.c.getD i 0, s.c.getD j 0) 1
               heaps := heapsSet s.heaps (s.c.getD i 0, s.c.getD j 0)
                 (i :: heapsGet s.heaps (s.c.getD i 0, s.c.getD j 0))
               atPos := apSet s.atPos i (s.c.getD i 0, s.c.getD j 0) } := by
  unfold addPair
  rw [h]

/-- One merge step of the MLE loop, as performed on a live occurrence. -/
def mergeUpd (s : MSt) (i j : Nat) (nc : Nat) : MSt :=
  let pi := s.p.getD i none
  let nj := s.nx.getD j none
  let s1 := match pi with
            | none => s
            | some q => delPair s q
  let s2 := delPair s1 i
  let s3 := delPair s2 j
  let s4 : MSt := { s3 with
                    c := s3.c.set i nc
                    nx := s3.nx.set i nj
                    p := match nj with
                         | none => s3.p
                         | some q => s3.p.set q (some i) }
  let s5 := match pi with
            | none => s4
            | some q => addPair s4 q
  addPair s5 i

theorem mergeLoopM_none (fuel : Nat) (bp : SPair) (nc : Nat) (s : MSt) (lm : Option Nat) :
    mergeLoopM fuel bp nc s none lm = s := by
  cases fuel <;> rfl

theorem mergeLoopM_succ_miss (fuel : Nat) (bp : SPair) (nc : Nat) (s : MSt) (i : Nat)
    (lm : Option Nat) (hg : ¬ (apGet s.atPos i = some bp ∧ some i ≠ lm)) :
    mergeLoopM (fuel + 1) bp nc s (some i) lm =
      mergeLoopM fuel bp nc s (s.nx.getD i none) lm := by
  simp only [mergeLoopM]
  rw [if_neg hg]

theorem mergeLoopM_succ_hit (fuel : Nat) (bp : SPair) (nc : Nat) (s : MSt) (i j : Nat)
    (lm : Option Nat) (hg : apGet s.atPos i = some bp ∧ some i ≠ lm)
    (hnx : s.nx.getD i none = some j) :
    mergeLoopM (fuel + 1) bp nc s (some i) lm =
      mergeLoopM fuel bp nc (mergeUpd s i j nc) (s.nx.getD j none) (some j) := by
  simp only [mergeLoopM, mergeUpd]
  rw [if_pos hg, hnx]

theorem delPair_c (s : MSt) (q : Nat) : (delPair s q).c = s.c := by
  unfold delPair
  cases apGet s.atPos q <;> rfl

theorem delPair_p (s : MSt) (q : Nat) : (delPair s q).p = s.p := by
  unfold delPair
  cases apGet s.atPos q <;> rfl

theorem delPair_nx (s : MSt) (q : Nat) : (delPair s q).nx = s.nx := by
  unfold delPair
  cases apGet s.atPos q <;> rfl

theorem delPair_heaps (s : MSt) (q : Nat) : (delPair s q).heaps = s.heaps := by
  unfold delPair
  cases apGet s.atPos q <;> rfl

theorem addPair_c (s : MSt) (i : Nat) : (addPair s i).c = s.c := by
  unfold addPair
  cases s.nx.getD i none <;> rfl

theorem addPair_p (s : MSt) (i : Nat) : (addPair s i).p = s.p := by
  unfold addPair
  cases s.nx.getD i none <;> rfl

theorem addPair_nx (s : MSt) (i : Nat) : (addPair s i).nx = s.nx := by
  unfold addPair
  cases s.nx.getD i none <;> rfl

theorem mergeUpd_c (s : MSt) (i j : Nat) (nc : Nat) :
    (mergeUpd s i j nc).c = s.c.set i nc := by
  simp only [mergeUpd]
  cases s.p.getD i none <;> cases s.nx.getD j none <;>
    simp [addPair_c, delPair_c]

theorem mergeUpd_nx (s : MSt) (i j : Nat) (nc : Nat) :
    (mergeUpd s i j nc).nx = s.nx.set i (s.nx.getD j none) := by
  simp only [mergeUpd]
  cases s.p.getD i none <;> cases s.nx.getD j none <;>
    simp [addPair_nx, delPair_nx]

theorem mergeUpd_p (s : MSt) (i j : Nat) (nc : Nat) :
    (mergeUpd s i j nc).p =
      (match s.nx.getD j none with
       | none => s.p
       | some q => s.p.set q (some i)) := by
  simp only [mergeUpd]
  cases s.p.getD i none <;> cases s.nx.getD j none <;>
    simp [addPair_p, delPair_p]

theorem mergeUpd_st (s : MSt) (i j : Nat) (nc : Nat) :
    mSt2St (mergeUpd s i j nc) = mergeStep (mSt2St s) i (s.nx.getD j none) nc := by
  unfold mSt2St mergeStep
  rw [St.mk.injEq]
  refine ⟨mergeUpd_c s i j nc, ?_, mergeUpd_nx s i j nc⟩
  rw [mergeUpd_p s i j nc]

theorem countP_erase_of_mem {l : List Nat} {a : Nat} (p : Nat → Bool) (h : a ∈ l) :
    l.countP p = (l.erase a).countP p + (if p a then 1 else 0) := by
  have hperm := List.perm_cons_erase h
  rw [hperm.countP_eq, List.countP_cons]

theorem countP_congr' {l : List Nat} {p q : Nat → Bool} (h : ∀ a ∈ l, p a = q a) :
    l.countP p = l.countP q := by
  induction l with
  | nil => rfl
  | cons x xs ih =>
      rw [List.countP_cons, List.countP_cons,
        ih (fun a ha => h a (List.mem_cons_of_mem x ha)), h x (List.mem_cons_self _ _)]

theorem liveList_length_pos {s : MSt} {i : Nat} (h : i ∈ liveList s) : 0 < s.c.length := by
  by_contra hc
  have h0 : s.c.length = 0 := by omega
  unfold liveList at h
  rw [h0] at h
  cases h

theorem zero_mem_liveList (s : MSt) (hA : Asc (mSt2St s)) (h0 : 0 < s.c.length) :
    0 ∈ liveList s := by
  unfold liveList
  have hf : (mSt2St s).char.length - 0 ≤ s.c.length := by
    show s.c.length - 0 ≤ s.c.length
    omega
  rw [posList_succ_of_lt s.c.length (mSt2St s) 0 hA h0 hf]
  exact List.mem_cons_self _ _

theorem pairAt_of_nxt_some {st : St} {x b : Nat} (h : st.nxt.getD x none = some b) :
    pairAt st x = some (st.char.getD x 0, st.char.getD b 0) := by
  unfold pairAt
  rw [h]

theorem pairAt_of_nxt_none {st : St} {x : Nat} (h : st.nxt.getD x none = none) :
    pairAt st x = none := by
  unfold pairAt
  rw [h]

theorem ind_link_negZ (v pr : SPair) :
    (if (decide ((some v : Option SPair) = some pr)) then (1:Int) else 0) =
      -(if pr = v then (-1:Int) else 0) := by
  by_cases h : pr = v
  · subst h
    simp
  · have hd : (decide ((some v : Option SPair) = some pr)) = false := by
      simp only [decide_eq_false_iff_not, Option.some.injEq]
      exact fun hc => h hc.symm
    rw [hd, if_neg h]
    simp

theorem ind_link_posZ (v pr : SPair) :
    (if (decide ((some v : Option SPair) = some pr)) then (1:Int) else 0) =
      (if pr = v then (1:Int) else 0) := by
  by_cases h : pr = v
  · subst h
    simp
  · have hd : (decide ((some v : Option SPair) = some pr)) = false := by
      simp only [decide_eq_false_iff_not, Option.some.injEq]
      exact fun hc => h hc.symm
    rw [hd, if_neg h]
    simp

theorem ind_link_neg (v pr : SPair) :
    ((if (decide ((some v : Option SPair) = some pr)) then (1:Nat) else 0) : Int) =
      -(if pr = v then (-1:Int) else 0) := by
  by_cases h : pr = v
  · subst h
    simp
  · have hd : (decide ((some v : Option SPair) = some pr)) = false := by
      simp only [decide_eq_false_iff_not, Option.some.injEq]
      exact fun hc => h hc.symm
    rw [hd, if_neg h]
    simp

theorem ind_link_pos (v pr : SPair) :
    ((if (decide ((some v : Option SPair) = some pr)) then (1:Nat) else 0) : Int) =
      (if pr = v then (1:Int) else 0) := by
  by_cases h : pr = v
  · subst h
    simp
  · have hd : (decide ((some v : Option SPair) = some pr)) = false := by
      simp only [decide_eq_false_iff_not, Option.some.injEq]
      exact fun hc => h hc.symm
    rw [hd, if_neg h]
    simp

theorem ind_zero (pr : SPair) :
    ((if (decide ((none : Option SPair) = some pr)) then (1:Nat) else 0) : Int) = 0 := by
  simp

theorem mergeUpd_minv_ss (s : MSt) (i j q m nc : Nat) (hI : MInv s)
    (hmem : i ∈ liveList s) (hnx : s.nx.getD i none = some j)
    (hpi : s.p.getD i none = some q) (hnj : s.nx.getD j none = some m) :
    MInv (mergeUpd s i j nc) ∧
    liveList (mergeUpd s i j nc) = (liveList s).erase j := by
  have hA := hI.ascM
  have hnx' : (mSt2St s).nxt.getD i none = some j := hnx
  have hnj' : (mSt2St s).nxt.getD j none = some m := hnj
  have h0 : 0 < s.c.length := liveList_length_pos hmem
  obtain ⟨hij, hjn'⟩ := hA i j hnx'
  have hjn : j < s.c.length := hjn'
  obtain ⟨hjm, hmn'⟩ := hA j m hnj'
  have hmn : m < s.c.length := hmn'
  have hin : i < s.c.length := by omega
  have hnl : s.nx.length = s.c.length := hI.nlen
  have hpl : s.p.length = s.c.length := hI.plen
  have hnd : (liveList s).Nodup := posList_nodup s.c.length (mSt2St s) 0 hA
  have hfb : (mSt2St s).char.length - 0 ≤ s.c.length := by
    show s.c.length - 0 ≤ s.c.length
    omega
  have hjmem : j ∈ liveList s :=
    posList_succ_mem s.c.length (mSt2St s) 0 i j hA h0 hfb hmem hnx'
  have hmmem : m ∈ liveList s :=
    posList_succ_mem s.c.length (mSt2St s) 0 j m hA h0 hfb hjmem hnj'
  have hLL' : liveList (mergeUpd s i j nc) = (liveList s).erase j := by
    unfold liveList
    have hlen : (mergeUpd s i j nc).c.length = s.c.length := by
      rw [mergeUpd_c]
      simp
    rw [hlen, mergeUpd_st]
    exact posList_merge_from s.c.length (mSt2St s) i j nc 0 hA hnx' h0 hfb hmem
  have hmem_iff : ∀ x : Nat, x ∈ (liveList s).erase j ↔ (x ≠ j ∧ x ∈ liveList s) :=
    fun x => List.Nodup.mem_erase_iff hnd
  -- the live predecessor is q
  have hine : i ≠ 0 := by
    intro h0i
    rw [h0i, hI.prev0] at hpi
    cases hpi
  obtain ⟨a, hamem, hanx⟩ := posList_pred s.c.length (mSt2St s) 0 i hA hmem hine
  have haq : a = q := Option.some.inj ((hI.prevOK a hamem i hanx).symm.trans hpi)
  have hqmem : q ∈ liveList s := haq ▸ hamem
  have hqnx : (mSt2St s).nxt.getD q none = some i := haq ▸ hanx
  obtain ⟨hqlt, _⟩ := hA q i hqnx
  have hqi : q ≠ i := by omega
  have hqj : q ≠ j := by omega
  have hji : j ≠ i := by omega
  have hmi : m ≠ i := by omega
  have hpreduniq : ∀ a' ∈ liveList s, (mSt2St s).nxt.getD a' none = some i → a' = q :=
    fun a' ha' h' => Option.some.inj ((hI.prevOK a' ha' i h').symm.trans hpi)
  -- old ground-truth pairs
  have hpairi : pairAt (mSt2St s) i = some (s.c.getD i 0, s.c.getD j 0) :=
    pairAt_of_nxt_some hnx'
  have hpairq : pairAt (mSt2St s) q = some (s.c.getD q 0, s.c.getD i 0) :=
    pairAt_of_nxt_some hqnx
  have hpairj : pairAt (mSt2St s) j = some (s.c.getD j 0, s.c.getD m 0) :=
    pairAt_of_nxt_some hnj'
  have hapq : apGet s.atPos q = some (s.c.getD q 0, s.c.getD i 0) := by
    rw [hI.apOK q, if_pos hqmem]
    exact hpairq
  have hapi : apGet s.atPos i = some (s.c.getD i 0, s.c.getD j 0) := by
    rw [hI.apOK i, if_pos hmem]
    exact hpairi
  have hapj : apGet s.atPos j = some (s.c.getD j 0, s.c.getD m 0) := by
    rw [hI.apOK j, if_pos hjmem]
    exact hpairj
  have hnd0 := hI.apNodup
  have hnd1 : ((apDel s.atPos q).map Prod.fst).Nodup := apDel_nodup s.atPos q hnd0
  have hnd2 : ((apDel (apDel s.atPos q) i).map Prod.fst).Nodup := apDel_nodup _ i hnd1
  have e2 : apGet (apDel s.atPos q) i = some (s.c.getD i 0, s.c.getD j 0) := by
    rw [apGet_apDel s.atPos q i hnd0, if_neg (Ne.symm hqi)]
    exact hapi
  have e3 : apGet (apDel (apDel s.atPos q) i) j =
      some (s.c.getD j 0, s.c.getD m 0) := by
    rw [apGet_apDel (apDel s.atPos q) i j hnd1, if_neg hji,
      apGet_apDel s.atPos q j hnd0, if_neg (Ne.symm hqj)]
    exact hapj
  -- the explicit state after the three deletions
  have hd1 : delPair s q = MSt.mk s.c s.p s.nx
      (cntAdd s.cnt (s.c.getD q 0, s.c.getD i 0) (-1)) s.heaps (apDel s.atPos q) := by
    rw [delPair_of_some hapq]
  have hd2 : delPair (delPair s q) i = MSt.mk s.c s.p s.nx
      (cntAdd (cntAdd s.cnt (s.c.getD q 0, s.c.getD i 0) (-1))
        (s.c.getD i 0, s.c.getD j 0) (-1)) s.heaps (apDel (apDel s.atPos q) i) := by
    rw [hd1,
      delPair_of_some (show apGet (MSt.mk s.c s.p s.nx
        (cntAdd s.cnt (s.c.getD q 0, s.c.getD i 0) (-1)) s.heaps
        (apDel s.atPos q)).atPos i = some (s.c.getD i 0, s.c.getD j 0) from e2)]
  have hd3 : delPair (delPair (delPair s q) i) j = MSt.mk s.c s.p s.nx
      (cntAdd (cntAdd (cntAdd s.cnt (s.c.getD q 0, s.c.getD i 0) (-1))
        (s.c.getD i 0, s.c.getD j 0) (-1)) (s.c.getD j 0, s.c.getD m 0) (-1)) s.heaps
      (apDel (apDel (apDel s.atPos q) i) j) := by
    rw [hd2,
      delPair_of_some (show apGet (MSt.mk s.c s.p s.nx
        (cntAdd (cntAdd s.cnt (s.c.getD q 0, s.c.getD i 0) (-1))
          (s.c.getD i 0, s.c.getD j 0) (-1)) s.heaps
        (apDel (apDel s.atPos q) i)).atPos j = some (s.c.getD j 0, s.c.getD m 0) from e3)]
  have hS6 : mergeUpd s i j nc =
      addPair (addPair (MSt.mk (s.c.set i nc) (s.p.set m (some i)) (s.nx.set i (some m))
        (cntAdd (cntAdd (cntAdd s.cnt (s.c.getD q 0, s.c.getD i 0) (-1))
          (s.c.getD i 0, s.c.getD j 0) (-1)) (s.c.getD j 0, s.c.getD m 0) (-1)) s.heaps
        (apDel (apDel (apDel s.atPos q) i) j)) q) i := by
    simp only [mergeUpd, hpi, hnj]
    rw [hd3]
  have hq_nx : (MSt.mk (s.c.set i nc) (s.p.set m (some i)) (s.nx.set i (some m))
      (cntAdd (cntAdd (cntAdd s.cnt (s.c.getD q 0, s.c.getD i 0) (-1))
        (s.c.getD i 0, s.c.getD j 0) (-1)) (s.c.getD j 0, s.c.getD m 0) (-1)) s.heaps
      (apDel (apDel (apDel s.atPos q) i) j)).nx.getD q none = some i := by
    show (s.nx.set i (some m)).getD q none = some i
    rw [getD_set_ne s.nx (some m) none (Ne.symm hqi)]
    exact hqnx
  have ha5 : addPair (MSt.mk (s.c.set i nc) (s.p.set m (some i)) (s.nx.set i (some m))
      (cntAdd (cntAdd (cntAdd s.cnt (s.c.getD q 0, s.c.getD i 0) (-1))
        (s.c.getD i 0, s.c.getD j 0) (-1)) (s.c.getD j 0, s.c.getD m 0) (-1)) s.heaps
      (apDel (apDel (apDel s.atPos q) i) j)) q =
      MSt.mk (s.c.set i nc) (s.p.set m (some i)) (s.nx.set i (some m))
        (cntAdd (cntAdd (cntAdd (cntAdd s.cnt (s.c.getD q 0, s.c.getD i 0) (-1))
          (s.c.getD i 0, s.c.getD j 0) (-1)) (s.c.getD j 0, s.c.getD m 0) (-1))
          (s.c.getD q 0, nc) 1)
        (heapsSet s.heaps (s.c.getD q 0, nc) (q :: heapsGet s.heaps (s.c.getD q 0, nc)))
        (apSet (apDel (apDel (apDel s.atPos q) i) j) q (s.c.getD q 0, nc)) := by
    rw [addPair_of_some hq_nx]
    show (MSt.mk (s.c.set i nc) (s.p.set m (some i)) (s.nx.set i (some m)) _ _ _ : MSt) = _
    rw [getD_set_ne s.c nc 0 (Ne.symm hqi), getD_set_eq s.c i nc 0 hin]
  have hi_nx5 : (MSt.mk (s.c.set i nc) (s.p.set m (some i)) (s.nx.set i (some m))
      (cntAdd (cntAdd (cntAdd (cntAdd s.cnt (s.c.getD q 0, s.c.getD i 0) (-1))
        (s.c.getD i 0, s.c.getD j 0) (-1)) (s.c.getD j 0, s.c.getD m 0) (-1))
        (s.c.getD q 0, nc) 1)
      (heapsSet s.heaps (s.c.getD q 0, nc) (q :: heapsGet s.heaps (s.c.getD q 0, nc)))
      (apSet (apDel (apDel (apDel s.atPos q) i) j) q (s.c.getD q 0, nc))).nx.getD i none
      = some m := by
    show (s.nx.set i (some m)).getD i none = some m
    exact getD_set_eq s.nx i (some m) none (by omega)
  have ha6 : mergeUpd s i j nc =
      MSt.mk (s.c.set i nc) (s.p.set m (some i)) (s.nx.set i (some m))
        (cntAdd (cntAdd (cntAdd (cntAdd (cntAdd s.cnt (s.c.getD q 0, s.c.getD i 0) (-1))
          (s.c.getD i 0, s.c.getD j 0) (-1)) (s.c.getD j 0, s.c.getD m 0) (-1))
          (s.c.getD q 0, nc) 1) (nc, s.c.getD m 0) 1)
        (heapsSet (heapsSet s.heaps (s.c.getD q 0, nc)
            (q :: heapsGet s.heaps (s.c.getD q 0, nc))) (nc, s.c.getD m 0)
          (i :: heapsGet (heapsSet s.heaps (s.c.getD q 0, nc)
            (q :: heapsGet s.heaps (s.c.getD q 0, nc))) (nc, s.c.getD m 0)))
        (apSet (apSet (apDel (apDel (apDel s.atPos q) i) j) q (s.c.getD q 0, nc)) i
          (nc, s.c.getD m 0)) := by
    rw [hS6, ha5, addPair_of_some hi_nx5]
    show (MSt.mk (s.c.set i nc) (s.p.set m (some i)) (s.nx.set i (some m)) _ _ _ : MSt) = _
    rw [getD_set_eq s.c i nc 0 hin, getD_set_ne s.c nc 0 (Ne.symm hmi)]
  -- component projections
  have hA6e : (mergeUpd s i j nc).atPos =
      apSet (apSet (apDel (apDel (apDel s.atPos q) i) j) q (s.c.getD q 0, nc)) i
        (nc, s.c.getD m 0) := by
    rw [ha6]
  have hC6e : (mergeUpd s i j nc).cnt =
      cntAdd (cntAdd (cntAdd (cntAdd (cntAdd s.cnt (s.c.getD q 0, s.c.getD i 0) (-1))
        (s.c.getD i 0, s.c.getD j 0) (-1)) (s.c.getD j 0, s.c.getD m 0) (-1))
        (s.c.getD q 0, nc) 1) (nc, s.c.getD m 0) 1 := by
    rw [ha6]
  have hH6e : (mergeUpd s i j nc).heaps =
      heapsSet (heapsSet s.heaps (s.c.getD q 0, nc)
          (q :: heapsGet s.heaps (s.c.getD q 0, nc))) (nc, s.c.getD m 0)
        (i :: heapsGet (heapsSet s.heaps (s.c.getD q 0, nc)
          (q :: heapsGet s.heaps (s.c.getD q 0, nc))) (nc, s.c.getD m 0)) := by
    rw [ha6]
  have hP6e : (mergeUpd s i j nc).p = s.p.set m (some i) := by
    rw [ha6]
  have hst6 : mSt2St (mergeUpd s i j nc) = mergeStep (mSt2St s) i (some m) nc := by
    rw [mergeUpd_st, hnj]
  -- new ground-truth pairs
  have hnxt' : (mergeStep (mSt2St s) i (some m) nc).nxt = s.nx.set i (some m) := rfl
  have hchar' : (mergeStep (mSt2St s) i (some m) nc).char = s.c.set i nc := rfl
  have hpair'i : pairAt (mergeStep (mSt2St s) i (some m) nc) i = some (nc, s.c.getD m 0) := by
    rw [pairAt_of_nxt_some (show (mergeStep (mSt2St s) i (some m) nc).nxt.getD i none
      = some m by rw [hnxt']; exact getD_set_eq s.nx i (some m) none (by omega))]
    rw [hchar', getD_set_eq s.c i nc 0 hin, getD_set_ne s.c nc 0 (Ne.symm hmi)]
  have hpair'q : pairAt (mergeStep (mSt2St s) i (some m) nc) q =
      some (s.c.getD q 0, nc) := by
    rw [pairAt_of_nxt_some (show (mergeStep (mSt2St s) i (some m) nc).nxt.getD q none
      = some i by rw [hnxt', getD_set_ne s.nx (some m) none (Ne.symm hqi)]; exact hqnx)]
    rw [hchar', getD_set_ne s.c nc 0 (Ne.symm hqi), getD_set_eq s.c i nc 0 hin]
  have hpair'other : ∀ x ∈ liveList s, x ≠ i → x ≠ q →
      pairAt (mergeStep (mSt2St s) i (some m) nc) x = pairAt (mSt2St s) x := by
    intro x hx hxi hxq
    cases hbx : (mSt2St s).nxt.getD x none with
    | none =>
        rw [pairAt_of_nxt_none hbx, pairAt_of_nxt_none (show
          (mergeStep (mSt2St s) i (some m) nc).nxt.getD x none = none by
            rw [hnxt', getD_set_ne s.nx (some m) none (fun h => hxi h.symm)]
            exact hbx)]
    | some b =>
        have hbnei : b ≠ i := fun hbi => hxq (hpreduniq x hx (hbi ▸ hbx))
        rw [pairAt_of_nxt_some hbx, pairAt_of_nxt_some (show
          (mergeStep (mSt2St s) i (some m) nc).nxt.getD x none = some b by
            rw [hnxt', getD_set_ne s.nx (some m) none (fun h => hxi h.symm)]
            exact hbx)]
        rw [hchar', getD_set_ne s.c nc 0 (fun h => hxi h.symm),
          getD_set_ne s.c nc 0 (fun h => hbnei h.symm)]
        rfl
  refine ⟨⟨?_, ?_, ?_, ?_, ?_, ?_, ?_, ?_, ?_⟩, hLL'⟩
  · -- ascM
    rw [hst6]
    have h := asc_mergeStep (mSt2St s) i j nc hA hnx'
    rw [hnj'] at h
    exact h
  · -- plen
    rw [hP6e, mergeUpd_c]
    simp [hpl]
  · -- nlen
    rw [mergeUpd_nx, mergeUpd_c]
    simp [hnl]
  · -- apNodup
    rw [hA6e]
    exact apSet_nodup _ i _ (apSet_nodup _ q _ (apDel_nodup _ j hnd2))
  · -- apOK
    intro q'
    rw [hA6e, hLL', hst6]
    by_cases hq'i : q' = i
    · subst hq'i
      rw [apGet_apSet, if_pos rfl, if_pos ((hmem_iff q').mpr ⟨by omega, hmem⟩), hpair'i]
    · rw [apGet_apSet, if_neg hq'i, apGet_apSet]
      by_cases hq'q : q' = q
      · subst hq'q
        rw [if_pos rfl, if_pos ((hmem_iff q').mpr ⟨hqj, hqmem⟩), hpair'q]
      · rw [if_neg hq'q, apGet_apDel _ j q' hnd2]
        by_cases hq'j : q' = j
        · subst hq'j
          rw [if_pos rfl, if_neg (fun hc => absurd ((hmem_iff q').mp hc).1 (by simp))]
        · rw [if_neg hq'j, apGet_apDel _ i q' hnd1, if_neg hq'i,
            apGet_apDel s.atPos q q' hnd0, if_neg hq'q, hI.apOK q']
          by_cases hq'L : q' ∈ liveList s
          · rw [if_pos hq'L, if_pos ((hmem_iff q').mpr ⟨hq'j, hq'L⟩),
              hpair'other q' hq'L hq'i hq'q]
          · rw [if_neg hq'L, if_neg (fun hc => hq'L ((hmem_iff q').mp hc).2)]
  · -- cntOK
    intro pr
    rw [hC6e, hLL', hst6]
    rw [cntGet_cntAdd, cntGet_cntAdd, cntGet_cntAdd, cntGet_cntAdd, cntGet_cntAdd,
      hI.cntOK pr]
    have dj := countP_erase_of_mem
      (fun x => decide (pairAt (mSt2St s) x = some pr)) hjmem
    simp only [] at dj
    have hiE : i ∈ (liveList s).erase j := (hmem_iff i).mpr ⟨by omega, hmem⟩
    have hndE : ((liveList s).erase j).Nodup := hnd.erase j
    have hqE : q ∈ (liveList s).erase j := (hmem_iff q).mpr ⟨hqj, hqmem⟩
    have hqEE : q ∈ ((liveList s).erase j).erase i :=
      (List.Nodup.mem_erase_iff hndE).mpr ⟨hqi, hqE⟩
    have hndEE : (((liveList s).erase j).erase i).Nodup := hndE.erase i
    have diP' := countP_erase_of_mem
      (fun x => decide (pairAt (mergeStep (mSt2St s) i (some m) nc) x = some pr)) hiE
    have diP := countP_erase_of_mem
      (fun x => decide (pairAt (mSt2St s) x = some pr)) hiE
    have dqP' := countP_erase_of_mem
      (fun x => decide (pairAt (mergeStep (mSt2St s) i (some m) nc) x = some pr)) hqEE
    have dqP := countP_erase_of_mem
      (fun x => decide (pairAt (mSt2St s) x = some pr)) hqEE
    simp only [] at diP' diP dqP' dqP
    have hrest : ((((liveList s).erase j).erase i).erase q).countP
        (fun x => decide (pairAt (mergeStep (mSt2St s) i (some m) nc) x = some pr)) =
        ((((liveList s).erase j).erase i).erase q).countP
        (fun x => decide (pairAt (mSt2St s) x = some pr)) := by
      apply countP_congr'
      intro x hx
      have hx1 := (List.Nodup.mem_erase_iff hndEE).mp hx
      have hx2 := (List.Nodup.mem_erase_iff hndE).mp hx1.2
      have hx3 := (hmem_iff x).mp hx2.2
      rw [hpair'other x hx3.2 hx2.1 hx1.1]
    have lj : (if (decide (pairAt (mSt2St s) j = some pr)) then (1:Int) else 0) =
        -(if pr = (s.c.getD j 0, s.c.getD m 0) then (-1:Int) else 0) := by
      rw [hpairj]
      exact ind_link_negZ _ pr
    have li : (if (decide (pairAt (mSt2St s) i = some pr)) then (1:Int) else 0) =
        -(if pr = (s.c.getD i 0, s.c.getD j 0) then (-1:Int) else 0) := by
      rw [hpairi]
      exact ind_link_negZ _ pr
    have lq : (if (decide (pairAt (mSt2St s) q = some pr)) then (1:Int) else 0) =
        -(if pr = (s.c.getD q 0, s.c.getD i 0) then (-1:Int) else 0) := by
      rw [hpairq]
      exact ind_link_negZ _ pr
    have l'i : (if (decide (pairAt (mergeStep (mSt2St s) i (some m) nc) i = some pr))
        then (1:Int) else 0) = (if pr = (nc, s.c.getD m 0) then (1:Int) else 0) := by
      rw [hpair'i]
      exact ind_link_posZ _ pr
    have l'q : (if (decide (pairAt (mergeStep (mSt2St s) i (some m) nc) q = some pr))
        then (1:Int) else 0) = (if pr = (s.c.getD q 0, nc) then (1:Int) else 0) := by
      rw [hpair'q]
      exact ind_link_posZ _ pr
    rw [dj, diP, dqP, diP', dqP', hrest]
    push_cast
    rw [lj, li, lq, l'i, l'q]
    ring
  · -- heapOK
    intro x hx pr hxpr
    rw [hLL'] at hx
    rw [hst6] at hxpr
    obtain ⟨hxj, hxL⟩ := (hmem_iff x).mp hx
    rw [hH6e, heapsGet_heapsSet]
    by_cases hxi : x = i
    · subst hxi
      rw [hpair'i] at hxpr
      have hpr : pr = (nc, s.c.getD m 0) := (Option.some.inj hxpr).symm
      rw [if_pos hpr]
      exact List.mem_cons_self _ _
    · by_cases hxq : x = q
      · subst hxq
        rw [hpair'q] at hxpr
        have hpr : pr = (s.c.getD x 0, nc) := (Option.some.inj hxpr).symm
        by_cases hco : pr = (nc, s.c.getD m 0)
        · rw [if_pos hco]
          refine List.mem_cons_of_mem i ?_
          rw [heapsGet_heapsSet, ← hco, hpr, if_pos rfl]
          exact List.mem_cons_self _ _
        · rw [if_neg hco, heapsGet_heapsSet, hpr, if_pos rfl]
          exact List.mem_cons_self _ _
      · rw [hpair'other x hxL hxi hxq] at hxpr
        have hold : x ∈ heapsGet s.heaps pr := hI.heapOK x hxL pr hxpr
        have hmid : x ∈ heapsGet (heapsSet s.heaps (s.c.getD q 0, nc)
            (q :: heapsGet s.heaps (s.c.getD q 0, nc))) pr := by
          rw [heapsGet_heapsSet]
          by_cases hc1 : pr = (s.c.getD q 0, nc)
          · rw [if_pos hc1, ← hc1]
            exact List.mem_cons_of_mem q (hc1 ▸ hold)
          · rw [if_neg hc1]
            exact hold
        by_cases hc2 : pr = (nc, s.c.getD m 0)
        · rw [if_pos hc2]
          exact List.mem_cons_of_mem i (hc2 ▸ hmid)
        · rw [if_neg hc2]
          exact hmid
  · -- prevOK
    intro a ha b hb
    rw [hLL'] at ha
    rw [hst6, hnxt'] at hb
    rw [hP6e]
    by_cases hai : a = i
    · subst hai
      rw [getD_set_eq s.nx a (some m) none (by omega)] at hb
      have hbm : m = b := Option.some.inj hb
      subst hbm
      exact getD_set_eq s.p m (some a) none (by omega)
    · rw [getD_set_ne s.nx (some m) none (fun h => hai h.symm)] at hb
      obtain ⟨haj, haL⟩ := (hmem_iff a).mp ha
      by_cases hbi : b = i
      · rw [hbi] at hb ⊢
        have haq' : a = q := hpreduniq a haL hb
        rw [haq']
        rw [getD_set_ne s.p (some i) none hmi]
        exact hpi
      · by_cases hbm : b = m
        · subst hbm
          have h1 : s.p.getD b none = some a := hI.prevOK a haL b hb
          have h2 : s.p.getD b none = some j := hI.prevOK j hjmem b hnj'
          have : a = j := Option.some.inj (h1.symm.trans h2)
          exact absurd this haj
        · rw [getD_set_ne s.p (some i) none (fun h => hbm h.symm)]
          exact hI.prevOK a haL b hb
  · -- prev0
    rw [hP6e, getD_set_ne s.p (some i) none (by omega)]
    exact hI.prev0

theorem mergeUpd_minv_sn (s : MSt) (i j q nc : Nat) (hI : MInv s)
    (hmem : i ∈ liveList s) (hnx : s.nx.getD i none = some j)
    (hpi : s.p.getD i none = some q) (hnj : s.nx.getD j none = none) :
    MInv (mergeUpd s i j nc) ∧
    liveList (mergeUpd s i j nc) = (liveList s).erase j := by
  have hA := hI.ascM
  have hnx' : (mSt2St s).nxt.getD i none = some j := hnx
  have hnj' : (mSt2St s).nxt.getD j none = none := hnj
  have h0 : 0 < s.c.length := liveList_length_pos hmem
  obtain ⟨hij, hjn'⟩ := hA i j hnx'
  have hjn : j < s.c.length := hjn'
  have hin : i < s.c.length := by omega
  have hnl : s.nx.length = s.c.length := hI.nlen
  have hpl : s.p.length = s.c.length := hI.plen
  have hnd : (liveList s).Nodup := posList_nodup s.c.length (mSt2St s) 0 hA
  have hfb : (mSt2St s).char.length - 0 ≤ s.c.length := by
    show s.c.length - 0 ≤ s.c.length
    omega
  have hjmem : j ∈ liveList s :=
    posList_succ_mem s.c.length (mSt2St s) 0 i j hA h0 hfb hmem hnx'
  have hLL' : liveList (mergeUpd s i j nc) = (liveList s).erase j := by
    unfold liveList
    have hlen : (mergeUpd s i j nc).c.length = s.c.length := by
      rw [mergeUpd_c]
      simp
    rw [hlen, mergeUpd_st]
    exact posList_merge_from s.c.length (mSt2St s) i j nc 0 hA hnx' h0 hfb hmem
  have hmem_iff : ∀ x : Nat, x ∈ (liveList s).erase j ↔ (x ≠ j ∧ x ∈ liveList s) :=
    fun x => List.Nodup.mem_erase_iff hnd
  have hine : i ≠ 0 := by
    intro h0i
    rw [h0i, hI.prev0] at hpi
    cases hpi
  obtain ⟨a, hamem, hanx⟩ := posList_pred s.c.length (mSt2St s) 0 i hA hmem hine
  have haq : a = q := Option.some.inj ((hI.prevOK a hamem i hanx).symm.trans hpi)
  have hqmem : q ∈ liveList s := haq ▸ hamem
  have hqnx : (mSt2St s).nxt.getD q none = some i := haq ▸ hanx
  obtain ⟨hqlt, _⟩ := hA q i hqnx
  have hqi : q ≠ i := by omega
  have hqj : q ≠ j := by omega
  have hji : j ≠ i := by omega
  have hpreduniq : ∀ a' ∈ liveList s, (mSt2St s).nxt.getD a' none = some i → a' = q :=
    fun a' ha' h' => Option.some.inj ((hI.prevOK a' ha' i h').symm.trans hpi)
  have hpairi : pairAt (mSt2St s) i = some (s.c.getD i 0, s.c.getD j 0) :=
    pairAt_of_nxt_some hnx'
  have hpairq : pairAt (mSt2St s) q = some (s.c.getD q 0, s.c.getD i 0) :=
    pairAt_of_nxt_some hqnx
  have hpairj : pairAt (mSt2St s) j = none := pairAt_of_nxt_none hnj'
  have hapq : apGet s.atPos q = some (s.c.getD q 0, s.c.getD i 0) := by
    rw [hI.apOK q, if_pos hqmem]
    exact hpairq
  have hapi : apGet s.atPos i = some (s.c.getD i 0, s.c.getD j 0) := by
    rw [hI.apOK i, if_pos hmem]
    exact hpairi
  have hapj : apGet s.atPos j = none := by
    rw [hI.apOK j, if_pos hjmem]
    exact hpairj
  have hnd0 := hI.apNodup
  have hnd1 : ((apDel s.atPos q).map Prod.fst).Nodup := apDel_nodup s.atPos q hnd0
  have hnd2 : ((apDel (apDel s.atPos q) i).map Prod.fst).Nodup := apDel_nodup _ i hnd1
  have e2 : apGet (apDel s.atPos q) i = some (s.c.getD i 0, s.c.getD j 0) := by
    rw [apGet_apDel s.atPos q i hnd0, if_neg (Ne.symm hqi)]
    exact hapi
  have e3 : apGet (apDel (apDel s.atPos q) i) j = none := by
    rw [apGet_apDel (apDel s.atPos q) i j hnd1, if_neg hji,
      apGet_apDel s.atPos q j hnd0, if_neg (Ne.symm hqj)]
    exact hapj
  have hd1 : delPair s q = MSt.mk s.c s.p s.nx
      (cntAdd s.cnt (s.c.getD q 0, s.c.getD i 0) (-1)) s.heaps (apDel s.atPos q) := by
    rw [delPair_of_some hapq]
  have hd2 : delPair (delPair s q) i = MSt.mk s.c s.p s.nx
      (cntAdd (cntAdd s.cnt (s.c.getD q 0, s.c.getD i 0) (-1))
        (s.c.getD i 0, s.c.getD j 0) (-1)) s.heaps (apDel (apDel s.atPos q) i) := by
    rw [hd1,
      delPair_of_some (show apGet (MSt.mk s.c s.p s.nx
        (cntAdd s.cnt (s.c.getD q 0, s.c.getD i 0) (-1)) s.heaps
        (apDel s.atPos q)).atPos i = some (s.c.getD i 0, s.c.getD j 0) from e2)]
  have hd3 : delPair (delPair (delPair s q) i) j = MSt.mk s.c s.p s.nx
      (cntAdd (cntAdd s.cnt (s.c.getD q 0, s.c.getD i 0) (-1))
        (s.c.getD i 0, s.c.getD j 0) (-1)) s.heaps (apDel (apDel s.atPos q) i) := by
    rw [hd2,
      delPair_of_none (show apGet (MSt.mk s.c s.p s.nx
        (cntAdd (cntAdd s.cnt (s.c.getD q 0, s.c.getD i 0) (-1))
          (s.c.getD i 0, s.c.getD j 0) (-1)) s.heaps
        (apDel (apDel s.atPos q) i)).atPos j = none from e3)]
  have hS6 : mergeUpd s i j nc =
      addPair (addPair (MSt.mk (s.c.set i nc) s.p (s.nx.set i none)
        (cntAdd (cntAdd s.cnt (s.c.getD q 0, s.c.getD i 0) (-1))
          (s.c.getD i 0, s.c.getD j 0) (-1)) s.heaps
        (apDel (apDel s.atPos q) i)) q) i := by
    simp only [mergeUpd, hpi, hnj]
    rw [hd3]
  have hq_nx : (MSt.mk (s.c.set i nc) s.p (s.nx.set i none)
      (cntAdd (cntAdd s.cnt (s.c.getD q 0, s.c.getD i 0) (-1))
        (s.c.getD i 0, s.c.getD j 0) (-1)) s.heaps
      (apDel (apDel s.atPos q) i)).nx.getD q none = some i := by
    show (s.nx.set i none).getD q none = some i
    rw [getD_set_ne s.nx none none (Ne.symm hqi)]
    exact hqnx
  have ha5 : addPair (MSt.mk (s.c.set i nc) s.p (s.nx.set i none)
      (cntAdd (cntAdd s.cnt (s.c.getD q 0, s.c.getD i 0) (-1))
        (s.c.getD i 0, s.c.getD j 0) (-1)) s.heaps
      (apDel (apDel s.atPos q) i)) q =
      MSt.mk (s.c.set i nc) s.p (s.nx.set i none)
        (cntAdd (cntAdd (cntAdd s.cnt (s.c.getD q 0, s.c.getD i 0) (-1))
          (s.c.getD i 0, s.c.getD j 0) (-1)) (s.c.getD q 0, nc) 1)
        (heapsSet s.heaps (s.c.getD q 0, nc) (q :: heapsGet s.heaps (s.c.getD q 0, nc)))
        (apSet (apDel (apDel s.atPos q) i) q (s.c.getD q 0, nc)) := by
    rw [addPair_of_some hq_nx]
    show (MSt.mk (s.c.set i nc) s.p (s.nx.set i none) _ _ _ : MSt) = _
    rw [getD_set_ne s.c nc 0 (Ne.symm hqi), getD_set_eq s.c i nc 0 hin]
  have hi_nx5 : (MSt.mk (s.c.set i nc) s.p (s.nx.set i none)
      (cntAdd (cntAdd (cntAdd s.cnt (s.c.getD q 0, s.c.getD i 0) (-1))
        (s.c.getD i 0, s.c.getD j 0) (-1)) (s.c.getD q 0, nc) 1)
      (heapsSet s.heaps (s.c.getD q 0, nc) (q :: heapsGet s.heaps (s.c.getD q 0, nc)))
      (apSet (apDel (apDel s.atPos q) i) q (s.c.getD q 0, nc))).nx.getD i none
      = none := by
    show (s.nx.set i none).getD i none = none
    exact getD_set_eq s.nx i none none (by omega)
  have ha6 : mergeUpd s i j nc =
      MSt.mk (s.c.set i nc) s.p (s.nx.set i none)
        (cntAdd (cntAdd (cntAdd s.cnt (s.c.getD q 0, s.c.getD i 0) (-1))
          (s.c.getD i 0, s.c.getD j 0) (-1)) (s.c.getD q 0, nc) 1)
        (heapsSet s.heaps (s.c.getD q 0, nc) (q :: heapsGet s.heaps (s.c.getD q 0, nc)))
        (apSet (apDel (apDel s.atPos q) i) q (s.c.getD q 0, nc)) := by
    rw [hS6, ha5, addPair_of_none hi_nx5]
  have hA6e : (mergeUpd s i j nc).atPos =
      apSet (apDel (apDel s.atPos q) i) q (s.c.getD q 0, nc) := by
    rw [ha6]
  have hC6e : (mergeUpd s i j nc).cnt =
      cntAdd (cntAdd (cntAdd s.cnt (s.c.getD q 0, s.c.getD i 0) (-1))
        (s.c.getD i 0, s.c.getD j 0) (-1)) (s.c.getD q 0, nc) 1 := by
    rw [ha6]
  have hH6e : (mergeUpd s i j nc).heaps =
      heapsSet s.heaps (s.c.getD q 0, nc) (q :: heapsGet s.heaps (s.c.getD q 0, nc)) := by
    rw [ha6]
  have hP6e : (mergeUpd s i j nc).p = s.p := by
    rw [ha6]
  have hst6 : mSt2St (mergeUpd s i j nc) = mergeStep (mSt2St s) i none nc := by
    rw [mergeUpd_st, hnj]
  have hnxt' : (mergeStep (mSt2St s) i none nc).nxt = s.nx.set i none := rfl
  have hchar' : (mergeStep (mSt2St s) i none nc).char = s.c.set i nc := rfl
  have hpair'i : pairAt (mergeStep (mSt2St s) i none nc) i = none := by
    rw [pairAt_of_nxt_none (show (mergeStep (mSt2St s) i none nc).nxt.getD i none
      = none by rw [hnxt']; exact getD_set_eq s.nx i none none (by omega))]
  have hpair'q : pairAt (mergeStep (mSt2St s) i none nc) q =
      some (s.c.getD q 0, nc) := by
    rw [pairAt_of_nxt_some (show (mergeStep (mSt2St s) i none nc).nxt.getD q none
      = some i by rw [hnxt', getD_set_ne s.nx none none (Ne.symm hqi)]; exact hqnx)]
    rw [hchar', getD_set_ne s.c nc 0 (Ne.symm hqi), getD_set_eq s.c i nc 0 hin]
  have hpair'other : ∀ x ∈ liveList s, x ≠ i → x ≠ q →
      pairAt (mergeStep (mSt2St s) i none nc) x = pairAt (mSt2St s) x := by
    intro x hx hxi hxq
    cases hbx : (mSt2St s).nxt.getD x none with
    | none =>
        rw [pairAt_of_nxt_none hbx, pairAt_of_nxt_none (show
          (mergeStep (mSt2St s) i none nc).nxt.getD x none = none by
            rw [hnxt', getD_set_ne s.nx none none (fun h => hxi h.symm)]
            exact hbx)]
    | some b =>
        have hbnei : b ≠ i := fun hbi => hxq (hpreduniq x hx (hbi ▸ hbx))
        rw [pairAt_of_nxt_some hbx, pairAt_of_nxt_some (show
          (mergeStep (mSt2St s) i none nc).nxt.getD x none = some b by
            rw [hnxt', getD_set_ne s.nx none none (fun h => hxi h.symm)]
            exact hbx)]
        rw [hchar', getD_set_ne s.c nc 0 (fun h => hxi h.symm),
          getD_set_ne s.c nc 0 (fun h => hbnei h.symm)]
        rfl
  refine ⟨⟨?_, ?_, ?_, ?_, ?_, ?_, ?_, ?_, ?_⟩, hLL'⟩
  · rw [hst6]
    have h := asc_mergeStep (mSt2St s) i j nc hA hnx'
    rw [hnj'] at h
    exact h
  · rw [hP6e, mergeUpd_c]
    simp [hpl]
  · rw [mergeUpd_nx, mergeUpd_c, hnj]
    simp [hnl]
  · rw [hA6e]
    exact apSet_nodup _ q _ hnd2
  · intro q'
    rw [hA6e, hLL', hst6]
    by_cases hq'q : q' = q
    · subst hq'q
      rw [apGet_apSet, if_pos rfl, if_pos ((hmem_iff q').mpr ⟨hqj, hqmem⟩), hpair'q]
    · rw [apGet_apSet, if_neg hq'q]
      by_cases hq'i : q' = i
      · subst hq'i
        rw [apGet_apDel _ q' q' hnd1, if_pos rfl,
          if_pos ((hmem_iff q').mpr ⟨by omega, hmem⟩), hpair'i]
      · rw [apGet_apDel _ i q' hnd1, if_neg hq'i, apGet_apDel s.atPos q q' hnd0,
          if_neg hq'q, hI.apOK q']
        by_cases hq'j : q' = j
        · subst hq'j
          rw [if_pos hjmem, if_neg (fun hc => absurd ((hmem_iff q').mp hc).1 (by simp)),
            hpairj]
        · by_cases hq'L : q' ∈ liveList s
          · rw [if_pos hq'L, if_pos ((hmem_iff q').mpr ⟨hq'j, hq'L⟩),
              hpair'other q' hq'L hq'i hq'q]
          · rw [if_neg hq'L, if_neg (fun hc => hq'L ((hmem_iff q').mp hc).2)]
  · intro pr
    rw [hC6e, hLL', hst6]
    rw [cntGet_cntAdd, cntGet_cntAdd, cntGet_cntAdd, hI.cntOK pr]
    have dj := countP_erase_of_mem
      (fun x => decide (pairAt (mSt2St s) x = some pr)) hjmem
    simp only [] at dj
    have hiE : i ∈ (liveList s).erase j := (hmem_iff i).mpr ⟨by omega, hmem⟩
    have hndE : ((liveList s).erase j).Nodup := hnd.erase j
    have hqE : q ∈ (liveList s).erase j := (hmem_iff q).mpr ⟨hqj, hqmem⟩
    have hqEE : q ∈ ((liveList s).erase j).erase i :=
      (List.Nodup.mem_erase_iff hndE).mpr ⟨hqi, hqE⟩
    have hndEE : (((liveList s).erase j).erase i).Nodup := hndE.erase i
    have diP' := countP_erase_of_mem
      (fun x => decide (pairAt (mergeStep (mSt2St s) i none nc) x = some pr)) hiE
    have diP := countP_erase_of_mem
      (fun x => decide (pairAt (mSt2St s) x = some pr)) hiE
    have dqP' := countP_erase_of_mem
      (fun x => decide (pairAt (mergeStep (mSt2St s) i none nc) x = some pr)) hqEE
    have dqP := countP_erase_of_mem
      (fun x => decide (pairAt (mSt2St s) x = some pr)) hqEE
    simp only [] at diP' diP dqP' dqP
    have hrest : ((((liveList s).erase j).erase i).erase q).countP
        (fun x => decide (pairAt (mergeStep (mSt2St s) i none nc) x = some pr)) =
        ((((liveList s).erase j).erase i).erase q).countP
        (fun x => decide (pairAt (mSt2St s) x = some pr)) := by
      apply countP_congr'
      intro x hx
      have hx1 := (List.Nodup.mem_erase_iff hndEE).mp hx
      have hx2 := (List.Nodup.mem_erase_iff hndE).mp hx1.2
      have hx3 := (hmem_iff x).mp hx2.2
      rw [hpair'other x hx3.2 hx2.1 hx1.1]
    have lj : (if (decide (pairAt (mSt2St s) j = some pr)) then (1:Int) else 0) = 0 := by
      rw [hpairj]
      simp
    have li : (if (decide (pairAt (mSt2St s) i = some pr)) then (1:Int) else 0) =
        -(if pr = (s.c.getD i 0, s.c.getD j 0) then (-1:Int) else 0) := by
      rw [hpairi]
      exact ind_link_negZ _ pr
    have lq : (if (decide (pairAt (mSt2St s) q = some pr)) then (1:Int) else 0) =
        -(if pr = (s.c.getD q 0, s.c.getD i 0) then (-1:Int) else 0) := by
      rw [hpairq]
      exact ind_link_negZ _ pr
    have l'i : (if (decide (pairAt (mergeStep (mSt2St s) i none nc) i = some pr))
        then (1:Int) else 0) = 0 := by
      rw [hpair'i]
      simp
    have l'q : (if (decide (pairAt (mergeStep (mSt2St s) i none nc) q = some pr))
        then (1:Int) else 0) = (if pr = (s.c.getD q 0, nc) then (1:Int) else 0) := by
      rw [hpair'q]
      exact ind_link_posZ _ pr
    rw [dj, diP, dqP, diP', dqP', hrest]
    push_cast
    rw [lj, li, lq, l'i, l'q]
    ring
  · intro x hx pr hxpr
    rw [hLL'] at hx
    rw [hst6] at hxpr
    obtain ⟨hxj, hxL⟩ := (hmem_iff x).mp hx
    rw [hH6e, heapsGet_heapsSet]
    by_cases hxi : x = i
    · subst hxi
      rw [hpair'i] at hxpr
      cases hxpr
    · by_cases hxq : x = q
      · subst hxq
        rw [hpair'q] at hxpr
        have hpr : pr = (s.c.getD x 0, nc) := (Option.some.inj hxpr).symm
        rw [if_pos hpr]
        exact List.mem_cons_self _ _
      · rw [hpair'other x hxL hxi hxq] at hxpr
        have hold : x ∈ heapsGet s.heaps pr := hI.heapOK x hxL pr hxpr
        by_cases hc1 : pr = (s.c.getD q 0, nc)
        · rw [if_pos hc1, ← hc1]
          exact List.mem_cons_of_mem q (hc1 ▸ hold)
        · rw [if_neg hc1]
          exact hold
  · intro a ha b hb
    rw [hLL'] at ha
    rw [hst6, hnxt'] at hb
    rw [hP6e]
    by_cases hai : a = i
    · subst hai
      rw [getD_set_eq s.nx a none none (by omega)] at hb
      cases hb
    · rw [getD_set_ne s.nx none none (fun h => hai h.symm)] at hb
      obtain ⟨haj, haL⟩ := (hmem_iff a).mp ha
      by_cases hbi : b = i
      · rw [hbi] at hb ⊢
        have haq' : a = q := hpreduniq a haL hb
        rw [haq']
        exact hpi
      · exact hI.prevOK a haL b hb
  · rw [hP6e]
    exact hI.prev0

theorem mergeUpd_minv_ns (s : MSt) (i j m nc : Nat) (hI : MInv s)
    (hmem : i ∈ liveList s) (hnx : s.nx.getD i none = some j)
    (hpi : s.p.getD i none = none) (hnj : s.nx.getD j none = some m) :
    MInv (mergeUpd s i j nc) ∧
    liveList (mergeUpd s i j nc) = (liveList s).erase j := by
  have hA := hI.ascM
  have hnx' : (mSt2St s).nxt.getD i none = some j := hnx
  have hnj' : (mSt2St s).nxt.getD j none = some m := hnj
  have h0 : 0 < s.c.length := liveList_length_pos hmem
  obtain ⟨hij, hjn'⟩ := hA i j hnx'
  have hjn : j < s.c.length := hjn'
  obtain ⟨hjm, hmn'⟩ := hA j m hnj'
  have hmn : m < s.c.length := hmn'
  have hin : i < s.c.length := by omega
  have hnl : s.nx.length = s.c.length := hI.nlen
  have hpl : s.p.length = s.c.length := hI.plen
  have hnd : (liveList s).Nodup := posList_nodup s.c.length (mSt2St s) 0 hA
  have hfb : (mSt2St s).char.length - 0 ≤ s.c.length := by
    show s.c.length - 0 ≤ s.c.length
    omega
  have hjmem : j ∈ liveList s :=
    posList_succ_mem s.c.length (mSt2St s) 0 i j hA h0 hfb hmem hnx'
  have hLL' : liveList (mergeUpd s i j nc) = (liveList s).erase j := by
    unfold liveList
    have hlen : (mergeUpd s i j nc).c.length = s.c.length := by
      rw [mergeUpd_c]
      simp
    rw [hlen, mergeUpd_st]
    exact posList_merge_from s.c.length (mSt2St s) i j nc 0 hA hnx' h0 hfb hmem
  have hmem_iff : ∀ x : Nat, x ∈ (liveList s).erase j ↔ (x ≠ j ∧ x ∈ liveList s) :=
    fun x => List.Nodup.mem_erase_iff hnd
  have hji : j ≠ i := by omega
  have hmi : m ≠ i := by omega
  have hnopred : ∀ a ∈ liveList s, (mSt2St s).nxt.getD a none ≠ some i := by
    intro a ha hne
    have := hI.prevOK a ha i hne
    rw [hpi] at this
    cases this
  have hpairi : pairAt (mSt2St s) i = some (s.c.getD i 0, s.c.getD j 0) :=
    pairAt_of_nxt_some hnx'
  have hpairj : pairAt (mSt2St s) j = some (s.c.getD j 0, s.c.getD m 0) :=
    pairAt_of_nxt_some hnj'
  have hapi : apGet s.atPos i = some (s.c.getD i 0, s.c.getD j 0) := by
    rw [hI.apOK i, if_pos hmem]
    exact hpairi
  have hapj : apGet s.atPos j = some (s.c.getD j 0, s.c.getD m 0) := by
    rw [hI.apOK j, if_pos hjmem]
    exact hpairj
  have hnd0 := hI.apNodup
  have hnd1 : ((apDel s.atPos i).map Prod.fst).Nodup := apDel_nodup s.atPos i hnd0
  have e3 : apGet (apDel s.atPos i) j = some (s.c.getD j 0, s.c.getD m 0) := by
    rw [apGet_apDel s.atPos i j hnd0, if_neg hji]
    exact hapj
  have hd2 : delPair s i = MSt.mk s.c s.p s.nx
      (cntAdd s.cnt (s.c.getD i 0, s.c.getD j 0) (-1)) s.heaps (apDel s.atPos i) := by
    rw [delPair_of_some hapi]
  have hd3 : delPair (delPair s i) j = MSt.mk s.c s.p s.nx
      (cntAdd (cntAdd s.cnt (s.c.getD i 0, s.c.getD j 0) (-1))
        (s.c.getD j 0, s.c.getD m 0) (-1)) s.heaps (apDel (apDel s.atPos i) j) := by
    rw [hd2,
      delPair_of_some (show apGet (MSt.mk s.c s.p s.nx
        (cntAdd s.cnt (s.c.getD i 0, s.c.getD j 0) (-1)) s.heaps
        (apDel s.atPos i)).atPos j = some (s.c.getD j 0, s.c.getD m 0) from e3)]
  have hS6 : mergeUpd s i j nc =
      addPair (MSt.mk (s.c.set i nc) (s.p.set m (some i)) (s.nx.set i (some m))
        (cntAdd (cntAdd s.cnt (s.c.getD i 0, s.c.getD j 0) (-1))
          (s.c.getD j 0, s.c.getD m 0) (-1)) s.heaps
        (apDel (apDel s.atPos i) j)) i := by
    simp only [mergeUpd, hpi, hnj]
    rw [hd3]
  have hi_nx5 : (MSt.mk (s.c.set i nc) (s.p.set m (some i)) (s.nx.set i (some m))
      (cntAdd (cntAdd s.cnt (s.c.getD i 0, s.c.getD j 0) (-1))
        (s.c.getD j 0, s.c.getD m 0) (-1)) s.heaps
      (apDel (apDel s.atPos i) j)).nx.getD i none = some m := by
    show (s.nx.set i (some m)).getD i none = some m
    exact getD_set_eq s.nx i (some m) none (by omega)
  have ha6 : mergeUpd s i j nc =
      MSt.mk (s.c.set i nc) (s.p.set m (some i)) (s.nx.set i (some m))
        (cntAdd (cntAdd (cntAdd s.cnt (s.c.getD i 0, s.c.getD j 0) (-1))
          (s.c.getD j 0, s.c.getD m 0) (-1)) (nc, s.c.getD m 0) 1)
        (heapsSet s.heaps (nc, s.c.getD m 0) (i :: heapsGet s.heaps (nc, s.c.getD m 0)))
        (apSet (apDel (apDel s.atPos i) j) i (nc, s.c.getD m 0)) := by
    rw [hS6, addPair_of_some hi_nx5]
    show (MSt.mk (s.c.set i nc) (s.p.set m (some i)) (s.nx.set i (some m)) _ _ _ : MSt) = _
    rw [getD_set_eq s.c i nc 0 hin, getD_set_ne s.c nc 0 (Ne.symm hmi)]
  have hA6e : (mergeUpd s i j nc).atPos =
      apSet (apDel (apDel s.atPos i) j) i (nc, s.c.getD m 0) := by
    rw [ha6]
  have hC6e : (mergeUpd s i j nc).cnt =
      cntAdd (cntAdd (cntAdd s.cnt (s.c.getD i 0, s.c.getD j 0) (-1))
        (s.c.getD j 0, s.c.getD m 0) (-1)) (nc, s.c.getD m 0) 1 := by
    rw [ha6]
  have hH6e : (mergeUpd s i j nc).heaps =
      heapsSet s.heaps (nc, s.c.getD m 0) (i :: heapsGet s.heaps (nc, s.c.getD m 0)) := by
    rw [ha6]
  have hP6e : (mergeUpd s i j nc).p = s.p.set m (some i) := by
    rw [ha6]
  have hst6 : mSt2St (mergeUpd s i j nc) = mergeStep (mSt2St s) i (some m) nc := by
    rw [mergeUpd_st, hnj]
  have hnxt' : (mergeStep (mSt2St s) i (some m) nc).nxt = s.nx.set i (some m) := rfl
  have hchar' : (mergeStep (mSt2St s) i (some m) nc).char = s.c.set i nc := rfl
  have hpair'i : pairAt (mergeStep (mSt2St s) i (some m) nc) i = some (nc, s.c.getD m 0) := by
    rw [pairAt_of_nxt_some (show (mergeStep (mSt2St s) i (some m) nc).nxt.getD i none
      = some m by rw [hnxt']; exact getD_set_eq s.nx i (some m) none (by omega))]
    rw [hchar', getD_set_eq s.c i nc 0 hin, getD_set_ne s.c nc 0 (Ne.symm hmi)]
  have hpair'other : ∀ x ∈ liveList s, x ≠ i →
      pairAt (mergeStep (mSt2St s) i (some m) nc) x = pairAt (mSt2St s) x := by
    intro x hx hxi
    cases hbx : (mSt2St s).nxt.getD x none with
    | none =>
        rw [pairAt_of_nxt_none hbx, pairAt_of_nxt_none (show
          (mergeStep (mSt2St s) i (some m) nc).nxt.getD x none = none by
            rw [hnxt', getD_set_ne s.nx (some m) none (fun h => hxi h.symm)]
            exact hbx)]
    | some b =>
        have hbnei : b ≠ i := fun hbi => hnopred x hx (hbi ▸ hbx)
        rw [pairAt_of_nxt_some hbx, pairAt_of_nxt_some (show
          (mergeStep (mSt2St s) i (some m) nc).nxt.getD x none = some b by
            rw [hnxt', getD_set_ne s.nx (some m) none (fun h => hxi h.symm)]
            exact hbx)]
        rw [hchar', getD_set_ne s.c nc 0 (fun h => hxi h.symm),
          getD_set_ne s.c nc 0 (fun h => hbnei h.symm)]
        rfl
  refine ⟨⟨?_, ?_, ?_, ?_, ?_, ?_, ?_, ?_, ?_⟩, hLL'⟩
  · rw [hst6]
    have h := asc_mergeStep (mSt2St s) i j nc hA hnx'
    rw [hnj'] at h
    exact h
  · rw [hP6e, mergeUpd_c]
    simp [hpl]
  · rw [mergeUpd_nx, mergeUpd_c]
    simp [hnl]
  · rw [hA6e]
    exact apSet_nodup _ i _ (apDel_nodup _ j hnd1)
  · intro q'
    rw [hA6e, hLL', hst6]
    by_cases hq'i : q' = i
    · subst hq'i
      rw [apGet_apSet, if_pos rfl, if_pos ((hmem_iff q').mpr ⟨by omega, hmem⟩), hpair'i]
    · rw [apGet_apSet, if_neg hq'i, apGet_apDel _ j q' hnd1]
      by_cases hq'j : q' = j
      · subst hq'j
        rw [if_pos rfl, if_neg (fun hc => absurd ((hmem_iff q').mp hc).1 (by simp))]
      · rw [if_neg hq'j, apGet_apDel s.atPos i q' hnd0, if_neg hq'i, hI.apOK q']
        by_cases hq'L : q' ∈ liveList s
        · rw [if_pos hq'L, if_pos ((hmem_iff q').mpr ⟨hq'j, hq'L⟩),
            hpair'other q' hq'L hq'i]
        · rw [if_neg hq'L, if_neg (fun hc => hq'L ((hmem_iff q').mp hc).2)]
  · intro pr
    rw [hC6e, hLL', hst6]
    rw [cntGet_cntAdd, cntGet_cntAdd, cntGet_cntAdd, hI.cntOK pr]
    have dj := countP_erase_of_mem
      (fun x => decide (pairAt (mSt2St s) x = some pr)) hjmem
    simp only [] at dj
    have hiE : i ∈ (liveList s).erase j := (hmem_iff i).mpr ⟨by omega, hmem⟩
    have hndE : ((liveList s).erase j).Nodup := hnd.erase j
    have hndEE : (((liveList s).erase j).erase i).Nodup := hndE.erase i
    have diP' := countP_erase_of_mem
      (fun x => decide (pairAt (mergeStep (mSt2St s) i (some m) nc) x = some pr)) hiE
    have diP := countP_erase_of_mem
      (fun x => decide (pairAt (mSt2St s) x = some pr)) hiE
    simp only [] at diP' diP
    have hrest : (((liveList s).erase j).erase i).countP
        (fun x => decide (pairAt (mergeStep (mSt2St s) i (some m) nc) x = some pr)) =
        (((liveList s).erase j).erase i).countP
        (fun x => decide (pairAt (mSt2St s) x = some pr)) := by
      apply countP_congr'
      intro x hx
      have hx2 := (List.Nodup.mem_erase_iff hndE).mp hx
      have hx3 := (hmem_iff x).mp hx2.2
      rw [hpair'other x hx3.2 hx2.1]
    have lj : (if (decide (pairAt (mSt2St s) j = some pr)) then (1:Int) else 0) =
        -(if pr = (s.c.getD j 0, s.c.getD m 0) then (-1:Int) else 0) := by
      rw [hpairj]
      exact ind_link_negZ _ pr
    have li : (if (decide (pairAt (mSt2St s) i = some pr)) then (1:Int) else 0) =
        -(if pr = (s.c.getD i 0, s.c.getD j 0) then (-1:Int) else 0) := by
      rw [hpairi]
      exact ind_link_negZ _ pr
    have l'i : (if (decide (pairAt (mergeStep (mSt2St s) i (some m) nc) i = some pr))
        then (1:Int) else 0) = (if pr = (nc, s.c.getD m 0) then (1:Int) else 0) := by
      rw [hpair'i]
      exact ind_link_posZ _ pr
    rw [dj, diP, diP', hrest]
    push_cast
    rw [lj, li, l'i]
    ring
  · intro x hx pr hxpr
    rw [hLL'] at hx
    rw [hst6] at hxpr
    obtain ⟨hxj, hxL⟩ := (hmem_iff x).mp hx
    rw [hH6e, heapsGet_heapsSet]
    by_cases hxi : x = i
    · subst hxi
      rw [hpair'i] at hxpr
      have hpr : pr = (nc, s.c.getD m 0) := (Option.some.inj hxpr).symm
      rw [if_pos hpr]
      exact List.mem_cons_self _ _
    · rw [hpair'other x hxL hxi] at hxpr
      have hold : x ∈ heapsGet s.heaps pr := hI.heapOK x hxL pr hxpr
      by_cases hc1 : pr = (nc, s.c.getD m 0)
      · rw [if_pos hc1, ← hc1]
        exact List.mem_cons_of_mem i (hc1 ▸ hold)
      · rw [if_neg hc1]
        exact hold
  · intro a ha b hb
    rw [hLL'] at ha
    rw [hst6, hnxt'] at hb
    rw [hP6e]
    by_cases hai : a = i
    · subst hai
      rw [getD_set_eq s.nx a (some m) none (by omega)] at hb
      have hbm : m = b := Option.some.inj hb
      subst hbm
      exact getD_set_eq s.p m (some a) none (by omega)
    · rw [getD_set_ne s.nx (some m) none (fun h => hai h.symm)] at hb
      obtain ⟨haj, haL⟩ := (hmem_iff a).mp ha
      by_cases hbi : b = i
      · rw [hbi] at hb
        exact absurd hb (hnopred a haL)
      · by_cases hbm : b = m
        · subst hbm
          have h1 : s.p.getD b none = some a := hI.prevOK a haL b hb
          have h2 : s.p.getD b none = some j := hI.prevOK j hjmem b hnj'
          have : a = j := Option.some.inj (h1.symm.trans h2)
          exact absurd this haj
        · rw [getD_set_ne s.p (some i) none (fun h => hbm h.symm)]
          exact hI.prevOK a haL b hb
  · rw [hP6e, getD_set_ne s.p (some i) none (by omega)]
    exact hI.prev0

theorem mergeUpd_minv_nn (s : MSt) (i j nc : Nat) (hI : MInv s)
    (hmem : i ∈ liveList s) (hnx : s.nx.getD i none = some j)
    (hpi : s.p.getD i none = none) (hnj : s.nx.getD j none = none) :
    MInv (mergeUpd s i j nc) ∧
    liveList (mergeUpd s i j nc) = (liveList s).erase j := by
  have hA := hI.ascM
  have hnx' : (mSt2St s).nxt.getD i none = some j := hnx
  have hnj' : (mSt2St s).nxt.getD j none = none := hnj
  have h0 : 0 < s.c.length := liveList_length_pos hmem
  obtain ⟨hij, hjn'⟩ := hA i j hnx'
  have hjn : j < s.c.length := hjn'
  have hin : i < s.c.length := by omega
  have hnl : s.nx.length = s.c.length := hI.nlen
  have hpl : s.p.length = s.c.length := hI.plen
  have hnd : (liveList s).Nodup := posList_nodup s.c.length (mSt2St s) 0 hA
  have hfb : (mSt2St s).char.length - 0 ≤ s.c.length := by
    show s.c.length - 0 ≤ s.c.length
    omega
  have hjmem : j ∈ liveList s :=
    posList_succ_mem s.c.length (mSt2St s) 0 i j hA h0 hfb hmem hnx'
  have hLL' : liveList (mergeUpd s i j nc) = (liveList s).erase j := by
    unfold liveList
    have hlen : (mergeUpd s i j nc).c.length = s.c.length := by
      rw [mergeUpd_c]
      simp
    rw [hlen, mergeUpd_st]
    exact posList_merge_from s.c.length (mSt2St s) i j nc 0 hA hnx' h0 hfb hmem
  have hmem_iff : ∀ x : Nat, x ∈ (liveList s).erase j ↔ (x ≠ j ∧ x ∈ liveList s) :=
    fun x => List.Nodup.mem_erase_iff hnd
  have hji : j ≠ i := by omega
  have hnopred : ∀ a ∈ liveList s, (mSt2St s).nxt.getD a none ≠ some i := by
    intro a ha hne
    have := hI.prevOK a ha i hne
    rw [hpi] at this
    cases this
  have hpairi : pairAt (mSt2St s) i = some (s.c.getD i 0, s.c.getD j 0) :=
    pairAt_of_nxt_some hnx'
  have hpairj : pairAt (mSt2St s) j = none := pairAt_of_nxt_none hnj'
  have hapi : apGet s.atPos i = some (s.c.getD i 0, s.c.getD j 0) := by
    rw [hI.apOK i, if_pos hmem]
    exact hpairi
  have hapj : apGet s.atPos j = none := by
    rw [hI.apOK j, if_pos hjmem]
    exact hpairj
  have hnd0 := hI.apNodup
  have hnd1 : ((apDel s.atPos i).map Prod.fst).Nodup := apDel_nodup s.atPos i hnd0
  have e3 : apGet (apDel s.atPos i) j = none := by
    rw [apGet_apDel s.atPos i j hnd0, if_neg hji]
    exact hapj
  have hd2 : delPair s i = MSt.mk s.c s.p s.nx
      (cntAdd s.cnt (s.c.getD i 0, s.c.getD j 0) (-1)) s.heaps (apDel s.atPos i) := by
    rw [delPair_of_some hapi]
  have hd3 : delPair (delPair s i) j = MSt.mk s.c s.p s.nx
      (cntAdd s.cnt (s.c.getD i 0, s.c.getD j 0) (-1)) s.heaps (apDel s.atPos i) := by
    rw [hd2,
      delPair_of_none (show apGet (MSt.mk s.c s.p s.nx
        (cntAdd s.cnt (s.c.getD i 0, s.c.getD j 0) (-1)) s.heaps
        (apDel s.atPos i)).atPos j = none from e3)]
  have hS6 : mergeUpd s i j nc =
      addPair (MSt.mk (s.c.set i nc) s.p (s.nx.set i none)
        (cntAdd s.cnt (s.c.getD i 0, s.c.getD j 0) (-1)) s.heaps
        (apDel s.atPos i)) i := by
    simp only [mergeUpd, hpi, hnj]
    rw [hd3]
  have hi_nx5 : (MSt.mk (s.c.set i nc) s.p (s.nx.set i none)
      (cntAdd s.cnt (s.c.getD i 0, s.c.getD j 0) (-1)) s.heaps
      (apDel s.atPos i)).nx.getD i none = none := by
    show (s.nx.set i none).getD i none = none
    exact getD_set_eq s.nx i none none (by omega)
  have ha6 : mergeUpd s i j nc =
      MSt.mk (s.c.set i nc) s.p (s.nx.set i none)
        (cntAdd s.cnt (s.c.getD i 0, s.c.getD j 0) (-1)) s.heaps
        (apDel s.atPos i) := by
    rw [hS6, addPair_of_none hi_nx5]
  have hA6e : (mergeUpd s i j nc).atPos = apDel s.atPos i := by
    rw [ha6]
  have hC6e : (mergeUpd s i j nc).cnt =
      cntAdd s.cnt (s.c.getD i 0, s.c.getD j 0) (-1) := by
    rw [ha6]
  have hH6e : (mergeUpd s i j nc).heaps = s.heaps := by
    rw [ha6]
  have hP6e : (mergeUpd s i j nc).p = s.p := by
    rw [ha6]
  have hst6 : mSt2St (mergeUpd s i j nc) = mergeStep (mSt2St s) i none nc := by
    rw [mergeUpd_st, hnj]
  have hnxt' : (mergeStep (mSt2St s) i none nc).nxt = s.nx.set i none := rfl
  have hchar' : (mergeStep (mSt2St s) i none nc).char = s.c.set i nc := rfl
  have hpair'i : pairAt (mergeStep (mSt2St s) i none nc) i = none := by
    rw [pairAt_of_nxt_none (show (mergeStep (mSt2St s) i none nc).nxt.getD i none
      = none by rw [hnxt']; exact getD_set_eq s.nx i none none (by omega))]
  have hpair'other : ∀ x ∈ liveList s, x ≠ i →
      pairAt (mergeStep (mSt2St s) i none nc) x = pairAt (mSt2St s) x := by
    intro x hx hxi
    cases hbx : (mSt2St s).nxt.getD x none with
    | none =>
        rw [pairAt_of_nxt_none hbx, pairAt_of_nxt_none (show
          (mergeStep (mSt2St s) i none nc).nxt.getD x none = none by
            rw [hnxt', getD_set_ne s.nx none none (fun h => hxi h.symm)]
            exact hbx)]
    | some b =>
        have hbnei : b ≠ i := fun hbi => hnopred x hx (hbi ▸ hbx)
        rw [pairAt_of_nxt_some hbx, pairAt_of_nxt_some (show
          (mergeStep (mSt2St s) i none nc).nxt.getD x none = some b by
            rw [hnxt', getD_set_ne s.nx none none (fun h => hxi h.symm)]
            exact hbx)]
        rw [hchar', getD_set_ne s.c nc 0 (fun h => hxi h.symm),
          getD_set_ne s.c nc 0 (fun h => hbnei h.symm)]
        rfl
  refine ⟨⟨?_, ?_, ?_, ?_, ?_, ?_, ?_, ?_, ?_⟩, hLL'⟩
  · rw [hst6]
    have h := asc_mergeStep (mSt2St s) i j nc hA hnx'
    rw [hnj'] at h
    exact h
  · rw [hP6e, mergeUpd_c]
    simp [hpl]
  · rw [mergeUpd_nx, mergeUpd_c, hnj]
    simp [hnl]
  · rw [hA6e]
    exact apDel_nodup _ i hnd0
  · intro q'
    rw [hA6e, hLL', hst6]
    by_cases hq'i : q' = i
    · subst hq'i
      rw [apGet_apDel s.atPos q' q' hnd0, if_pos rfl,
        if_pos ((hmem_iff q').mpr ⟨by omega, hmem⟩), hpair'i]
    · rw [apGet_apDel s.atPos i q' hnd0, if_neg hq'i, hI.apOK q']
      by_cases hq'j : q' = j
      · subst hq'j
        rw [if_pos hjmem, if_neg (fun hc => absurd ((hmem_iff q').mp hc).1 (by simp)),
          hpairj]
      · by_cases hq'L : q' ∈ liveList s
        · rw [if_pos hq'L, if_pos ((hmem_iff q').mpr ⟨hq'j, hq'L⟩),
            hpair'other q' hq'L hq'i]
        · rw [if_neg hq'L, if_neg (fun hc => hq'L ((hmem_iff q').mp hc).2)]
  · intro pr
    rw [hC6e, hLL', hst6]
    rw [cntGet_cntAdd, hI.cntOK pr]
    have dj := countP_erase_of_mem
      (fun x => decide (pairAt (mSt2St s) x = some pr)) hjmem
    simp only [] at dj
    have hiE : i ∈ (liveList s).erase j := (hmem_iff i).mpr ⟨by omega, hmem⟩
    have hndE : ((liveList s).erase j).Nodup := hnd.erase j
    have diP' := countP_erase_of_mem
      (fun x => decide (pairAt (mergeStep (mSt2St s) i none nc) x = some pr)) hiE
    have diP := countP_erase_of_mem
      (fun x => decide (pairAt (mSt2St s) x = some pr)) hiE
    simp only [] at diP' diP
    have hrest : (((liveList s).erase j).erase i).countP
        (fun x => decide (pairAt (mergeStep (mSt2St s) i none nc) x = some pr)) =
        (((liveList s).erase j).erase i).countP
        (fun x => decide (pairAt (mSt2St s) x = some pr)) := by
      apply countP_congr'
      intro x hx
      have hx2 := (List.Nodup.mem_erase_iff hndE).mp hx
      have hx3 := (hmem_iff x).mp hx2.2
      rw [hpair'other x hx3.2 hx2.1]
    have lj : (if (decide (pairAt (mSt2St s) j = some pr)) then (1:Int) else 0) = 0 := by
      rw [hpairj]
      simp
    have li : (if (decide (pairAt (mSt2St s) i = some pr)) then (1:Int) else 0) =
        -(if pr = (s.c.getD i 0, s.c.getD j 0) then (-1:Int) else 0) := by
      rw [hpairi]
      exact ind_link_negZ _ pr
    have l'i : (if (decide (pairAt (mergeStep (mSt2St s) i none nc) i = some pr))
        then (1:Int) else 0) = 0 := by
      rw [hpair'i]
      simp
    rw [dj, diP, diP', hrest]
    push_cast
    rw [lj, li, l'i]
    ring
  · intro x hx pr hxpr
    rw [hLL'] at hx
    rw [hst6] at hxpr
    obtain ⟨hxj, hxL⟩ := (hmem_iff x).mp hx
    rw [hH6e]
    by_cases hxi : x = i
    · subst hxi
      rw [hpair'i] at hxpr
      cases hxpr
    · rw [hpair'other x hxL hxi] at hxpr
      exact hI.heapOK x hxL pr hxpr
  · intro a ha b hb
    rw [hLL'] at ha
    rw [hst6, hnxt'] at hb
    rw [hP6e]
    by_cases hai : a = i
    · subst hai
      rw [getD_set_eq s.nx a none none (by omega)] at hb
      cases hb
    · rw [getD_set_ne s.nx none none (fun h => hai h.symm)] at hb
      obtain ⟨haj, haL⟩ := (hmem_iff a).mp ha
      by_cases hbi : b = i
      · rw [hbi] at hb
        exact absurd hb (hnopred a haL)
      · exact hI.prevOK a haL b hb
  · rw [hP6e]
    exact hI.prev0

/-- One MLE merge step at a live occurrence preserves the index invariant and
removes exactly the consumed right node from the live list. -/
theorem mergeUpd_minv (s : MSt) (i j nc : Nat) (hI : MInv s)
    (hmem : i ∈ liveList s) (hnx : s.nx.getD i none = some j) :
    MInv (mergeUpd s i j nc) ∧
    liveList (mergeUpd s i j nc) = (liveList s).erase j := by
  cases hpi : s.p.getD i none with
  | none =>
      cases hnj : s.nx.getD j none with
      | none => exact mergeUpd_minv_nn s i j nc hI hmem hnx hpi hnj
      | some m => exact mergeUpd_minv_ns s i j m nc hI hmem hnx hpi hnj
  | some q =>
      cases hnj : s.nx.getD j none with
      | none => exact mergeUpd_minv_sn s i j q nc hI hmem hnx hpi hnj
      | some m => exact mergeUpd_minv_ss s i j q m nc hI hmem hnx hpi hnj

/-- The MLE merge loop tracks the reference merge pass exactly: same arrays
at the end, and the index invariant is maintained. -/
theorem mergeLoopM_sim (fuel : Nat) : ∀ (s : MSt) (cur lm : Option Nat) (bp : SPair)
    (nc : Nat), MInv s →
    (∀ i, cur = some i → i ∈ liveList s) →
    (∀ x, lm = some x → x ∉ liveList s) →
    MInv (mergeLoopM fuel bp nc s cur lm) ∧
    mSt2St (mergeLoopM fuel bp nc s cur lm) =
      (mergePass fuel bp nc (mSt2St s) cur).1 := by
  induction fuel with
  | zero =>
      intro s cur lm bp nc hI _ _
      exact ⟨hI, rfl⟩
  | succ f ih =>
      intro s cur lm bp nc hI hcur hlm
      cases cur with
      | none => exact ⟨hI, rfl⟩
      | some i =>
          have hiL : i ∈ liveList s := hcur i rfl
          have hA := hI.ascM
          have h0 : 0 < s.c.length := liveList_length_pos hiL
          have hfb : (mSt2St s).char.length - 0 ≤ s.c.length := by
            show s.c.length - 0 ≤ s.c.length
            omega
          have hnd : (liveList s).Nodup := posList_nodup s.c.length (mSt2St s) 0 hA
          cases hnx : s.nx.getD i none with
          | none =>
              have hnx' : (mSt2St s).nxt.getD i none = none := hnx
              have hap : apGet s.atPos i = none := by
                rw [hI.apOK i, if_pos hiL]
                exact pairAt_of_nxt_none hnx'
              have hg : ¬ (apGet s.atPos i = some bp ∧ some i ≠ lm) := by
                intro hcon
                rw [hap] at hcon
                cases hcon.1
              rw [mergeLoopM_succ_miss f bp nc s i lm hg, hnx, mergeLoopM_none,
                mergePass_succ_none f bp nc (mSt2St s) i hnx']
              exact ⟨hI, rfl⟩
          | some j =>
              have hnx' : (mSt2St s).nxt.getD i none = some j := hnx
              obtain ⟨hij, hjn'⟩ := hA i j hnx'
              have hjmem : j ∈ liveList s :=
                posList_succ_mem s.c.length (mSt2St s) 0 i j hA h0 hfb hiL hnx'
              have hap : apGet s.atPos i = some (s.c.getD i 0, s.c.getD j 0) := by
                rw [hI.apOK i, if_pos hiL]
                exact pairAt_of_nxt_some hnx'
              by_cases hmatch : (mSt2St s).char.getD i 0 = bp.1 ∧
                  (mSt2St s).char.getD j 0 = bp.2
              · -- a merge happens here
                have hpbp : ((s.c.getD i 0, s.c.getD j 0) : SPair) = bp :=
                  Prod.ext hmatch.1 hmatch.2
                have hlmne : some i ≠ lm := by
                  cases hlmc : lm with
                  | none => simp
                  | some x =>
                      have hxdead := hlm x hlmc
                      intro hcon
                      have : i = x := Option.some.inj hcon
                      exact hxdead (this ▸ hiL)
                rw [mergeLoopM_succ_hit f bp nc s i j lm ⟨by rw [hap, hpbp], hlmne⟩ hnx,
                  mergePass_succ_hit f bp nc (mSt2St s) i j hnx' hmatch]
                obtain ⟨hI', hLL'⟩ := mergeUpd_minv s i j nc hI hiL hnx
                have hcur' : ∀ x, s.nx.getD j none = some x →
                    x ∈ liveList (mergeUpd s i j nc) := by
                  intro x hx
                  rw [hLL']
                  obtain ⟨hjx, hxn⟩ := hA j x hx
                  have hxL : x ∈ liveList s :=
                    posList_succ_mem s.c.length (mSt2St s) 0 j x hA h0 hfb hjmem hx
                  exact (List.Nodup.mem_erase_iff hnd).mpr ⟨by omega, hxL⟩
                have hlm' : ∀ x, (some j : Option Nat) = some x →
                    x ∉ liveList (mergeUpd s i j nc) := by
                  intro x hx
                  have hjx : j = x := Option.some.inj hx
                  subst hjx
                  rw [hLL']
                  intro hc
                  exact ((List.Nodup.mem_erase_iff hnd).mp hc).1 rfl
                obtain ⟨hIfin, hstfin⟩ :=
                  ih (mergeUpd s i j nc) (s.nx.getD j none) (some j) bp nc hI' hcur' hlm'
                refine ⟨hIfin, ?_⟩
                rw [hstfin, mergeUpd_st]
                rfl
              · -- no merge at this node
                have hg : ¬ (apGet s.atPos i = some bp ∧ some i ≠ lm) := by
                  intro hcon
                  rw [hap] at hcon
                  have := Option.some.inj hcon.1
                  exact hmatch ⟨congrArg Prod.fst this, congrArg Prod.snd this⟩
                rw [mergeLoopM_succ_miss f bp nc s i lm hg, hnx,
                  mergePass_succ_miss f bp nc (mSt2St s) i j hnx' hmatch]
                exact ih s (some j) lm bp nc hI (fun x hx => (Option.some.inj hx) ▸ hjmem)
                  hlm

theorem initIdx_none (fuel : Nat) (s : MSt) : initIdx fuel s none = s := by
  cases fuel <;> rfl

theorem initIdx_succ (fuel : Nat) (s : MSt) (i : Nat) :
    initIdx (fuel + 1) s (some i) = initIdx fuel (addPair s i) (s.nx.getD i none) := rfl

theorem addPair_mSt2St (s : MSt) (i : Nat) : mSt2St (addPair s i) = mSt2St s := by
  unfold mSt2St
  rw [addPair_c, addPair_p, addPair_nx]

theorem posList_initSt (text : List Nat) (fuel : Nat) : ∀ i, i < text.length →
    text.length - i ≤ fuel →
    posList fuel (initSt text) (some i) = List.range' i (text.length - i) := by
  induction fuel with
  | zero => intro i hi hf; omega
  | succ f ih =>
      intro i hi hf
      have hnx : (initSt text).nxt.getD i none =
          (if i < text.length - 1 then some (i + 1) else none) := by
        show (((List.range text.length).map
          (fun k => if k < text.length - 1 then some (k + 1) else none)).getD i none) = _
        rw [getD_range_map, if_pos hi]
      by_cases hlt : i < text.length - 1
      · rw [if_pos hlt] at hnx
        simp only [posList]
        rw [hnx, ih (i + 1) (by omega) (by omega)]
        rw [show text.length - i = (text.length - (i + 1)) + 1 from by omega]
        rfl
      · rw [if_neg hlt] at hnx
        simp only [posList]
        rw [hnx, posList_none]
        rw [show text.length - i = 1 from by omega]
        rfl

/-- The initial `add_pair` sweep establishes the index invariant. -/
theorem initIdx_inv (text : List Nat) : ∀ (fuel i : Nat) (s : MSt),
    s.c = text → s.p = (initMSt text).p → s.nx = (initMSt text).nx →
    i < text.length → text.length - i ≤ fuel →
    ((s.atPos.map Prod.fst).Nodup) →
    (∀ q : Nat, apGet s.atPos q =
      (if q < i then pairAt (mSt2St s) q else none)) →
    (∀ pr : SPair, cntGet s.cnt pr =
      (((List.range i).countP (fun q => decide (pairAt (mSt2St s) q = some pr)) : Int))) →
    (∀ q, q < i → ∀ pr : SPair, pairAt (mSt2St s) q = some pr → q ∈ heapsGet s.heaps pr) →
    MInv (initIdx fuel s (some i)) := by
  intro fuel
  induction fuel with
  | zero => intro i s _ _ _ hi hf; omega
  | succ f ih =>
      intro i s hc hp hnxe hi hf hndp hap hcnt hheap
      have hnxi : s.nx.getD i none =
          (if i < text.length - 1 then some (i + 1) else none) := by
        rw [hnxe]
        show (((List.range text.length).map
          (fun k => if k < text.length - 1 then some (k + 1) else none)).getD i none) = _
        rw [getD_range_map, if_pos hi]
      rw [initIdx_succ]
      by_cases hlt : i < text.length - 1
      · -- process position i and continue
        rw [if_pos hlt] at hnxi
        have hpairi : pairAt (mSt2St s) i =
            some (s.c.getD i 0, s.c.getD (i + 1) 0) := pairAt_of_nxt_some hnxi
        have hadd : addPair s i = { s with
            cnt := cntAdd s.cnt (s.c.getD i 0, s.c.getD (i + 1) 0) 1
            heaps := heapsSet s.heaps (s.c.getD i 0, s.c.getD (i + 1) 0)
              (i :: heapsGet s.heaps (s.c.getD i 0, s.c.getD (i + 1) 0))
            atPos := apSet s.atPos i (s.c.getD i 0, s.c.getD (i + 1) 0) } :=
          addPair_of_some hnxi
        have hstep : mSt2St (addPair s i) = mSt2St s := addPair_mSt2St s i
        rw [hnxi]
        refine ih (i + 1) (addPair s i) ?_ ?_ ?_ (by omega) (by omega) ?_ ?_ ?_ ?_
        · rw [addPair_c, hc]
        · rw [addPair_p, hp]
        · rw [addPair_nx, hnxe]
        · rw [hadd]
          exact apSet_nodup _ i _ hndp
        · intro q
          rw [hstep, hadd]
          show apGet (apSet s.atPos i (s.c.getD i 0, s.c.getD (i + 1) 0)) q = _
          rw [apGet_apSet]
          by_cases hqi : q = i
          · subst hqi
            rw [if_pos rfl, if_pos (by omega), hpairi]
          · rw [if_neg hqi, hap q]
            by_cases hql : q < i
            · rw [if_pos hql, if_pos (by omega)]
            · rw [if_neg hql, if_neg (by omega)]
        · intro pr
          rw [hstep, hadd]
          show cntGet (cntAdd s.cnt (s.c.getD i 0, s.c.getD (i + 1) 0) 1) pr = _
          rw [cntGet_cntAdd, hcnt pr, List.range_succ, List.countP_append]
          have hone : List.countP
              (fun q => decide (pairAt (mSt2St s) q = some pr)) [i] =
              (if (decide (pairAt (mSt2St s) i = some pr)) then 1 else 0) := by
            rw [List.countP_cons, List.countP_nil]
            simp
          rw [hone]
          have hlink : ((if (decide (pairAt (mSt2St s) i = some pr))
              then (1:Nat) else 0) : Int) =
              (if pr = (s.c.getD i 0, s.c.getD (i + 1) 0) then (1:Int) else 0) := by
            rw [hpairi]
            by_cases h : pr = (s.c.getD i 0, s.c.getD (i + 1) 0)
            · subst h
              simp
            · have hd : (decide ((some (s.c.getD i 0, s.c.getD (i + 1) 0) :
                  Option SPair) = some pr)) = false := by
                simp only [decide_eq_false_iff_not, Option.some.injEq]
                exact fun hc => h hc.symm
              rw [hd, if_neg h]
              simp
          push_cast
          push_cast at hlink
          omega
        · intro q hq pr hqpr
          rw [hstep] at hqpr
          rw [hadd]
          show q ∈ heapsGet (heapsSet s.heaps (s.c.getD i 0, s.c.getD (i + 1) 0)
            (i :: heapsGet s.heaps (s.c.getD i 0, s.c.getD (i + 1) 0))) pr
          rw [heapsGet_heapsSet]
          by_cases hqi : q = i
          · subst hqi
            rw [hqpr] at hpairi
            have hpr : pr = (s.c.getD q 0, s.c.getD (q + 1) 0) :=
              Option.some.inj hpairi
            rw [if_pos hpr]
            exact List.mem_cons_self _ _
          · have hold : q ∈ heapsGet s.heaps pr := hheap q (by omega) pr hqpr
            by_cases hco : pr = (s.c.getD i 0, s.c.getD (i + 1) 0)
            · rw [if_pos hco, ← hco]
              exact List.mem_cons_of_mem i (hco ▸ hold)
            · rw [if_neg hco]
              exact hold
      · -- last node: no pair starts here; the sweep ends
        rw [if_neg hlt] at hnxi
        have hieq : i = text.length - 1 := by omega
        have hpairi : pairAt (mSt2St s) i = none := pairAt_of_nxt_none hnxi
        rw [hnxi, addPair_of_none hnxi, initIdx_none]
        have hmst : mSt2St s = initSt text := by
          unfold mSt2St initSt
          rw [hc, hp, hnxe]
          rfl
        have hlive : liveList s = List.range text.length := by
          unfold liveList
          rw [hmst, hc, posList_initSt text text.length 0 (by omega) (by omega)]
          rw [List.range_eq_range']
          rw [show text.length - 0 = text.length from by omega]
        refine ⟨?_, ?_, ?_, hndp, ?_, ?_, ?_, ?_, ?_⟩
        · rw [hmst]
          exact asc_initSt text
        · rw [hp, hc]
          simp [initMSt]
        · rw [hnxe, hc]
          simp [initMSt]
        · intro q
          rw [hap q, hlive]
          by_cases hql : q < i
          · rw [if_pos hql, if_pos (by rw [List.mem_range]; omega)]
          · by_cases hqi : q = i
            · subst hqi
              rw [if_neg hql, if_pos (by rw [List.mem_range]; omega), hpairi]
            · rw [if_neg hql, if_neg (by rw [List.mem_range]; omega)]
        · intro pr
          rw [hcnt pr, hlive]
          rw [show text.length = i + 1 from by omega, List.range_succ,
            List.countP_append]
          have hone : List.countP
              (fun q => decide (pairAt (mSt2St s) q = some pr)) [i] = 0 := by
            rw [List.countP_cons, List.countP_nil, hpairi]
            simp
          rw [hone]
          omega
        · intro q hq pr hqpr
          rw [hlive, List.mem_range] at hq
          by_cases hqi : q = i
          · subst hqi
            rw [hpairi] at hqpr
            cases hqpr
          · exact hheap q (by omega) pr hqpr
        · intro a ha b hb
          rw [hlive, List.mem_range] at ha
          have hnxa : s.nx.getD a none =
              (if a < text.length - 1 then some (a + 1) else none) := by
            rw [hnxe]
            show (((List.range text.length).map
              (fun k => if k < text.length - 1 then some (k + 1) else none)).getD a none)
              = _
            rw [getD_range_map, if_pos ha]
          have hb' : s.nx.getD a none = some b := hb
          rw [hnxa] at hb'
          by_cases halt : a < text.length - 1
          · rw [if_pos halt] at hb'
            have hba : b = a + 1 := (Option.some.inj hb').symm
            subst hba
            rw [hp]
            show (((List.range text.length).map
              (fun k => if 0 < k then some (k - 1) else none)).getD (a + 1) none) = _
            rw [getD_range_map, if_pos (by omega), if_pos (by omega)]
            simp
          · rw [if_neg halt] at hb'
            cases hb'
        · rw [hp]
          show (((List.range text.length).map
            (fun k => if 0 < k then some (k - 1) else none)).getD 0 none) = none
          rw [getD_range_map, if_pos (by omega), if_neg (by omega)]

/-- After the initial sweep, the MLE index invariant holds. -/
theorem initIdx_minv (text : List Nat) (h0 : 0 < text.length) :
    MInv (initIdx text.length (initMSt text) (some 0)) := by
  refine initIdx_inv text text.length 0 (initMSt text) rfl rfl rfl h0 (by omega)
    (by simp [initMSt]) ?_ ?_ ?_
  · intro q
    rw [if_neg (by omega)]
    rfl
  · intro pr
    show (0 : Int) = _
    simp
  · intro q hq
    omega

theorem roundLoopM_succ_stop (k t : Nat) (s : MSt) (h : (selBest s).1 = none) :
    roundLoopM (k + 1) t s = (selBest s).2 := by
  simp only [roundLoopM]
  rw [h]

theorem roundLoopM_succ_some (k t : Nat) (s : MSt) (bp : SPair)
    (h : (selBest s).1 = some bp) :
    roundLoopM (k + 1) t s =
      roundLoopM k (t + 1) (mergeLoopM s.c.length bp t (selBest s).2 (some 0) none) := by
  simp only [roundLoopM]
  rw [h]

/-- Round-level simulation: the MLE driver computes the same arrays as the
reference driver. -/
theorem roundLoopM_eq (k : Nat) : ∀ (t : Nat) (s : MSt), MInv s → 0 < s.c.length →
    mSt2St (roundLoopM k t s) = (roundLoop k t (mSt2St s)).1 := by
  induction k with
  | zero => intro t s _ _; rfl
  | succ n ih =>
      intro t s hI h0
      obtain ⟨hsel, hIsel, hsame⟩ := selBest_eq s hI h0
      have hstsel : mSt2St (selBest s).2 = mSt2St s := sameArr_mSt2St hsame
      cases hb : findBest (scanPairs (mSt2St s).char.length (mSt2St s) (some 0) []) with
      | none =>
          have hsel' : (selBest s).1 = none := by rw [hsel, hb]
          rw [roundLoopM_succ_stop n t s hsel',
            roundLoop_succ_stop n t (mSt2St s) (Or.inr hb)]
          exact hstsel
      | some bp =>
          have hsel' : (selBest s).1 = some bp := by rw [hsel, hb]
          have hrne : scanPairs (mSt2St s).char.length (mSt2St s) (some 0) [] ≠ [] := by
            intro hc
            rw [hc] at hb
            have hfn : findBest ([] : List PairRec) = none := rfl
            rw [hfn] at hb
            cases hb
          rw [roundLoopM_succ_some n t s bp hsel',
            roundLoop_succ_some n t (mSt2St s) bp hrne hb]
          dsimp only
          have h0' : 0 < (selBest s).2.c.length := by
            rw [hsame.1]
            exact h0
          have hmem0 : 0 ∈ liveList (selBest s).2 := zero_mem_liveList _ hIsel.ascM h0'
          obtain ⟨hIm, hstm⟩ := mergeLoopM_sim s.c.length (selBest s).2 (some 0) none bp t
            hIsel (fun x hx => (Option.some.inj hx) ▸ hmem0) (by intro x hx; cases hx)
          have hlenm : (mergeLoopM s.c.length bp t (selBest s).2 (some 0) none).c.length
              = s.c.length := by
            have h1 : (mSt2St (mergeLoopM s.c.length bp t (selBest s).2
                (some 0) none)).char.length = s.c.length := by
              rw [hstm, mergePass_fst_charLen, hstsel]
              rfl
            exact h1
          rw [ih (t + 1) (mergeLoopM s.c.length bp t (selBest s).2 (some 0) none) hIm
            (by rw [hlenm]; exact h0)]
          rw [hstm, hstsel]
          rfl

theorem initIdx_c (fuel : Nat) : ∀ (s : MSt) (cur : Option Nat),
    (initIdx fuel s cur).c = s.c := by
  induction fuel with
  | zero => intro s cur; rfl
  | succ f ih =>
      intro s cur
      cases cur with
      | none => rfl
      | some i => rw [initIdx_succ, ih, addPair_c]

theorem initIdx_p (fuel : Nat) : ∀ (s : MSt) (cur : Option Nat),
    (initIdx fuel s cur).p = s.p := by
  induction fuel with
  | zero => intro s cur; rfl
  | succ f ih =>
      intro s cur
      cases cur with
      | none => rfl
      | some i => rw [initIdx_succ, ih, addPair_p]

theorem initIdx_nx (fuel : Nat) : ∀ (s : MSt) (cur : Option Nat),
    (initIdx fuel s cur).nx = s.nx := by
  induction fuel with
  | zero => intro s cur; rfl
  | succ f ih =>
      intro s cur
      cases cur with
      | none => rfl
      | some i => rw [initIdx_succ, ih, addPair_nx]

/-- heap_solution_MLE.py computes the same function as the reference
compressor. -/
theorem compress_text_mle_eq (s : List Nat) (k : Int) :
    compress_text_mle s k = compress_text s k := by
  unfold compress_text_mle compress_text
  by_cases h : s = [] ∨ k ≤ 0
  · rw [if_pos h, if_pos h]
  · rw [if_neg h, if_neg h]
    have hne : s ≠ [] := fun hc => h (Or.inl hc)
    have h0 : 0 < s.length := List.length_pos.mpr hne
    have hI0 : MInv (initIdx s.length (initMSt s) (some 0)) := initIdx_minv s h0
    have hc0 : (initIdx s.length (initMSt s) (some 0)).c.length = s.length := by
      rw [initIdx_c]
      rfl
    rw [roundLoopM_eq k.toNat 65 _ hI0 (by rw [hc0]; exact h0)]
    have hst : mSt2St (initIdx s.length (initMSt s) (some 0)) = initSt s := by
      unfold mSt2St initSt
      rw [initIdx_c, initIdx_p, initIdx_nx]
      rfl
    rw [hst]

/-- C4: For every input string and every integer k, the four `compress_text`
implementations (compressor_solution.py, heap_solution.py,
optimized_heap_solution.py, heap_solution_MLE.py) return identical output
strings; in particular the incremental pair-index maintenance of
heap_solution_MLE.py is extensionally equal to the full-rebuild reference
semantics of compressor_solution.py. -/
theorem claim_C4 (s : List Nat) (k : Int) :
    compress_text_heap s k = compress_text s k ∧
    compress_text_opt s k = compress_text s k ∧
    compress_text_mle s k = compress_text s k :=
  ⟨compress_text_heap_eq s k, compress_text_opt_eq s k, compress_text_mle_eq s k⟩

end RePair
